import Mathlib

set_option linter.unusedTactic false
set_option linter.unreachableTactic false
set_option linter.unusedVariables false

/-! Magic mount: planner and applier (`src/magic_mount.c`).

A shallow embedding of the mount planner/applier.  The C code talks to the
kernel and to helper modules; here every system call that changes something is
recorded, in order, in a trace of `Op`s, and every answer of the outside world
(results of `lstat`, `readdir`, the errno of a `mount`, ...) is read from a
`World`, which may answer differently depending on the operations issued so far.
Recursive functions take a fuel argument and return `none` when it runs out.
-/

/-! ## Node model (`module_tree.h`) -/

inductive NodeFileType
  | NFT_REGULAR
  | NFT_DIRECTORY
  | NFT_SYMLINK
  | NFT_WHITEOUT
deriving DecidableEq, Repr

/-- Modelled from the spec: the `Node` struct of `module_tree.h` (section 3 of the
spec): name, type, ordered children, optional module path and module name, and
the flags `replace`, `skip`, `done`. -/
inductive Node where
  | mk (name : String) (type : NodeFileType) (children : List Node)
      (module_path : Option String) (module_name : Option String)
      (replace : Bool) (skip : Bool) (done : Bool) : Node

namespace Node

def name : Node → String
  | mk n _ _ _ _ _ _ _ => n

def type : Node → NodeFileType
  | mk _ t _ _ _ _ _ _ => t

def children : Node → List Node
  | mk _ _ c _ _ _ _ _ => c

def module_path : Node → Option String
  | mk _ _ _ p _ _ _ _ => p

def module_name : Node → Option String
  | mk _ _ _ _ n _ _ _ => n

def replace : Node → Bool
  | mk _ _ _ _ _ r _ _ => r

def skip : Node → Bool
  | mk _ _ _ _ _ _ s _ => s

def done : Node → Bool
  | mk _ _ _ _ _ _ _ d => d

def child_count (n : Node) : Nat := n.children.length

/-- The assignment `c->skip = b`. -/
def set_skip : Node → Bool → Node
  | mk n t c p mn r _ d, b => mk n t c p mn r b d

/-- The assignment `c->done = b`. -/
def set_done : Node → Bool → Node
  | mk n t c p mn r s _, b => mk n t c p mn r s b

/-- The node with its child array replaced (children are mutated in place in C). -/
def set_children : Node → List Node → Node
  | mk n t _ p mn r s d, cs => mk n t cs p mn r s d

/-- The node after its `i`-th child has been mutated into `c`. -/
def set_child (n : Node) (i : Nat) (c : Node) : Node :=
  n.set_children (n.children.set i c)

mutual
/-- Number of nodes of the tree rooted at a node. -/
def count : Node → Nat
  | mk _ _ cs _ _ _ _ _ => 1 + countList cs
def countList : List Node → Nat
  | [] => 0
  | c :: cs => count c + countList cs
end

mutual
/-- Height of the tree rooted at a node (a leaf has height 1). -/
def height : Node → Nat
  | mk _ _ cs _ _ _ _ _ => 1 + heightList cs
def heightList : List Node → Nat
  | [] => 0
  | c :: cs => max (height c) (heightList cs)
end

end Node

open NodeFileType

/-- Position of the first node called `name` in a child array, with the node. -/
def find_child (name : String) : List Node → Option (Nat × Node)
  | [] => none
  | c :: cs =>
    if c.name = name then some (0, c)
    else match find_child name cs with
      | some (i, d) => some (i + 1, d)
      | none => none

/-- Modelled from the spec: `node_child_find(parent, name)` of `module_tree.h`,
the child of `parent` called `name` (the first one in child order), or null.
The pointer is rendered as the child's index together with the child. -/
def node_child_find (parent : Node) (name : String) : Option (Nat × Node) :=
  find_child name parent.children

/-! ## Context (`magic_mount.h`) -/

structure Stats where
  nodes_mounted : Nat
  nodes_fail : Nat
  nodes_whiteout : Nat
deriving DecidableEq, Repr

/-- Modelled from the spec: the `MagicMount` context of `magic_mount.h`. -/
structure MagicMount where
  module_dir : String
  mount_source : String
  enable_unmountable : Bool
  stats : Stats
deriving DecidableEq, Repr

/-! ## Operations and the outside world -/

/-- The calls with an effect outside the process, as issued by the code. -/
inductive Op
  /-- `mount(src, dst, NULL, MS_BIND, NULL)` -/
  | mount_bind (src dst : String)
  /-- `mount(NULL, target, NULL, MS_REMOUNT | MS_BIND | MS_RDONLY, NULL)` -/
  | mount_remount_ro (target : String)
  /-- `mount(src, dst, NULL, MS_MOVE, NULL)` -/
  | mount_move (src dst : String)
  /-- `mount(NULL, target, NULL, MS_REC | MS_PRIVATE, NULL)` -/
  | mount_private (target : String)
  /-- `mount(source, target, "tmpfs", 0, "")` -/
  | mount_tmpfs (source target : String)
  /-- `umount2(target, MNT_DETACH)` -/
  | umount2_detach (target : String)
  | rmdir (path : String)
  | mkdir_p (path : String)
  | mkdir (path : String) (mode : Nat)
  /-- `open(path, O_CREAT | O_WRONLY, mode)` followed by `close` -/
  | open_creat (path : String) (mode : Nat)
  | symlink (target dst : String)
  | chmod (path : String) (mode : Nat)
  | chown (path : String) (uid gid : Nat)
  | copy_selcon (src dst : String)
  | ksu_send_unmountable (path : String)
  | module_mark_failed (module_name : String)
deriving DecidableEq, Repr

structure Stat where
  st_mode : Nat
  st_uid : Nat
  st_gid : Nat
deriving DecidableEq, Repr

def S_IFMT : Nat := 0o170000
def S_ISREG (mode : Nat) : Bool := mode &&& S_IFMT == 0o100000
def S_ISDIR (mode : Nat) : Bool := mode &&& S_IFMT == 0o040000
def S_ISLNK (mode : Nat) : Bool := mode &&& S_IFMT == 0o120000
def EEXIST : Nat := 17
def PATH_MAX : Nat := 4096

/-- Everything the code asks of its surroundings.  Each answer may depend on
the operations issued so far (the first argument).  `sys_errno` is the errno of
an operation, `0` for success; `path_join`, `node_type_from_stat` and
`build_mount_tree` are the helpers of `utils.h` and `module_tree.h`, which are
not part of the source file. -/
structure World where
  path_join : String → String → Option String
  node_type_from_stat : Stat → NodeFileType
  build_mount_tree : MagicMount → Option Node
  path_exists : List Op → String → Bool
  lstat : List Op → String → Option Stat
  stat : List Op → String → Option Stat
  /-- `opendir` and the names the following `readdir` calls return -/
  opendir : List Op → String → Option (List String)
  readlink : List Op → String → Option String
  sys_errno : List Op → Op → Nat

/-- The context together with the operations issued so far. -/
structure Machine where
  ctx : MagicMount
  trace : List Op
deriving DecidableEq, Repr

namespace Machine

/-- Record an operation as issued. -/
def emit (m : Machine) (op : Op) : Machine :=
  { m with trace := m.trace ++ [op] }

/-- `ctx->stats.nodes_mounted++` -/
def inc_mounted (m : Machine) : Machine :=
  { m with ctx := { m.ctx with stats :=
      { m.ctx.stats with nodes_mounted := m.ctx.stats.nodes_mounted + 1 } } }

/-- `ctx->stats.nodes_fail++` -/
def inc_fail (m : Machine) : Machine :=
  { m with ctx := { m.ctx with stats :=
      { m.ctx.stats with nodes_fail := m.ctx.stats.nodes_fail + 1 } } }

/-- `ctx->stats.nodes_whiteout++` -/
def inc_whiteout (m : Machine) : Machine :=
  { m with ctx := { m.ctx with stats :=
      { m.ctx.stats with nodes_whiteout := m.ctx.stats.nodes_whiteout + 1 } } }

end Machine

/-! ## String helpers of libc -/

/-- `strrchr(s, c)`: offset of the last occurrence of `c`. -/
def strrchr : List Char → Char → Option Nat
  | [], _ => none
  | x :: xs, c =>
    match strrchr xs c with
    | some i => some (i + 1)
    | none => if x = c then some 0 else none

/-- `strstr(hay, needle) != NULL` -/
def strstr (hay needle : String) : Bool :=
  hay.data.tails.any (fun t => needle.data.isPrefixOf t)

/-- The directory `mm_apply_regular_file` passes to `mkdir_p`: `wpath` copied
into a `PATH_MAX` buffer and cut at its last slash, when there is one and it is
not the first character. -/
def parent_dir (wpath : String) : Option String :=
  let buf := wpath.data.take (PATH_MAX - 1)
  match strrchr buf '/' with
  | some (i + 1) => some ⟨buf.take (i + 1)⟩
  | _ => none

/-! ## The functions of `magic_mount.c` -/

def magic_mount_init (DEFAULT_MODULE_DIR DEFAULT_MOUNT_SOURCE : String) : MagicMount :=
  { module_dir := DEFAULT_MODULE_DIR
    mount_source := DEFAULT_MOUNT_SOURCE
    enable_unmountable := true
    stats := ⟨0, 0, 0⟩ }

def mm_clone_symlink (w : World) (src dst : String) (m : Machine) : Int × Machine :=
  match w.readlink m.trace src with
  | none => (-1, m)
  | some target =>
    if w.sys_errno m.trace (Op.symlink target dst) ≠ 0 then
      (-1, m.emit (Op.symlink target dst))
    else
      (0, (m.emit (Op.symlink target dst)).emit (Op.copy_selcon src dst))

/-- The `readdir` loop of `mm_mirror_entry`; `mirror` is the recursive call on
one entry name. -/
def mirror_children (mirror : String → Machine → Option (Int × Machine)) :
    List String → Machine → Option (Int × Machine)
  | [], m => some (0, m)
  | de :: rest, m =>
    if de = "." ∨ de = ".." then mirror_children mirror rest m
    else
      match mirror de m with
      | none => none
      | some (r, m1) =>
        if r ≠ 0 then some (-1, m1) else mirror_children mirror rest m1

/-- The regular-file case of `mm_mirror_entry`: an empty file with the
source's permission bits, then the bind mount of the source over it. -/
def mirror_regular (w : World) (src dst : String) (st : Stat) (m : Machine) :
    Int × Machine :=
  if w.sys_errno m.trace (Op.open_creat dst (st.st_mode &&& 0o7777)) ≠ 0 then
    (-1, m.emit (Op.open_creat dst (st.st_mode &&& 0o7777)))
  else if w.sys_errno (m.emit (Op.open_creat dst (st.st_mode &&& 0o7777))).trace
      (Op.mount_bind src dst) ≠ 0 then
    (-1, (m.emit (Op.open_creat dst (st.st_mode &&& 0o7777))).emit (Op.mount_bind src dst))
  else
    (0, (m.emit (Op.open_creat dst (st.st_mode &&& 0o7777))).emit (Op.mount_bind src dst))

/-- The directory case of `mm_mirror_entry` before `opendir`: `mkdir` (an
existing directory is accepted), `chmod`, `chown`, `copy_selcon`. -/
def mirror_mkdir (w : World) (src dst : String) (st : Stat) (m : Machine) :
    Int × Machine :=
  if w.sys_errno m.trace (Op.mkdir dst (st.st_mode &&& 0o7777)) ≠ 0 ∧
      w.sys_errno m.trace (Op.mkdir dst (st.st_mode &&& 0o7777)) ≠ EEXIST then
    (-1, m.emit (Op.mkdir dst (st.st_mode &&& 0o7777)))
  else
    (0, (((m.emit (Op.mkdir dst (st.st_mode &&& 0o7777))).emit
      (Op.chmod dst (st.st_mode &&& 0o7777))).emit
      (Op.chown dst st.st_uid st.st_gid)).emit (Op.copy_selcon src dst))

/-- The symlink case of `mm_mirror_entry`. -/
def mirror_symlink (w : World) (src dst : String) (m : Machine) : Int × Machine :=
  if (mm_clone_symlink w src dst m).1 ≠ 0 then (-1, (mm_clone_symlink w src dst m).2)
  else (0, (mm_clone_symlink w src dst m).2)

def mm_mirror_entry (w : World) :
    Nat → String → String → String → Machine → Option (Int × Machine)
  | 0, _, _, _, _ => none
  | fuel + 1, path, work, name, m =>
    match w.path_join path name, w.path_join work name with
    | some src, some dst =>
      match w.lstat m.trace src with
      | none => some (0, m)
      | some st =>
        if S_ISREG st.st_mode then some (mirror_regular w src dst st m)
        else if S_ISDIR st.st_mode then
          if (mirror_mkdir w src dst st m).1 ≠ 0 then some (-1, (mirror_mkdir w src dst st m).2)
          else
            match w.opendir (mirror_mkdir w src dst st m).2.trace src with
            | none => some (-1, (mirror_mkdir w src dst st m).2)
            | some entries =>
              mirror_children (fun de m3 => mm_mirror_entry w fuel src dst de m3) entries
                (mirror_mkdir w src dst st m).2
        else if S_ISLNK st.st_mode then some (mirror_symlink w src dst m)
        else some (0, m)
    | _, _ => some (-1, m)

/-- The tail of `mm_apply_regular_file`, from the `module_path` check on. -/
def regular_bind (w : World) (path target : String) (node : Node) (m : Machine) :
    Int × Machine :=
  match node.module_path with
  | none => (-1, m)
  | some mp =>
    if w.sys_errno m.trace (Op.mount_bind mp target) ≠ 0 then
      (-1, m.emit (Op.mount_bind mp target))
    else
      let m1 := m.emit (Op.mount_bind mp target)
      let m2 :=
        if !strstr target ".magic_mount/workdir/" then
          if m1.ctx.enable_unmountable then m1.emit (Op.ksu_send_unmountable path) else m1
        else m1
      (0, (m2.emit (Op.mount_remount_ro target)).inc_mounted)

/-- The creation of the empty file at `wpath` in `mm_apply_regular_file`,
followed by the rest of the function. -/
def regular_create (w : World) (path wpath : String) (node : Node) (m : Machine) :
    Int × Machine :=
  if w.sys_errno m.trace (Op.open_creat wpath 0o644) ≠ 0 then
    (-1, m.emit (Op.open_creat wpath 0o644))
  else regular_bind w path wpath node (m.emit (Op.open_creat wpath 0o644))

def mm_apply_regular_file (w : World) (path wpath : String) (node : Node)
    (has_tmpfs : Bool) (m : Machine) : Int × Machine :=
  if has_tmpfs then
    match parent_dir wpath with
    | some dir =>
      if w.sys_errno m.trace (Op.mkdir_p dir) ≠ 0 then (-1, m.emit (Op.mkdir_p dir))
      else regular_create w path wpath node (m.emit (Op.mkdir_p dir))
    | none => regular_create w path wpath node m
  else regular_bind w path path node m

def mm_apply_symlink (w : World) (path wpath : String) (node : Node) (m : Machine) :
    Int × Machine :=
  match node.module_path with
  | none => (-1, m)
  | some mp =>
    if (mm_clone_symlink w mp wpath m).1 ≠ 0 then (-1, (mm_clone_symlink w mp wpath m).2)
    else (0, (mm_clone_symlink w mp wpath m).2.inc_mounted)

/-- The value of `need` that `mm_check_need_tmpfs` computes for the child `c`
whose joined live path is `rp`. -/
def child_need (w : World) (tr : List Op) (c : Node) (rp : String) : Bool :=
  match c.type with
  | NFT_SYMLINK => true
  | NFT_WHITEOUT => w.path_exists tr rp
  | _ =>
    match w.lstat tr rp with
    | some st =>
      decide (w.node_type_from_stat st ≠ c.type) ||
        decide (w.node_type_from_stat st = NFT_SYMLINK)
    | none => true

/-- The loop of `mm_check_need_tmpfs` over the child array: the returned flag
and the children with the `skip` marks it has set. -/
def check_children (w : World) (tr : List Op) (has_module_path : Bool) (path : String) :
    List Node → Bool × List Node
  | [] => (false, [])
  | c :: cs =>
    match w.path_join path c.name with
    | none => ((check_children w tr has_module_path path cs).1,
        c :: (check_children w tr has_module_path path cs).2)
    | some rp =>
      if child_need w tr c rp then
        if !has_module_path then
          ((check_children w tr has_module_path path cs).1,
            c.set_skip true :: (check_children w tr has_module_path path cs).2)
        else (true, c :: cs)
      else
        ((check_children w tr has_module_path path cs).1,
          c :: (check_children w tr has_module_path path cs).2)

def mm_check_need_tmpfs (w : World) (tr : List Op) (node : Node) (path : String) :
    Bool × Node :=
  ((check_children w tr node.module_path.isSome path node.children).1,
    node.set_children (check_children w tr node.module_path.isSome path node.children).2)

def mm_setup_dir_tmpfs (w : World) (path wpath : String) (node : Node) (m : Machine) :
    Int × Machine :=
  if w.sys_errno m.trace (Op.mkdir_p wpath) ≠ 0 then (-1, m.emit (Op.mkdir_p wpath))
  else
    let m1 := m.emit (Op.mkdir_p wpath)
    let meta : Option (String × Stat) :=
      match w.stat m1.trace path with
      | some st => some (path, st)
      | none =>
        match node.module_path with
        | some mp =>
          match w.stat m1.trace mp with
          | some st => some (mp, st)
          | none => none
        | none => none
    match meta with
    | none => (-1, m1)
    | some (meta_path, st) =>
      (0, ((m1.emit (Op.chmod wpath (st.st_mode &&& 0o7777))).emit
        (Op.chown wpath st.st_uid st.st_gid)).emit (Op.copy_selcon meta_path wpath))

/-- The recursive call on a child: `base`, `wbase`, node, `has_tmpfs`. -/
abbrev ApplyFn := String → String → Node → Bool → Machine → Option (Int × Machine × Node)

/-- A call of `mm_mirror_entry`: `path`, `work`, `name`. -/
abbrev MirrorFn := String → String → String → Machine → Option (Int × Machine)

/-- The failure branch shared by both child passes: `module_mark_failed` for
the attributed module, if there is one, then `nodes_fail++`. -/
def child_failed (m : Machine) (mn : Option String) : Machine :=
  (match mn with
   | some n => m.emit (Op.module_mark_failed n)
   | none => m).inc_fail

/-- The module a failure is attributed to: the child's `module_name` if it has
one, else the directory's. -/
def failed_module (c : Option Node) (node : Node) : Option String :=
  match c with
  | some c =>
    match c.module_name with
    | some n => some n
    | none => node.module_name
  | none => node.module_name

/-- The `readdir` loop of `mm_process_dir_children`. -/
def dir_children_loop (ap : ApplyFn) (mi : MirrorFn) (path wpath : String) (now_tmp : Bool) :
    List String → Machine → Node → Option (Int × Machine × Node)
  | [], m, node => some (0, m, node)
  | de :: rest, m, node =>
    if de = "." ∨ de = ".." then dir_children_loop ap mi path wpath now_tmp rest m node
    else
      match node_child_find node de with
      | some (i, c) =>
        if c.skip then
          dir_children_loop ap mi path wpath now_tmp rest m (node.set_child i (c.set_done true))
        else
          match ap path wpath (c.set_done true) now_tmp m with
          | none => none
          | some (r, m1, c1) =>
            if r ≠ 0 then
              if now_tmp then
                some (-1, child_failed m1 (failed_module (some c) node), node.set_child i c1)
              else
                dir_children_loop ap mi path wpath now_tmp rest
                  (child_failed m1 (failed_module (some c) node)) (node.set_child i c1)
            else dir_children_loop ap mi path wpath now_tmp rest m1 (node.set_child i c1)
      | none =>
        if now_tmp then
          match mi path wpath de m with
          | none => none
          | some (r, m1) =>
            if r ≠ 0 then some (-1, child_failed m1 (failed_module none node), node)
            else dir_children_loop ap mi path wpath now_tmp rest m1 node
        else dir_children_loop ap mi path wpath now_tmp rest m node

def mm_process_dir_children (w : World) (ap : ApplyFn) (mi : MirrorFn)
    (path wpath : String) (node : Node) (now_tmp : Bool) (m : Machine) :
    Option (Int × Machine × Node) :=
  if !w.path_exists m.trace path || node.replace then some (0, m, node)
  else
    match w.opendir m.trace path with
    | none => some (if now_tmp then -1 else 0, m, node)
    | some entries => dir_children_loop ap mi path wpath now_tmp entries m node

/-- The loop of `mm_process_remaining_children` over the child indices. -/
def remaining_children_loop (ap : ApplyFn) (path wpath : String) (now_tmp : Bool) :
    List Nat → Machine → Node → Option (Int × Machine × Node)
  | [], m, node => some (0, m, node)
  | i :: rest, m, node =>
    match node.children[i]? with
    | none => remaining_children_loop ap path wpath now_tmp rest m node
    | some c =>
      if c.skip || c.done then remaining_children_loop ap path wpath now_tmp rest m node
      else
        match ap path wpath c now_tmp m with
        | none => none
        | some (r, m1, c1) =>
          if r ≠ 0 then
            if now_tmp then
              some (-1, child_failed m1 (failed_module (some c) node), node.set_child i c1)
            else
              remaining_children_loop ap path wpath now_tmp rest
                (child_failed m1 (failed_module (some c) node)) (node.set_child i c1)
          else remaining_children_loop ap path wpath now_tmp rest m1 (node.set_child i c1)

def mm_process_remaining_children (ap : ApplyFn) (path wpath : String) (node : Node)
    (now_tmp : Bool) (m : Machine) : Option (Int × Machine × Node) :=
  remaining_children_loop ap path wpath now_tmp (List.range node.child_count) m node

/-- The end of the directory case of `mm_apply_node_recursive`, after both
child passes: the move of the staged overlay when `create_tmp`, then
`nodes_mounted++`. -/
def dir_finish (w : World) (path wpath : String) (node : Node) (create_tmp : Bool)
    (m : Machine) : Int × Machine :=
  if create_tmp then
    let m1 := m.emit (Op.mount_remount_ro wpath)
    if w.sys_errno m1.trace (Op.mount_move wpath path) ≠ 0 then
      (-1, match node.module_name with
        | some n => (m1.emit (Op.mount_move wpath path)).emit (Op.module_mark_failed n)
        | none => m1.emit (Op.mount_move wpath path))
    else
      let m2 := (m1.emit (Op.mount_move wpath path)).emit (Op.mount_private path)
      (0, (if m2.ctx.enable_unmountable then m2.emit (Op.ksu_send_unmountable path)
        else m2).inc_mounted)
  else (0, m.inc_mounted)

/-- The directory case of `mm_apply_node_recursive` from the two child passes
on, `create_tmp` and `now_tmp` being decided. -/
def dir_passes (w : World) (ap : ApplyFn) (mi : MirrorFn) (path wpath : String)
    (node : Node) (create_tmp now_tmp : Bool) (m : Machine) :
    Option (Int × Machine × Node) :=
  match mm_process_dir_children w ap mi path wpath node now_tmp m with
  | none => none
  | some (r1, m1, node1) =>
    if r1 ≠ 0 then some (-1, m1, node1)
    else
      match mm_process_remaining_children ap path wpath node1 now_tmp m1 with
      | none => none
      | some (r2, m2, node2) =>
        if r2 ≠ 0 then some (-1, m2, node2)
        else some ((dir_finish w path wpath node2 create_tmp m2).1,
          (dir_finish w path wpath node2 create_tmp m2).2, node2)

/-- The directory case of `mm_apply_node_recursive` before the child passes:
`mm_setup_dir_tmpfs` when `now_tmp`, then the self-bind of `wpath` when
`create_tmp`.  The first component is non-zero when the function returns -1
there. -/
def dir_enter (w : World) (path wpath : String) (node : Node) (create_tmp now_tmp : Bool)
    (m : Machine) : Int × Machine :=
  if now_tmp && (mm_setup_dir_tmpfs w path wpath node m).1 ≠ 0 then
    (-1, (mm_setup_dir_tmpfs w path wpath node m).2)
  else
    let m1 := if now_tmp then (mm_setup_dir_tmpfs w path wpath node m).2 else m
    if create_tmp then
      if w.sys_errno m1.trace (Op.mount_bind wpath wpath) ≠ 0 then
        (-1, m1.emit (Op.mount_bind wpath wpath))
      else (0, m1.emit (Op.mount_bind wpath wpath))
    else (0, m1)

/-- The directory case of `mm_apply_node_recursive`, `create_tmp` and `now_tmp`
being decided. -/
def dir_body (w : World) (ap : ApplyFn) (mi : MirrorFn) (path wpath : String)
    (node : Node) (create_tmp now_tmp : Bool) (m : Machine) :
    Option (Int × Machine × Node) :=
  if (dir_enter w path wpath node create_tmp now_tmp m).1 ≠ 0 then
    some (-1, (dir_enter w path wpath node create_tmp now_tmp m).2, node)
  else
    dir_passes w ap mi path wpath node create_tmp now_tmp
      (dir_enter w path wpath node create_tmp now_tmp m).2

/-- The value of `create_tmp` for a directory, with the node as the oracle
leaves it. -/
def decide_create_tmp (w : World) (tr : List Op) (node : Node) (path : String)
    (has_tmpfs : Bool) : Bool × Node :=
  if !has_tmpfs && node.replace && node.module_path.isSome then (true, node)
  else if !has_tmpfs then mm_check_need_tmpfs w tr node path
  else (false, node)

def mm_apply_node_recursive (w : World) :
    Nat → String → String → Node → Bool → Machine → Option (Int × Machine × Node)
  | 0, _, _, _, _, _ => none
  | fuel + 1, base, wbase, node, has_tmpfs, m =>
    match w.path_join base node.name, w.path_join wbase node.name with
    | some path, some wpath =>
      match node.type with
      | NFT_REGULAR =>
        some ((mm_apply_regular_file w path wpath node has_tmpfs m).1,
          (mm_apply_regular_file w path wpath node has_tmpfs m).2, node)
      | NFT_SYMLINK =>
        some ((mm_apply_symlink w path wpath node m).1,
          (mm_apply_symlink w path wpath node m).2, node)
      | NFT_WHITEOUT => some (0, m.inc_whiteout, node)
      | NFT_DIRECTORY =>
        let create_tmp := (decide_create_tmp w m.trace node path has_tmpfs).1
        let node1 := (decide_create_tmp w m.trace node path has_tmpfs).2
        dir_body w (fun b wb c h m1 => mm_apply_node_recursive w fuel b wb c h m1)
          (fun p wk n m1 => mm_mirror_entry w fuel p wk n m1)
          path wpath node1 create_tmp (has_tmpfs || create_tmp) m
    | _, _ => some (-1, m, node)

/-- The driver.  `ctx` is `none` for a null context; the result is the return
value with the context and the trace after the call. -/
def magic_mount (w : World) (fuel : Nat) (ctx : Option MagicMount) (tmp_root : String)
    (tr : List Op) : Option (Int × Option MagicMount × List Op) :=
  match ctx with
  | none => some (-1, none, tr)
  | some ctx =>
    match w.build_mount_tree ctx with
    | none => some (0, some ctx, tr)
    | some root =>
      match w.path_join tmp_root "workdir" with
      | none => some (-1, some ctx, tr)
      | some tmp_dir =>
        if w.sys_errno tr (Op.mkdir_p tmp_dir) ≠ 0 then
          some (-1, some ctx, tr ++ [Op.mkdir_p tmp_dir])
        else if w.sys_errno (tr ++ [Op.mkdir_p tmp_dir])
            (Op.mount_tmpfs ctx.mount_source tmp_dir) ≠ 0 then
          some (-1, some ctx,
            tr ++ [Op.mkdir_p tmp_dir] ++ [Op.mount_tmpfs ctx.mount_source tmp_dir])
        else
          let m0 : Machine := ⟨ctx, tr ++ [Op.mkdir_p tmp_dir] ++
            [Op.mount_tmpfs ctx.mount_source tmp_dir] ++ [Op.mount_private tmp_dir]⟩
          match mm_apply_node_recursive w fuel "/" tmp_dir root false m0 with
          | none => none
          | some (rc, m1, _) =>
            let m2 := if rc ≠ 0 then m1.inc_fail else m1
            some (rc, some m2.ctx,
              m2.trace ++ [Op.umount2_detach tmp_dir] ++ [Op.rmdir tmp_dir])

/-! ## Notions of the specification -/

/-- A child `c` whose live path is `rp` requires type divergence (spec, section
4.2): it is a symlink; or a whiteout whose live path exists; or a regular file
or directory whose `lstat` fails, or whose live type differs from its own, or
whose live type is a symlink. -/
def requires_divergence (w : World) (tr : List Op) (c : Node) (rp : String) : Prop :=
  c.type = NFT_SYMLINK ∨
  (c.type = NFT_WHITEOUT ∧ w.path_exists tr rp = true) ∨
  ((c.type = NFT_REGULAR ∨ c.type = NFT_DIRECTORY) ∧
    (w.lstat tr rp = none ∨
      ∃ st, w.lstat tr rp = some st ∧
        (w.node_type_from_stat st ≠ c.type ∨ w.node_type_from_stat st = NFT_SYMLINK)))

/-! ## Relations used to state what a call leaves unchanged -/

/-- The machine `m'` is a later state of `m`: same configuration, the trace
extended at its end, no counter decreased. -/
def Machine.Le (m m' : Machine) : Prop :=
  m'.ctx.module_dir = m.ctx.module_dir ∧
  m'.ctx.mount_source = m.ctx.mount_source ∧
  m'.ctx.enable_unmountable = m.ctx.enable_unmountable ∧
  (∃ l, m'.trace = m.trace ++ l) ∧
  m.ctx.stats.nodes_mounted ≤ m'.ctx.stats.nodes_mounted ∧
  m.ctx.stats.nodes_fail ≤ m'.ctx.stats.nodes_fail ∧
  m.ctx.stats.nodes_whiteout ≤ m'.ctx.stats.nodes_whiteout

/-- The node `n'` is `n` up to flags: same own fields, same size and height,
same child names in the same order. -/
def Node.Sim (n n' : Node) : Prop :=
  n'.name = n.name ∧ n'.type = n.type ∧ n'.module_path = n.module_path ∧
  n'.module_name = n.module_name ∧ n'.replace = n.replace ∧
  n'.count = n.count ∧ n'.height = n.height ∧
  n'.children.map Node.name = n.children.map Node.name

/-- The node `n'` is `n` up to the flags of its descendants: its own flags are
those of `n`. -/
def Node.Same (n n' : Node) : Prop :=
  n.Sim n' ∧ n'.skip = n.skip ∧ n'.done = n.done

/-- What every call of the applier guarantees, as a property of the function
passed to the child loops. -/
def ApplyOk (ap : ApplyFn) : Prop :=
  ∀ b wb c h m r m' c', ap b wb c h m = some (r, m', c') →
    m.Le m' ∧ c.Same c' ∧ (r = 0 ∨ r = -1)

/-- What every call of the mirror engine guarantees. -/
def MirrorOk (mi : MirrorFn) : Prop :=
  ∀ p wk n m r m', mi p wk n m = some (r, m') → m.Le m' ∧ (r = 0 ∨ r = -1)

/-- The module a failure is attributed to, in the words of the specification:
the failing child's `module_name` if it has one, otherwise the directory's (if
it has one).  A mirrored real entry has no node, so the directory's is used. -/
def attributed_module (child : Option Node) (dir : Node) : Option String :=
  match child.bind Node.module_name with
  | some n => some n
  | none => dir.module_name

/-- The machine once a failure has been recorded: `module_mark_failed` is
called for the attributed module when there is one, and `nodes_fail` is
incremented; nothing else is issued. -/
def after_failure (m : Machine) (mn : Option String) : Machine :=
  { ctx := { m.ctx with stats :=
      { m.ctx.stats with nodes_fail := m.ctx.stats.nodes_fail + 1 } }
    trace := m.trace ++ (match mn with
      | some n => [Op.module_mark_failed n]
      | none => []) }

/-- The live tree has depth at most `bound`: some measure of the paths, never
above `bound`, decreases from a directory to every entry its listing names
(other than `.` and `..`).  It holds when `path_join` appends the entry name and
fails beyond `PATH_MAX`. -/
def bounded_depth (w : World) (bound : Nat) : Prop :=
  ∃ depth : String → Nat, (∀ p, depth p ≤ bound) ∧
    ∀ t src l e c, w.opendir t src = some l → e ∈ l → ¬(e = "." ∨ e = "..") →
      w.path_join src e = some c → depth c < depth src

/-! ## Small worlds for examples -/

/-- A path join for examples: `a/b`, with `/` not doubled after the root and an
empty name leaving the path as it is; it fails when the result would reach 64
characters. -/
def demo_join (a b : String) : Option String :=
  if (a ++ "/" ++ b).length < 64 then
    some (if b = "" then a else if a = "/" then "/" ++ b else a ++ "/" ++ b)
  else none

/-- The room left in a path when joins fail from 64 characters on. -/
def demo_room (s : String) : Nat := 64 - s.length

/-- A world for examples.  Paths are joined by `join`; the live tree is the
table `fs` (path, stat, names listed by `readdir` after `.` and `..`); the
operations in `bad` fail with errno 1 and all others succeed; the builder
returns `root`.  No answer depends on the operations issued so far. -/
def demo_world (join : String → String → Option String)
    (fs : List (String × Stat × List String)) (bad : List Op)
    (root : Option Node) : World where
  path_join := join
  node_type_from_stat := fun st =>
    if S_ISDIR st.st_mode then NFT_DIRECTORY
    else if S_ISLNK st.st_mode then NFT_SYMLINK
    else NFT_REGULAR
  build_mount_tree := fun _ => root
  path_exists := fun _ p => (fs.lookup p).isSome
  lstat := fun _ p => (fs.lookup p).map (fun e => e.1)
  stat := fun _ p => (fs.lookup p).map (fun e => e.1)
  opendir := fun _ p =>
    match fs.lookup p with
    | some (st, names) => if S_ISDIR st.st_mode then some ("." :: ".." :: names) else none
    | none => none
  readlink := fun _ _ => some "/data/hosts"
  sys_errno := fun _ op => if op ∈ bad then 1 else 0

def demo_dir_stat : Stat := ⟨0o040755, 0, 0⟩
def demo_reg_stat : Stat := ⟨0o100644, 0, 0⟩
def demo_fifo_stat : Stat := ⟨0o010644, 0, 0⟩

/-- A live tree: `/etc` with the regular files `hosts` and `passwd`, the empty
directories `/lib` and `/opt`, and `/run` with a FIFO and a regular file. -/
def demo_fs : List (String × Stat × List String) :=
  [("/", demo_dir_stat, ["etc", "lib", "opt", "run"]),
   ("/etc", demo_dir_stat, ["hosts", "passwd"]),
   ("/etc/hosts", demo_reg_stat, []),
   ("/etc/passwd", demo_reg_stat, []),
   ("/lib", demo_dir_stat, []),
   ("/opt", demo_dir_stat, []),
   ("/run", demo_dir_stat, ["initctl", "utmp"]),
   ("/run/initctl", demo_fifo_stat, []),
   ("/run/utmp", demo_reg_stat, [])]

/-- A live `/etc` whose listing returns `hosts` twice. -/
def demo_fs_repeating : List (String × Stat × List String) :=
  [("/etc", demo_dir_stat, ["hosts", "hosts"]),
   ("/etc/hosts", demo_reg_stat, [])]

def demo_ctx : MagicMount := magic_mount_init "/data/adb/modules" "KSU"

/-- A node as the builder leaves it, of module `a`. -/
def demo_node (name : String) (type : NodeFileType) (children : List Node)
    (module_path : Option String) : Node :=
  .mk name type children module_path (some "a") false false false

/-- A module directory (with `module_path`) holding a REGULAR child `lib`. -/
def demo_regular_over_dir : Node :=
  demo_node "" NFT_DIRECTORY
    [demo_node "lib" NFT_REGULAR [] (some "/data/adb/modules/a/lib")]
    (some "/data/adb/modules/a")

/-- A replacing directory `etc` without module name, whose only child, a
REGULAR node without module name, has no module file. -/
def demo_anonymous_dir : Node :=
  .mk "etc" NFT_DIRECTORY
    [.mk "hosts" NFT_REGULAR [] none none false false false]
    (some "/data/adb/modules/a/etc") none true false false

/-- The same directory, attributed to module `a`. -/
def demo_failing_dir : Node :=
  .mk "etc" NFT_DIRECTORY
    [.mk "hosts" NFT_REGULAR [] none none false false false]
    (some "/data/adb/modules/a/etc") (some "a") true false false

/-- A directory `etc` without `module_path`: the REGULAR child `hosts` matches
the live file, the SYMLINK child `passwd` requires type divergence. -/
def demo_plain_dir : Node :=
  demo_node "etc" NFT_DIRECTORY
    [demo_node "hosts" NFT_REGULAR [] (some "/data/adb/modules/a/etc/hosts"),
     demo_node "passwd" NFT_SYMLINK [] (some "/data/adb/modules/a/etc/passwd")]
    none

/-- A directory `etc` without `module_path` whose SYMLINK child has a name too
long for the path join. -/
def demo_long_name_dir : Node :=
  demo_node "etc" NFT_DIRECTORY
    [demo_node "a-name-of-sixty-characters-which-does-not-fit-into-the-path-buf"
      NFT_SYMLINK [] (some "/data/adb/modules/a/etc/long")]
    none

/-- An overlay directory `etc` (with `module_path`): the SYMLINK child `hosts`
forces the overlay. -/
def demo_overlay_dir : Node :=
  demo_node "etc" NFT_DIRECTORY
    [demo_node "hosts" NFT_SYMLINK [] (some "/data/adb/modules/a/etc/hosts")]
    (some "/data/adb/modules/a/etc")

/-- A built tree: the root, a replacing directory `etc` and a file in it. -/
def demo_tree : Node :=
  demo_node "" NFT_DIRECTORY
    [.mk "etc" NFT_DIRECTORY
      [demo_node "hosts" NFT_REGULAR [] (some "/data/adb/modules/a/etc/hosts")]
      (some "/data/adb/modules/a/etc") (some "a") true false false]
    none

/-- A directory `etc` without `module_path` with the REGULAR child `hosts`. -/
def demo_hosts_dir : Node :=
  demo_node "etc" NFT_DIRECTORY
    [demo_node "hosts" NFT_REGULAR [] (some "/data/adb/modules/a/etc/hosts")]
    none

/-- A directory `opt` without `module_path`: a WHITEOUT child without live
counterpart and a REGULAR child without live counterpart. -/
def demo_mixed_dir : Node :=
  demo_node "opt" NFT_DIRECTORY
    [demo_node "gone" NFT_WHITEOUT [] none,
     demo_node "tool" NFT_REGULAR [] (some "/data/adb/modules/a/opt/tool")]
    none

/-- The tree `demo_mixed_dir` after its apply: the oracle has skipped `tool`. -/
def demo_mixed_dir_after : Node :=
  demo_node "opt" NFT_DIRECTORY
    [demo_node "gone" NFT_WHITEOUT [] none,
     (demo_node "tool" NFT_REGULAR [] (some "/data/adb/modules/a/opt/tool")).set_skip true]
    none

/-- The tree `demo_tree` after the first pass of the root has visited `etc`. -/
def demo_tree_after : Node :=
  demo_node "" NFT_DIRECTORY
    [.mk "etc" NFT_DIRECTORY
      [demo_node "hosts" NFT_REGULAR [] (some "/data/adb/modules/a/etc/hosts")]
      (some "/data/adb/modules/a/etc") (some "a") true false true]
    none

/-- A staged regular file. -/
def demo_staged_file : Node :=
  demo_node "new" NFT_REGULAR [] (some "/data/adb/modules/a/etc/new")

/-- A directory `etc` without `module_path` whose REGULAR child `hosts` has no
module file, so that its apply fails, and whose REGULAR child `passwd` has
one. -/
def demo_partial_dir : Node :=
  demo_node "etc" NFT_DIRECTORY
    [demo_node "hosts" NFT_REGULAR [] none,
     demo_node "passwd" NFT_REGULAR [] (some "/data/adb/modules/a/etc/passwd")]
    none

/-- The operations of the apply of `demo_partial_dir` on the live tree
`demo_fs`. -/
def demo_partial_trace : List Op :=
  [Op.module_mark_failed "a",
   Op.mount_bind "/data/adb/modules/a/etc/passwd" "/etc/passwd",
   Op.ksu_send_unmountable "/etc/passwd", Op.mount_remount_ro "/etc/passwd"]

/-- The operations of the driver run on the built tree `demo_tree` over the
live tree `demo_fs`, with `tmp_root = "/tmp"`. -/
def demo_driver_trace : List Op :=
  [Op.mkdir_p "/tmp/workdir", Op.mount_tmpfs "KSU" "/tmp/workdir",
   Op.mount_private "/tmp/workdir", Op.mkdir_p "/tmp/workdir/etc",
   Op.chmod "/tmp/workdir/etc" 0o755, Op.chown "/tmp/workdir/etc" 0 0,
   Op.copy_selcon "/etc" "/tmp/workdir/etc",
   Op.mount_bind "/tmp/workdir/etc" "/tmp/workdir/etc",
   Op.mkdir_p "/tmp/workdir/etc", Op.open_creat "/tmp/workdir/etc/hosts" 0o644,
   Op.mount_bind "/data/adb/modules/a/etc/hosts" "/tmp/workdir/etc/hosts",
   Op.ksu_send_unmountable "/etc/hosts",
   Op.mount_remount_ro "/tmp/workdir/etc/hosts",
   Op.mount_remount_ro "/tmp/workdir/etc", Op.mount_move "/tmp/workdir/etc" "/etc",
   Op.mount_private "/etc", Op.ksu_send_unmountable "/etc",
   Op.umount2_detach "/tmp/workdir", Op.rmdir "/tmp/workdir"]

/-- The example world without built tree: `demo_join` over the live tree
`demo_fs`, every operation succeeding. -/
def demo_live : World := demo_world demo_join demo_fs [] none

/-- The same world, the builder returning `demo_tree`. -/
def demo_built : World := demo_world demo_join demo_fs [] (some demo_tree)

/-- The machine at the start of a run: fresh context, nothing issued. -/
def demo_start : Machine := ⟨demo_ctx, []⟩

/-! ## Staged operations -/

/-- The path `p` is `root` or lies below it: it is reached from `root` by
successive path joins. -/
inductive Under (w : World) (root : String) : String → Prop
  | self : Under w root root
  | join {a b c : String} : Under w root a → w.path_join a b = some c → Under w root c

/-- The operation is a call of `mount(2)`. -/
def Op.is_mount : Op → Bool
  | .mount_bind _ _ => true
  | .mount_remount_ro _ => true
  | .mount_move _ _ => true
  | .mount_private _ => true
  | .mount_tmpfs _ _ => true
  | _ => false

/-- The operations that stage a subtree under the working path `root`: binds
and read-only remounts whose target is `root` or below it, creations and
metadata changes there (`mkdir_p` also of the parent directory of such a path),
and the two notifications.  No move, no propagation change, no tmpfs mount, no
unmount, no `rmdir`. -/
def Op.staged (w : World) (root : String) : Op → Prop
  | .mount_bind _ dst => Under w root dst
  | .mount_remount_ro target => Under w root target
  | .mkdir_p p => ∃ x, Under w root x ∧ (p = x ∨ parent_dir x = some p)
  | .mkdir p _ => Under w root p
  | .open_creat p _ => Under w root p
  | .symlink _ dst => Under w root dst
  | .chmod p _ => Under w root p
  | .chown p _ _ => Under w root p
  | .copy_selcon _ dst => Under w root dst
  | .ksu_send_unmountable _ => True
  | .module_mark_failed _ => True
  | _ => False

/-- The machine `m'` is `m` after some more operations, all satisfying `P`. -/
def Machine.Ext (P : Op → Prop) (m m' : Machine) : Prop :=
  ∃ l, m'.trace = m.trace ++ l ∧ ∀ op ∈ l, P op

/-! ## A node without its skipped children -/

/-- The node without its skipped children. -/
def Node.without_skipped (n : Node) : Node :=
  n.set_children (n.children.filter (fun c => !c.skip))

/-- Two calls agree: both ran out of fuel, or both returned the same code and
left the same machine (trace and counters); the nodes they return may differ. -/
def SameRun : Option (Int × Machine × Node) → Option (Int × Machine × Node) → Prop
  | some (r, m, _), some (r', m', _) => r = r' ∧ m = m'
  | none, none => True
  | _, _ => False

/-- The directory node `n'` is `n` without its skipped children. -/
def Pruned (n n' : Node) : Prop :=
  n'.module_name = n.module_name ∧ n'.replace = n.replace ∧
  n'.children = n.children.filter (fun c => !c.skip)

/-- Two results of a child pass, on a node and on the node without its skipped
children, agree. -/
def PrunedRun : Option (Int × Machine × Node) → Option (Int × Machine × Node) → Prop
  | some (r, m, n), some (r', m', n') =>
    r = r' ∧ m = m' ∧ Pruned n n' ∧ (n.children.map Node.name).Nodup
  | none, none => True
  | _, _ => False

/-! ## Best-effort application outside overlays -/

/-- Best-effort application of the given child nodes, in order, outside any
overlay: each is applied once with `has_tmpfs = false`; when one fails,
`nodes_fail` is incremented once and the failure is attributed, and the
sequence goes on with the next child. -/
def attempt_all (ap : ApplyFn) (path wpath : String) (dir : Node) :
    List Node → Machine → Option Machine
  | [], m => some m
  | c :: cs, m =>
    match ap path wpath c false m with
    | none => none
    | some (r, m1, _) =>
      attempt_all ap path wpath dir cs
        (if r ≠ 0 then after_failure m1 (attributed_module (some c) dir) else m1)

/-- State of a child pass outside an overlay, whatever the flags and the
listing are: the machine is the one after the best-effort application of a
sequence of nodes, each of which is, up to flags, a child of `node0` that is
not skipped. -/
def SchedInv (ap : ApplyFn) (path wpath : String) (node0 : Node) (m0 : Machine)
    (m : Machine) (n : Node) : Prop :=
  node0.Same n ∧
  (∀ (i : Nat) (c' : Node), n.children[i]? = some c' →
    ∃ c, node0.children[i]? = some c ∧ c'.skip = c.skip ∧ c.Sim c') ∧
  ∃ sched : List Node, attempt_all ap path wpath node0 sched m0 = some m ∧
    ∀ x ∈ sched, ∃ c ∈ node0.children, c.skip = false ∧ c.Sim x

/-- State of the first child pass outside an overlay, `rest` being the entries
still to read: the machine is the one after the best-effort application of a
schedule of children, and the children not in the schedule are untouched or
skipped. -/
def Pass1Inv (ap : ApplyFn) (path wpath : String) (node0 : Node) (m0 : Machine)
    (rest : List String) (m : Machine) (n : Node) : Prop :=
  rest.Nodup ∧ node0.Same n ∧
  ∃ sched : List (Nat × Node),
    attempt_all ap path wpath node0 (sched.map Prod.snd) m0 = some m ∧
    (sched.map Prod.fst).Nodup ∧
    (∀ ic ∈ sched, ∃ c, node0.children[ic.1]? = some c ∧ c.skip = false ∧
      ic.2 = c.set_done true) ∧
    (∀ i c', n.children[i]? = some c' →
      ∃ c, node0.children[i]? = some c ∧ c'.skip = c.skip ∧ c'.name = c.name ∧
        (c' = c ∨ (c'.done = true ∧ c'.name ∉ rest ∧
          (c.skip = false → i ∈ sched.map Prod.fst)))) ∧
    (∀ i ∈ sched.map Prod.fst, ∃ c', n.children[i]? = some c' ∧ c'.done = true)

/-- State of the second child pass outside an overlay, `rest` being the child
indices still to visit out of `all`. -/
def Pass2Inv (ap : ApplyFn) (path wpath : String) (node0 : Node) (m0 : Machine)
    (all rest : List Nat) (m : Machine) (n : Node) : Prop :=
  rest.Nodup ∧ node0.Same n ∧
  ∃ sched : List (Nat × Node),
    attempt_all ap path wpath node0 (sched.map Prod.snd) m0 = some m ∧
    (sched.map Prod.fst).Nodup ∧
    (∀ ic ∈ sched, ic.1 ∉ rest ∧ node0.children[ic.1]? = some ic.2 ∧
      ic.2.skip = false ∧ ic.2.done = false) ∧
    (∀ j ∈ rest, n.children[j]? = node0.children[j]?) ∧
    (∀ j c, j ∈ all → j ∉ rest → node0.children[j]? = some c → c.skip = false →
      c.done = false → j ∈ sched.map Prod.fst)

/-! ## Counting the nodes outside skipped subtrees -/

namespace Node

mutual
/-- Number of nodes of the tree that are not inside the subtree of a skipped
child (the root's own flag does not count). -/
def live_count : Node → Nat
  | mk _ _ cs _ _ _ _ _ => 1 + live_countList cs
def live_countList : List Node → Nat
  | [] => 0
  | c :: cs => (if c.skip = true then 0 else live_count c) + live_countList cs
end

mutual
/-- Number of WHITEOUT nodes of the tree that are not inside the subtree of a
skipped child. -/
def live_whiteouts : Node → Nat
  | mk _ t cs _ _ _ _ _ => (if t = NFT_WHITEOUT then 1 else 0) + live_whiteoutsList cs
def live_whiteoutsList : List Node → Nat
  | [] => 0
  | c :: cs => (if c.skip = true then 0 else live_whiteouts c) + live_whiteoutsList cs
end

mutual
/-- Number of nodes of the tree that lie in the subtree of a skipped child,
the skipped child included. -/
def skipped_count : Node → Nat
  | mk _ _ cs _ _ _ _ _ => skipped_countList cs
def skipped_countList : List Node → Nat
  | [] => 0
  | c :: cs => (if c.skip = true then count c else skipped_count c) + skipped_countList cs
end

mutual
/-- A tree as the builder leaves it below its root: no descendant carries a
`skip` or `done` mark, and only directories have children. -/
def clean : Node → Bool
  | mk _ t cs _ _ _ _ _ => (decide (t = NFT_DIRECTORY) || cs.isEmpty) && cleanList cs
def cleanList : List Node → Bool
  | [] => true
  | c :: cs => !c.skip && !c.done && clean c && cleanList cs
end

end Node

/-- What the child at index `j` contributes to the accounting when the indices
in `pending` are still to be visited by the second pass: its weight `f` once
it has been applied (marked `done`, or visited by the second pass), unless it
is skipped. -/
def contrib (f : Node → Nat) (pending : List Nat) (j : Nat) (c : Node) : Nat :=
  if c.skip = false ∧ (c.done = true ∨ j ∉ pending) then f c else 0

/-- Sum of the contributions of the children, the first one having index `k`. -/
def accounted (f : Node → Nat) (pending : List Nat) : Nat → List Node → Nat
  | _, [] => 0
  | k, c :: cs => contrib f pending k c + accounted f pending (k + 1) cs

/-- The accounting property of a call of the applier: on a clean tree, a
successful call that records no failure adds to `nodes_mounted +
nodes_whiteout` the number of nodes outside skipped subtrees, and to
`nodes_whiteout` the number of such WHITEOUT nodes. -/
def ApplyAcc (ap : ApplyFn) : Prop :=
  ∀ b wb c h m m' c', ap b wb c h m = some (0, m', c') → c.clean = true →
    m'.ctx.stats.nodes_fail = m.ctx.stats.nodes_fail →
    m'.ctx.stats.nodes_mounted + m'.ctx.stats.nodes_whiteout =
      m.ctx.stats.nodes_mounted + m.ctx.stats.nodes_whiteout + c'.live_count ∧
    m'.ctx.stats.nodes_whiteout = m.ctx.stats.nodes_whiteout + c'.live_whiteouts

/-- The counters after `m` account for the applied children of `n`, starting
from the counters of `mb`, provided no failure was recorded since `mb`. -/
def Accounts (mb : Machine) (pending : List Nat) (m : Machine) (n : Node) : Prop :=
  m.ctx.stats.nodes_fail = mb.ctx.stats.nodes_fail →
    m.ctx.stats.nodes_mounted + m.ctx.stats.nodes_whiteout =
      mb.ctx.stats.nodes_mounted + mb.ctx.stats.nodes_whiteout +
        accounted Node.live_count pending 0 n.children ∧
    m.ctx.stats.nodes_whiteout =
      mb.ctx.stats.nodes_whiteout + accounted Node.live_whiteouts pending 0 n.children

/-- State of the first child pass for the accounting: `rest` are the entries
still to read, `all` the child indices. -/
def AccInv1 (mb : Machine) (node0 : Node) (all : List Nat) (rest : List String)
    (m : Machine) (n : Node) : Prop :=
  mb.Le m ∧ node0.Same n ∧ rest.Nodup ∧
  (∀ (i : Nat) (c : Node), n.children[i]? = some c → c.done = true → c.name ∉ rest) ∧
  (∀ (i : Nat) (c : Node), n.children[i]? = some c → c.done = false → c.clean = true) ∧
  Accounts mb all m n

/-- State of the second child pass for the accounting: `rest` are the child
indices still to visit. -/
def AccInv2 (mb : Machine) (node0 : Node) (rest : List Nat) (m : Machine) (n : Node) : Prop :=
  mb.Le m ∧ node0.Same n ∧ rest.Nodup ∧
  (∀ (i : Nat) (c : Node), i ∈ rest → n.children[i]? = some c → c.done = false →
    c.clean = true) ∧
  Accounts mb rest m n

/-! ## Entries created in a working directory -/

/-- The path an operation creates, when it creates one: `mkdir_p`, `mkdir`,
`open` with `O_CREAT` and `symlink`. -/
def Op.creates : Op → Option String
  | .mkdir_p p => some p
  | .mkdir p _ => some p
  | .open_creat p _ => some p
  | .symlink _ dst => some dst
  | _ => none

/-- The paths created by a sequence of operations, in order. -/
def creations (l : List Op) : List String := l.filterMap Op.creates

/-- How many times the operations issued after the state `m`, up to the state
`m'`, create the path `q`. -/
def Machine.made (m m' : Machine) (q : String) : Nat :=
  (creations (m'.trace.drop m.trace.length)).count q

/-- The operation creates nothing outside the subtree of `root`. -/
def Op.within (w : World) (root : String) (op : Op) : Prop :=
  ∀ p, op.creates = some p → Under w root p

/-- The file types the mirror engine reproduces: regular file, directory,
symlink. -/
def mirrorable (st : Stat) : Bool :=
  S_ISREG st.st_mode || S_ISDIR st.st_mode || S_ISLNK st.st_mode

/-- The real entry `n` of `path` can be read by `lstat` and has a type the
mirror engine reproduces. -/
def mirrored_entry (w : World) (tr : List Op) (path n : String) : Bool :=
  match w.path_join path n with
  | some src =>
    match w.lstat tr src with
    | some st => mirrorable st
    | none => false
  | none => false

/-- The names the first child pass reads: the listing of the real directory
when it exists and the node does not replace it, nothing otherwise. -/
def listed (w : World) (tr : List Op) (node : Node) (path : String) : List String :=
  if node.replace = false ∧ w.path_exists tr path = true then (w.opendir tr path).getD []
  else []

/-! ## The steps of an overlay directory -/

/-- One step of the processing of an overlay directory: the application of a
child node, or the mirroring of the real entry of a name. -/
inductive EntryCall where
  | child (c : Node) : EntryCall
  | mirror (name : String) : EntryCall

/-- The entry name a step is about. -/
def EntryCall.name : EntryCall → String
  | .child c => c.name
  | .mirror n => n

/-- The return value of a step and the machine it leaves. -/
def EntryCall.run (ap : ApplyFn) (mi : MirrorFn) (path wpath : String) :
    EntryCall → Machine → Option (Int × Machine)
  | .child c, m => (ap path wpath c true m).map (fun res => (res.1, res.2.1))
  | .mirror n, m => mi path wpath n m

/-- The steps, each given with the machine before it and the machine after it,
are run in this order from `m` to `m'`, and each of them returns 0. -/
def Steps (ap : ApplyFn) (mi : MirrorFn) (path wpath : String) :
    List (EntryCall × Machine × Machine) → Machine → Machine → Prop
  | [], m, m' => m' = m
  | s :: rest, m, m' =>
    s.2.1 = m ∧ s.1.run ap mi path wpath m = some (0, s.2.2) ∧
      Steps ap mi path wpath rest s.2.2 m'

/-- The step made for a name read from the real directory: the application of
the child of that name, marked `done`, or the mirroring of the real entry when
no child has that name. -/
def listed_call (children : List Node) (de : String) : EntryCall :=
  match find_child de children with
  | some ic => .child (ic.2.set_done true)
  | none => .mirror de

/-- The names read from the real directory that the first child pass
processes: all but `.` and `..`. -/
def processed (entries : List String) : List String :=
  entries.filter (fun e => decide (¬(e = "." ∨ e = "..")))

/-- What a step does at the entry `q` of the working directory.  A child step
issues only operations staged at `q`; it issues none for a WHITEOUT and creates
`q` otherwise.  A mirror step creates nothing outside `q`; it creates `q` when
`lstat` reads the real entry as a regular file, a directory or a symlink, and
leaves the machine as it is otherwise. -/
def step_effect (w : World) (path q : String) (s : EntryCall × Machine × Machine) : Prop :=
  match s.1 with
  | .child x =>
    s.2.1.Ext (Op.staged w q) s.2.2 ∧
    (x.type = NFT_WHITEOUT → s.2.2.trace = s.2.1.trace) ∧
    (x.type ≠ NFT_WHITEOUT → 0 < s.2.1.made s.2.2 q)
  | .mirror e =>
    s.2.1.Ext (Op.within w q) s.2.2 ∧
    (mirrored_entry w s.2.1.trace path e = true → 0 < s.2.1.made s.2.2 q) ∧
    (mirrored_entry w s.2.1.trace path e = false → s.2.2 = s.2.1)

/-- An overlay directory `run` (with `module_path`): the SYMLINK child `lock`
forces the overlay; the live `/run` holds a FIFO and a regular file. -/
def demo_run_dir : Node :=
  demo_node "run" NFT_DIRECTORY
    [demo_node "lock" NFT_SYMLINK [] (some "/data/adb/modules/a/run/lock")]
    (some "/data/adb/modules/a/run")

/-- An overlay directory `etc` (with `module_path`) with the SYMLINK child
`lock`. -/
def demo_lock_dir : Node :=
  demo_node "etc" NFT_DIRECTORY
    [demo_node "lock" NFT_SYMLINK [] (some "/data/adb/modules/a/etc/lock")]
    (some "/data/adb/modules/a/etc")

/-- The operations of the apply of `demo_run_dir` on the live tree `demo_fs`. -/
def demo_run_trace : List Op :=
  [Op.mkdir_p "/w/run", Op.chmod "/w/run" 0o755, Op.chown "/w/run" 0 0,
   Op.copy_selcon "/run" "/w/run", Op.mount_bind "/w/run" "/w/run",
   Op.open_creat "/w/run/utmp" 0o644, Op.mount_bind "/run/utmp" "/w/run/utmp",
   Op.symlink "/data/hosts" "/w/run/lock",
   Op.copy_selcon "/data/adb/modules/a/run/lock" "/w/run/lock",
   Op.mount_remount_ro "/w/run", Op.mount_move "/w/run" "/run", Op.mount_private "/run",
   Op.ksu_send_unmountable "/run"]

/-- The operations of the apply of `demo_lock_dir` on the live tree
`demo_fs_repeating`. -/
def demo_lock_trace : List Op :=
  [Op.mkdir_p "/w/etc", Op.chmod "/w/etc" 0o755, Op.chown "/w/etc" 0 0,
   Op.copy_selcon "/etc" "/w/etc", Op.mount_bind "/w/etc" "/w/etc",
   Op.open_creat "/w/etc/hosts" 0o644, Op.mount_bind "/etc/hosts" "/w/etc/hosts",
   Op.open_creat "/w/etc/hosts" 0o644, Op.mount_bind "/etc/hosts" "/w/etc/hosts",
   Op.symlink "/data/hosts" "/w/etc/lock",
   Op.copy_selcon "/data/adb/modules/a/etc/lock" "/w/etc/lock",
   Op.mount_remount_ro "/w/etc", Op.mount_move "/w/etc" "/etc", Op.mount_private "/etc",
   Op.ksu_send_unmountable "/etc"]

/-! ## Field access after the flag assignments -/

namespace Node

@[simp] theorem name_set_skip (n : Node) (b : Bool) : (n.set_skip b).name = n.name := by
  cases n; rfl

@[simp] theorem type_set_skip (n : Node) (b : Bool) : (n.set_skip b).type = n.type := by
  cases n; rfl

@[simp] theorem children_set_skip (n : Node) (b : Bool) : (n.set_skip b).children = n.children := by
  cases n; rfl

@[simp] theorem module_path_set_skip (n : Node) (b : Bool) : (n.set_skip b).module_path = n.module_path := by
  cases n; rfl

@[simp] theorem module_name_set_skip (n : Node) (b : Bool) : (n.set_skip b).module_name = n.module_name := by
  cases n; rfl

@[simp] theorem replace_set_skip (n : Node) (b : Bool) : (n.set_skip b).replace = n.replace := by
  cases n; rfl

@[simp] theorem skip_set_skip (n : Node) (b : Bool) : (n.set_skip b).skip = b := by
  cases n; rfl

@[simp] theorem done_set_skip (n : Node) (b : Bool) : (n.set_skip b).done = n.done := by
  cases n; rfl

@[simp] theorem name_set_done (n : Node) (b : Bool) : (n.set_done b).name = n.name := by
  cases n; rfl

@[simp] theorem type_set_done (n : Node) (b : Bool) : (n.set_done b).type = n.type := by
  cases n; rfl

@[simp] theorem children_set_done (n : Node) (b : Bool) : (n.set_done b).children = n.children := by
  cases n; rfl

@[simp] theorem module_path_set_done (n : Node) (b : Bool) : (n.set_done b).module_path = n.module_path := by
  cases n; rfl

@[simp] theorem module_name_set_done (n : Node) (b : Bool) : (n.set_done b).module_name = n.module_name := by
  cases n; rfl

@[simp] theorem replace_set_done (n : Node) (b : Bool) : (n.set_done b).replace = n.replace := by
  cases n; rfl

@[simp] theorem skip_set_done (n : Node) (b : Bool) : (n.set_done b).skip = n.skip := by
  cases n; rfl

@[simp] theorem done_set_done (n : Node) (b : Bool) : (n.set_done b).done = b := by
  cases n; rfl

@[simp] theorem name_set_children (n : Node) (cs : List Node) :
    (n.set_children cs).name = n.name := by
  cases n; rfl

@[simp] theorem type_set_children (n : Node) (cs : List Node) :
    (n.set_children cs).type = n.type := by
  cases n; rfl

@[simp] theorem children_set_children (n : Node) (cs : List Node) :
    (n.set_children cs).children = cs := by
  cases n; rfl

@[simp] theorem module_path_set_children (n : Node) (cs : List Node) :
    (n.set_children cs).module_path = n.module_path := by
  cases n; rfl

@[simp] theorem module_name_set_children (n : Node) (cs : List Node) :
    (n.set_children cs).module_name = n.module_name := by
  cases n; rfl

@[simp] theorem replace_set_children (n : Node) (cs : List Node) :
    (n.set_children cs).replace = n.replace := by
  cases n; rfl

@[simp] theorem skip_set_children (n : Node) (cs : List Node) :
    (n.set_children cs).skip = n.skip := by
  cases n; rfl

@[simp] theorem done_set_children (n : Node) (cs : List Node) :
    (n.set_children cs).done = n.done := by
  cases n; rfl

@[simp] theorem name_set_child (n : Node) (i : Nat) (c : Node) :
    (n.set_child i c).name = n.name := by
  simp [set_child]

@[simp] theorem type_set_child (n : Node) (i : Nat) (c : Node) :
    (n.set_child i c).type = n.type := by
  simp [set_child]

@[simp] theorem children_set_child (n : Node) (i : Nat) (c : Node) :
    (n.set_child i c).children = n.children.set i c := by
  simp [set_child]

@[simp] theorem module_path_set_child (n : Node) (i : Nat) (c : Node) :
    (n.set_child i c).module_path = n.module_path := by
  simp [set_child]

@[simp] theorem module_name_set_child (n : Node) (i : Nat) (c : Node) :
    (n.set_child i c).module_name = n.module_name := by
  simp [set_child]

@[simp] theorem replace_set_child (n : Node) (i : Nat) (c : Node) :
    (n.set_child i c).replace = n.replace := by
  simp [set_child]

@[simp] theorem skip_set_child (n : Node) (i : Nat) (c : Node) :
    (n.set_child i c).skip = n.skip := by
  simp [set_child]

@[simp] theorem done_set_child (n : Node) (i : Nat) (c : Node) :
    (n.set_child i c).done = n.done := by
  simp [set_child]

@[simp] theorem set_children_children (n : Node) : n.set_children n.children = n := by
  cases n; rfl

@[simp] theorem child_count_set_child (n : Node) (i : Nat) (c : Node) :
    (n.set_child i c).child_count = n.child_count := by
  simp [child_count]

@[simp] theorem child_count_set_children (n : Node) (cs : List Node) :
    (n.set_children cs).child_count = cs.length := by
  simp [child_count]

end Node

/-! ## Invariants of the three loops -/

theorem mirror_children_inv {mirror : String → Machine → Option (Int × Machine)}
    (Inv : List String → Machine → Prop)
    (hdot : ∀ de rest m, (de = "." ∨ de = "..") → Inv (de :: rest) m → Inv rest m)
    (hstep : ∀ de rest m r m1, ¬(de = "." ∨ de = "..") → Inv (de :: rest) m →
      mirror de m = some (r, m1) → Inv rest m1) :
    ∀ entries m r m', Inv entries m → mirror_children mirror entries m = some (r, m') →
      ∃ rest, Inv rest m' ∧ (r = 0 → rest = []) ∧ (r = 0 ∨ r = -1) := by
  intro entries
  induction entries with
  | nil =>
    intro m r m' hinv h
    simp only [mirror_children, Option.some.injEq, Prod.mk.injEq] at h
    obtain ⟨rfl, rfl⟩ := h
    exact ⟨[], hinv, fun _ => rfl, Or.inl rfl⟩
  | cons de rest ih =>
    intro m r m' hinv h
    unfold mirror_children at h
    by_cases hd : de = "." ∨ de = ".."
    · rw [if_pos hd] at h
      exact ih m r m' (hdot de rest m hd hinv) h
    · rw [if_neg hd] at h
      cases hm : mirror de m with
      | none => rw [hm] at h; cases h
      | some res =>
        obtain ⟨r1, m1⟩ := res
        rw [hm] at h
        simp only at h
        have hinv1 := hstep de rest m r1 m1 hd hinv hm
        by_cases hr : r1 ≠ 0
        · rw [if_pos hr] at h
          simp only [Option.some.injEq, Prod.mk.injEq] at h
          obtain ⟨rfl, rfl⟩ := h
          exact ⟨rest, hinv1, fun h0 => absurd h0 (by decide), Or.inr rfl⟩
        · rw [if_neg hr] at h
          exact ih m1 r m' hinv1 h

theorem dir_children_loop_inv {ap : ApplyFn} {mi : MirrorFn} {path wpath : String}
    {now_tmp : Bool} (Inv : List String → Machine → Node → Prop)
    (hdot : ∀ de rest m node, (de = "." ∨ de = "..") → Inv (de :: rest) m node →
      Inv rest m node)
    (hskip : ∀ de rest m node i c, ¬(de = "." ∨ de = "..") → Inv (de :: rest) m node →
      node_child_find node de = some (i, c) → c.skip = true →
      Inv rest m (node.set_child i (c.set_done true)))
    (hap : ∀ de rest m node i c r m1 c1, ¬(de = "." ∨ de = "..") →
      Inv (de :: rest) m node → node_child_find node de = some (i, c) → c.skip = false →
      ap path wpath (c.set_done true) now_tmp m = some (r, m1, c1) →
      Inv rest (if r ≠ 0 then child_failed m1 (failed_module (some c) node) else m1)
        (node.set_child i c1))
    (hmi : ∀ de rest m node r m1, ¬(de = "." ∨ de = "..") → Inv (de :: rest) m node →
      node_child_find node de = none → now_tmp = true → mi path wpath de m = some (r, m1) →
      Inv rest (if r ≠ 0 then child_failed m1 (failed_module none node) else m1) node)
    (hnone : ∀ de rest m node, ¬(de = "." ∨ de = "..") → Inv (de :: rest) m node →
      node_child_find node de = none → now_tmp = false → Inv rest m node) :
    ∀ entries m node r m' node', Inv entries m node →
      dir_children_loop ap mi path wpath now_tmp entries m node = some (r, m', node') →
      ∃ rest, Inv rest m' node' ∧ (r = 0 → rest = []) ∧
        (r = 0 ∨ (r = -1 ∧ now_tmp = true)) := by
  intro entries
  induction entries with
  | nil =>
    intro m node r m' node' hinv h
    simp only [dir_children_loop, Option.some.injEq, Prod.mk.injEq] at h
    obtain ⟨rfl, rfl, rfl⟩ := h
    exact ⟨[], hinv, fun _ => rfl, Or.inl rfl⟩
  | cons de rest ih =>
    intro m node r m' node' hinv h
    unfold dir_children_loop at h
    by_cases hd : de = "." ∨ de = ".."
    · rw [if_pos hd] at h
      exact ih m node r m' node' (hdot de rest m node hd hinv) h
    · rw [if_neg hd] at h
      cases hf : node_child_find node de with
      | some ic =>
        obtain ⟨i, c⟩ := ic
        rw [hf] at h
        simp only at h
        cases hs : c.skip with
        | true =>
          rw [hs] at h
          simp only [if_true] at h
          exact ih m _ r m' node' (hskip de rest m node i c hd hinv hf hs) h
        | false =>
          rw [hs] at h
          simp only [Bool.false_eq_true, if_false] at h
          cases ha : ap path wpath (c.set_done true) now_tmp m with
          | none => rw [ha] at h; cases h
          | some res =>
            obtain ⟨r1, m1, c1⟩ := res
            rw [ha] at h
            simp only at h
            have hinv1 := hap de rest m node i c r1 m1 c1 hd hinv hf hs ha
            by_cases hr : r1 ≠ 0
            · rw [if_pos hr] at h hinv1
              cases hn : now_tmp with
              | true =>
                rw [hn] at h
                simp only [if_true, Option.some.injEq, Prod.mk.injEq] at h
                obtain ⟨rfl, rfl, rfl⟩ := h
                exact ⟨rest, hinv1, fun h0 => absurd h0 (by decide), Or.inr ⟨rfl, rfl⟩⟩
              | false =>
                rw [hn] at h
                simp only [Bool.false_eq_true, if_false] at h
                have := ih _ _ r m' node' hinv1 (by rw [hn]; exact h)
                rw [hn] at this
                exact this
            · rw [if_neg hr] at h hinv1
              exact ih _ _ r m' node' hinv1 h
      | none =>
        rw [hf] at h
        simp only at h
        cases hn : now_tmp with
        | true =>
          rw [hn] at h
          simp only [if_true] at h
          cases hm : mi path wpath de m with
          | none => rw [hm] at h; cases h
          | some res =>
            obtain ⟨r1, m1⟩ := res
            rw [hm] at h
            simp only at h
            have hinv1 := hmi de rest m node r1 m1 hd hinv hf hn hm
            by_cases hr : r1 ≠ 0
            · rw [if_pos hr] at h hinv1
              simp only [Option.some.injEq, Prod.mk.injEq] at h
              obtain ⟨rfl, rfl, rfl⟩ := h
              exact ⟨rest, hinv1, fun h0 => absurd h0 (by decide), Or.inr ⟨rfl, rfl⟩⟩
            · rw [if_neg hr] at h hinv1
              have := ih _ _ r m' node' hinv1 (by rw [hn]; exact h)
              rw [hn] at this
              exact this
        | false =>
          rw [hn] at h
          simp only [Bool.false_eq_true, if_false] at h
          have := ih _ _ r m' node' (hnone de rest m node hd hinv hf hn) (by rw [hn]; exact h)
          rw [hn] at this
          exact this

theorem remaining_children_loop_inv {ap : ApplyFn} {path wpath : String} {now_tmp : Bool}
    (Inv : List Nat → Machine → Node → Prop)
    (hnone : ∀ i rest m node, Inv (i :: rest) m node → node.children[i]? = none →
      Inv rest m node)
    (hskip : ∀ i rest m node c, Inv (i :: rest) m node → node.children[i]? = some c →
      (c.skip || c.done) = true → Inv rest m node)
    (hap : ∀ i rest m node c r m1 c1, Inv (i :: rest) m node →
      node.children[i]? = some c → c.skip = false → c.done = false →
      ap path wpath c now_tmp m = some (r, m1, c1) →
      Inv rest (if r ≠ 0 then child_failed m1 (failed_module (some c) node) else m1)
        (node.set_child i c1)) :
    ∀ idxs m node r m' node', Inv idxs m node →
      remaining_children_loop ap path wpath now_tmp idxs m node = some (r, m', node') →
      ∃ rest, Inv rest m' node' ∧ (r = 0 → rest = []) ∧
        (r = 0 ∨ (r = -1 ∧ now_tmp = true)) := by
  intro idxs
  induction idxs with
  | nil =>
    intro m node r m' node' hinv h
    simp only [remaining_children_loop, Option.some.injEq, Prod.mk.injEq] at h
    obtain ⟨rfl, rfl, rfl⟩ := h
    exact ⟨[], hinv, fun _ => rfl, Or.inl rfl⟩
  | cons i rest ih =>
    intro m node r m' node' hinv h
    unfold remaining_children_loop at h
    cases hc : node.children[i]? with
    | none =>
      rw [hc] at h
      exact ih m node r m' node' (hnone i rest m node hinv hc) h
    | some c =>
      rw [hc] at h
      simp only at h
      cases hsd : (c.skip || c.done) with
      | true =>
        rw [hsd] at h
        simp only [if_true] at h
        exact ih m node r m' node' (hskip i rest m node c hinv hc hsd) h
      | false =>
        rw [hsd] at h
        simp only [Bool.false_eq_true, if_false] at h
        have hs : c.skip = false := by
          cases h1 : c.skip <;> simp_all
        have hdn : c.done = false := by
          cases h1 : c.done <;> simp_all
        cases ha : ap path wpath c now_tmp m with
        | none => rw [ha] at h; cases h
        | some res =>
          obtain ⟨r1, m1, c1⟩ := res
          rw [ha] at h
          simp only at h
          have hinv1 := hap i rest m node c r1 m1 c1 hinv hc hs hdn ha
          by_cases hr : r1 ≠ 0
          · rw [if_pos hr] at h hinv1
            cases hn : now_tmp with
            | true =>
              rw [hn] at h
              simp only [if_true, Option.some.injEq, Prod.mk.injEq] at h
              obtain ⟨rfl, rfl, rfl⟩ := h
              exact ⟨rest, hinv1, fun h0 => absurd h0 (by decide), Or.inr ⟨rfl, rfl⟩⟩
            | false =>
              rw [hn] at h
              simp only [Bool.false_eq_true, if_false] at h
              have := ih _ _ r m' node' hinv1 (by rw [hn]; exact h)
              rw [hn] at this
              exact this
          · rw [if_neg hr] at h hinv1
            exact ih _ _ r m' node' hinv1 h

/-! ## Case analysis of a completed call -/

theorem mm_mirror_entry_cases {w : World} {fuel : Nat} {path work name : String}
    {m : Machine} {r : Int} {m' : Machine}
    (h : mm_mirror_entry w (fuel + 1) path work name m = some (r, m')) :
    ((w.path_join path name = none ∨ w.path_join work name = none) ∧ r = -1 ∧ m' = m) ∨
    ∃ src dst, w.path_join path name = some src ∧ w.path_join work name = some dst ∧
      ((w.lstat m.trace src = none ∧ r = 0 ∧ m' = m) ∨
       ∃ st, w.lstat m.trace src = some st ∧
        ((S_ISREG st.st_mode = true ∧ (r, m') = mirror_regular w src dst st m) ∨
         (S_ISREG st.st_mode = false ∧ S_ISDIR st.st_mode = true ∧
            (mirror_mkdir w src dst st m).1 ≠ 0 ∧ r = -1 ∧
            m' = (mirror_mkdir w src dst st m).2) ∨
         (S_ISREG st.st_mode = false ∧ S_ISDIR st.st_mode = true ∧
            (mirror_mkdir w src dst st m).1 = 0 ∧
            w.opendir (mirror_mkdir w src dst st m).2.trace src = none ∧ r = -1 ∧
            m' = (mirror_mkdir w src dst st m).2) ∨
         (S_ISREG st.st_mode = false ∧ S_ISDIR st.st_mode = true ∧
            (mirror_mkdir w src dst st m).1 = 0 ∧
            ∃ entries, w.opendir (mirror_mkdir w src dst st m).2.trace src = some entries ∧
              mirror_children (fun de m3 => mm_mirror_entry w fuel src dst de m3) entries
                (mirror_mkdir w src dst st m).2 = some (r, m')) ∨
         (S_ISREG st.st_mode = false ∧ S_ISDIR st.st_mode = false ∧
            S_ISLNK st.st_mode = true ∧ (r, m') = mirror_symlink w src dst m) ∨
         (S_ISREG st.st_mode = false ∧ S_ISDIR st.st_mode = false ∧
            S_ISLNK st.st_mode = false ∧ r = 0 ∧ m' = m))) := by
  simp only [mm_mirror_entry] at h
  cases hj1 : w.path_join path name with
  | none =>
    rw [hj1] at h
    simp only [Option.some.injEq, Prod.mk.injEq] at h
    exact Or.inl ⟨Or.inl rfl, h.1.symm, h.2.symm⟩
  | some src =>
    cases hj2 : w.path_join work name with
    | none =>
      rw [hj1, hj2] at h
      simp only [Option.some.injEq, Prod.mk.injEq] at h
      exact Or.inl ⟨Or.inr rfl, h.1.symm, h.2.symm⟩
    | some dst =>
      rw [hj1, hj2] at h
      simp only at h
      refine Or.inr ⟨src, dst, rfl, rfl, ?_⟩
      cases hl : w.lstat m.trace src with
      | none =>
        rw [hl] at h
        simp only [Option.some.injEq, Prod.mk.injEq] at h
        exact Or.inl ⟨rfl, h.1.symm, h.2.symm⟩
      | some st =>
        rw [hl] at h
        simp only at h
        refine Or.inr ⟨st, rfl, ?_⟩
        cases hreg : S_ISREG st.st_mode with
        | true =>
          rw [hreg] at h
          simp only [if_true, Option.some.injEq] at h
          exact Or.inl ⟨rfl, h.symm⟩
        | false =>
          rw [hreg] at h
          simp only [Bool.false_eq_true, if_false] at h
          cases hdir : S_ISDIR st.st_mode with
          | true =>
            rw [hdir] at h
            simp only [if_true] at h
            by_cases hmk : (mirror_mkdir w src dst st m).1 ≠ 0
            · rw [if_pos hmk] at h
              simp only [Option.some.injEq, Prod.mk.injEq] at h
              exact Or.inr (Or.inl ⟨rfl, rfl, hmk, h.1.symm, h.2.symm⟩)
            · rw [if_neg hmk] at h
              have hmk0 : (mirror_mkdir w src dst st m).1 = 0 := not_not.mp hmk
              cases ho : w.opendir (mirror_mkdir w src dst st m).2.trace src with
              | none =>
                rw [ho] at h
                simp only [Option.some.injEq, Prod.mk.injEq] at h
                exact Or.inr (Or.inr (Or.inl ⟨rfl, rfl, hmk0, rfl, h.1.symm, h.2.symm⟩))
              | some entries =>
                rw [ho] at h
                exact Or.inr (Or.inr (Or.inr (Or.inl ⟨rfl, rfl, hmk0, entries, rfl, h⟩)))
          | false =>
            rw [hdir] at h
            simp only [Bool.false_eq_true, if_false] at h
            cases hlnk : S_ISLNK st.st_mode with
            | true =>
              rw [hlnk] at h
              simp only [if_true, Option.some.injEq] at h
              exact Or.inr (Or.inr (Or.inr (Or.inr (Or.inl ⟨rfl, rfl, rfl, h.symm⟩))))
            | false =>
              rw [hlnk] at h
              simp only [Bool.false_eq_true, if_false, Option.some.injEq, Prod.mk.injEq] at h
              exact Or.inr (Or.inr (Or.inr (Or.inr (Or.inr
                ⟨rfl, rfl, rfl, h.1.symm, h.2.symm⟩))))

theorem mm_process_dir_children_cases {w : World} {ap : ApplyFn} {mi : MirrorFn}
    {path wpath : String} {node : Node} {now_tmp : Bool} {m : Machine}
    {r : Int} {m' : Machine} {node' : Node}
    (h : mm_process_dir_children w ap mi path wpath node now_tmp m = some (r, m', node')) :
    ((w.path_exists m.trace path = false ∨ node.replace = true) ∧
      r = 0 ∧ m' = m ∧ node' = node) ∨
    (w.path_exists m.trace path = true ∧ node.replace = false ∧
      ((w.opendir m.trace path = none ∧ r = (if now_tmp then -1 else 0) ∧
          m' = m ∧ node' = node) ∨
       ∃ entries, w.opendir m.trace path = some entries ∧
         dir_children_loop ap mi path wpath now_tmp entries m node = some (r, m', node'))) := by
  unfold mm_process_dir_children at h
  cases hpe : w.path_exists m.trace path with
  | false =>
    rw [hpe] at h
    simp only [Bool.not_false, Bool.true_or, if_true, Option.some.injEq, Prod.mk.injEq] at h
    exact Or.inl ⟨Or.inl rfl, h.1.symm, h.2.1.symm, h.2.2.symm⟩
  | true =>
    cases hrep : node.replace with
    | true =>
      rw [hpe, hrep] at h
      simp only [Bool.or_true, if_true, Option.some.injEq, Prod.mk.injEq] at h
      exact Or.inl ⟨Or.inr rfl, h.1.symm, h.2.1.symm, h.2.2.symm⟩
    | false =>
      rw [hpe, hrep] at h
      simp only [Bool.not_true, Bool.or_self, Bool.false_eq_true, if_false] at h
      refine Or.inr ⟨rfl, rfl, ?_⟩
      cases ho : w.opendir m.trace path with
      | none =>
        rw [ho] at h
        simp only [Option.some.injEq, Prod.mk.injEq] at h
        exact Or.inl ⟨rfl, h.1.symm, h.2.1.symm, h.2.2.symm⟩
      | some entries =>
        rw [ho] at h
        exact Or.inr ⟨entries, rfl, h⟩

theorem dir_passes_cases {w : World} {ap : ApplyFn} {mi : MirrorFn}
    {path wpath : String} {node : Node} {create_tmp now_tmp : Bool} {m : Machine}
    {r : Int} {m' : Machine} {node' : Node}
    (h : dir_passes w ap mi path wpath node create_tmp now_tmp m = some (r, m', node')) :
    ∃ r1 m1 n1, mm_process_dir_children w ap mi path wpath node now_tmp m = some (r1, m1, n1) ∧
      ((r1 ≠ 0 ∧ r = -1 ∧ m' = m1 ∧ node' = n1) ∨
       (r1 = 0 ∧ ∃ r2 m2 n2,
          mm_process_remaining_children ap path wpath n1 now_tmp m1 = some (r2, m2, n2) ∧
          ((r2 ≠ 0 ∧ r = -1 ∧ m' = m2 ∧ node' = n2) ∨
           (r2 = 0 ∧ r = (dir_finish w path wpath n2 create_tmp m2).1 ∧
              m' = (dir_finish w path wpath n2 create_tmp m2).2 ∧ node' = n2)))) := by
  unfold dir_passes at h
  cases h1 : mm_process_dir_children w ap mi path wpath node now_tmp m with
  | none => rw [h1] at h; cases h
  | some res1 =>
    obtain ⟨r1, m1, n1⟩ := res1
    rw [h1] at h
    simp only at h
    refine ⟨r1, m1, n1, rfl, ?_⟩
    by_cases hr1 : r1 ≠ 0
    · rw [if_pos hr1] at h
      simp only [Option.some.injEq, Prod.mk.injEq] at h
      exact Or.inl ⟨hr1, h.1.symm, h.2.1.symm, h.2.2.symm⟩
    · rw [if_neg hr1] at h
      refine Or.inr ⟨not_not.mp hr1, ?_⟩
      cases h2 : mm_process_remaining_children ap path wpath n1 now_tmp m1 with
      | none => rw [h2] at h; cases h
      | some res2 =>
        obtain ⟨r2, m2, n2⟩ := res2
        rw [h2] at h
        simp only at h
        refine ⟨r2, m2, n2, rfl, ?_⟩
        by_cases hr2 : r2 ≠ 0
        · rw [if_pos hr2] at h
          simp only [Option.some.injEq, Prod.mk.injEq] at h
          exact Or.inl ⟨hr2, h.1.symm, h.2.1.symm, h.2.2.symm⟩
        · rw [if_neg hr2] at h
          simp only [Option.some.injEq, Prod.mk.injEq] at h
          exact Or.inr ⟨not_not.mp hr2, h.1.symm, h.2.1.symm, h.2.2.symm⟩

theorem dir_body_cases {w : World} {ap : ApplyFn} {mi : MirrorFn}
    {path wpath : String} {node : Node} {create_tmp now_tmp : Bool} {m : Machine}
    {r : Int} {m' : Machine} {node' : Node}
    (h : dir_body w ap mi path wpath node create_tmp now_tmp m = some (r, m', node')) :
    ((dir_enter w path wpath node create_tmp now_tmp m).1 ≠ 0 ∧ r = -1 ∧
      m' = (dir_enter w path wpath node create_tmp now_tmp m).2 ∧ node' = node) ∨
    ((dir_enter w path wpath node create_tmp now_tmp m).1 = 0 ∧
      dir_passes w ap mi path wpath node create_tmp now_tmp
        (dir_enter w path wpath node create_tmp now_tmp m).2 = some (r, m', node')) := by
  unfold dir_body at h
  by_cases he : (dir_enter w path wpath node create_tmp now_tmp m).1 ≠ 0
  · rw [if_pos he] at h
    simp only [Option.some.injEq, Prod.mk.injEq] at h
    exact Or.inl ⟨he, h.1.symm, h.2.1.symm, h.2.2.symm⟩
  · rw [if_neg he] at h
    exact Or.inr ⟨not_not.mp he, h⟩

theorem mm_apply_node_recursive_cases {w : World} {fuel : Nat} {base wbase : String}
    {node : Node} {has_tmpfs : Bool} {m : Machine} {r : Int} {m' : Machine} {node' : Node}
    (h : mm_apply_node_recursive w (fuel + 1) base wbase node has_tmpfs m =
      some (r, m', node')) :
    ((w.path_join base node.name = none ∨ w.path_join wbase node.name = none) ∧
      r = -1 ∧ m' = m ∧ node' = node) ∨
    ∃ path wpath, w.path_join base node.name = some path ∧
      w.path_join wbase node.name = some wpath ∧
      ((node.type = NFT_REGULAR ∧
          r = (mm_apply_regular_file w path wpath node has_tmpfs m).1 ∧
          m' = (mm_apply_regular_file w path wpath node has_tmpfs m).2 ∧ node' = node) ∨
       (node.type = NFT_SYMLINK ∧ r = (mm_apply_symlink w path wpath node m).1 ∧
          m' = (mm_apply_symlink w path wpath node m).2 ∧ node' = node) ∨
       (node.type = NFT_WHITEOUT ∧ r = 0 ∧ m' = m.inc_whiteout ∧ node' = node) ∨
       (node.type = NFT_DIRECTORY ∧
          dir_body w (fun b wb c h1 m1 => mm_apply_node_recursive w fuel b wb c h1 m1)
            (fun p wk n m1 => mm_mirror_entry w fuel p wk n m1) path wpath
            (decide_create_tmp w m.trace node path has_tmpfs).2
            (decide_create_tmp w m.trace node path has_tmpfs).1
            (has_tmpfs || (decide_create_tmp w m.trace node path has_tmpfs).1) m =
          some (r, m', node'))) := by
  simp only [mm_apply_node_recursive] at h
  cases hj1 : w.path_join base node.name with
  | none =>
    rw [hj1] at h
    simp only [Option.some.injEq, Prod.mk.injEq] at h
    exact Or.inl ⟨Or.inl rfl, h.1.symm, h.2.1.symm, h.2.2.symm⟩
  | some path =>
    cases hj2 : w.path_join wbase node.name with
    | none =>
      rw [hj1, hj2] at h
      simp only [Option.some.injEq, Prod.mk.injEq] at h
      exact Or.inl ⟨Or.inr rfl, h.1.symm, h.2.1.symm, h.2.2.symm⟩
    | some wpath =>
      rw [hj1, hj2] at h
      simp only at h
      refine Or.inr ⟨path, wpath, rfl, rfl, ?_⟩
      cases hty : node.type with
      | NFT_REGULAR =>
        rw [hty] at h
        simp only [Option.some.injEq, Prod.mk.injEq] at h
        exact Or.inl ⟨rfl, h.1.symm, h.2.1.symm, h.2.2.symm⟩
      | NFT_SYMLINK =>
        rw [hty] at h
        simp only [Option.some.injEq, Prod.mk.injEq] at h
        exact Or.inr (Or.inl ⟨rfl, h.1.symm, h.2.1.symm, h.2.2.symm⟩)
      | NFT_WHITEOUT =>
        rw [hty] at h
        simp only [Option.some.injEq, Prod.mk.injEq] at h
        exact Or.inr (Or.inr (Or.inl ⟨rfl, h.1.symm, h.2.1.symm, h.2.2.symm⟩))
      | NFT_DIRECTORY =>
        rw [hty] at h
        exact Or.inr (Or.inr (Or.inr ⟨rfl, h⟩))

/-! ## Later states of the machine -/

namespace Machine

theorem Le.rfl_le (m : Machine) : m.Le m :=
  ⟨rfl, rfl, rfl, ⟨[], by simp⟩, le_refl _, le_refl _, le_refl _⟩

theorem Le.trans {a b c : Machine} (h1 : a.Le b) (h2 : b.Le c) : a.Le c := by
  obtain ⟨a1, a2, a3, ⟨l1, a4⟩, a5, a6, a7⟩ := h1
  obtain ⟨b1, b2, b3, ⟨l2, b4⟩, b5, b6, b7⟩ := h2
  refine ⟨b1.trans a1, b2.trans a2, b3.trans a3, ⟨l1 ++ l2, ?_⟩, le_trans a5 b5,
    le_trans a6 b6, le_trans a7 b7⟩
  rw [b4, a4, List.append_assoc]

theorem le_emit (m : Machine) (op : Op) : m.Le (m.emit op) :=
  ⟨rfl, rfl, rfl, ⟨[op], rfl⟩, le_refl _, le_refl _, le_refl _⟩

theorem le_inc_mounted (m : Machine) : m.Le m.inc_mounted :=
  ⟨rfl, rfl, rfl, ⟨[], by simp [inc_mounted]⟩, Nat.le_succ _, le_refl _, le_refl _⟩

theorem le_inc_fail (m : Machine) : m.Le m.inc_fail :=
  ⟨rfl, rfl, rfl, ⟨[], by simp [inc_fail]⟩, le_refl _, Nat.le_succ _, le_refl _⟩

theorem le_inc_whiteout (m : Machine) : m.Le m.inc_whiteout :=
  ⟨rfl, rfl, rfl, ⟨[], by simp [inc_whiteout]⟩, le_refl _, le_refl _, Nat.le_succ _⟩

theorem Le.emit {a b : Machine} (h : a.Le b) (op : Op) : a.Le (b.emit op) :=
  h.trans (le_emit b op)

theorem Le.inc_mounted {a b : Machine} (h : a.Le b) : a.Le b.inc_mounted :=
  h.trans (le_inc_mounted b)

theorem Le.inc_fail {a b : Machine} (h : a.Le b) : a.Le b.inc_fail :=
  h.trans (le_inc_fail b)

end Machine

theorem child_failed_le (m : Machine) (mn : Option String) : m.Le (child_failed m mn) := by
  unfold child_failed
  cases mn with
  | none => exact Machine.le_inc_fail m
  | some n => exact (Machine.le_emit m _).inc_fail

theorem mm_clone_symlink_le (w : World) (src dst : String) (m : Machine) :
    m.Le (mm_clone_symlink w src dst m).2 := by
  unfold mm_clone_symlink
  repeat' (first
    | exact Machine.Le.rfl_le _
    | assumption
    | split
    | apply Machine.Le.emit
    | apply Machine.Le.inc_mounted
    | apply Machine.Le.inc_fail
    | dsimp only)

theorem mm_clone_symlink_rc (w : World) (src dst : String) (m : Machine) :
    (mm_clone_symlink w src dst m).1 = 0 ∨ (mm_clone_symlink w src dst m).1 = -1 := by
  unfold mm_clone_symlink
  repeat' (first | exact Or.inl rfl | exact Or.inr rfl | split | dsimp only)

theorem regular_bind_le (w : World) (path target : String) (node : Node) (m : Machine) :
    m.Le (regular_bind w path target node m).2 := by
  unfold regular_bind
  repeat' (first
    | exact Machine.Le.rfl_le _
    | assumption
    | split
    | apply Machine.Le.emit
    | apply Machine.Le.inc_mounted
    | apply Machine.Le.inc_fail
    | dsimp only)

theorem regular_bind_rc (w : World) (path target : String) (node : Node) (m : Machine) :
    (regular_bind w path target node m).1 = 0 ∨ (regular_bind w path target node m).1 = -1 := by
  unfold regular_bind
  repeat' (first | exact Or.inl rfl | exact Or.inr rfl | split | dsimp only)

theorem regular_create_le (w : World) (path wpath : String) (node : Node) (m : Machine) :
    m.Le (regular_create w path wpath node m).2 := by
  unfold regular_create
  split
  · exact Machine.le_emit m _
  · exact (Machine.le_emit m _).trans (regular_bind_le w path wpath node _)

theorem regular_create_rc (w : World) (path wpath : String) (node : Node) (m : Machine) :
    (regular_create w path wpath node m).1 = 0 ∨
      (regular_create w path wpath node m).1 = -1 := by
  unfold regular_create
  split
  · exact Or.inr rfl
  · exact regular_bind_rc w path wpath node _

theorem mm_apply_regular_file_le (w : World) (path wpath : String) (node : Node)
    (has_tmpfs : Bool) (m : Machine) :
    m.Le (mm_apply_regular_file w path wpath node has_tmpfs m).2 := by
  unfold mm_apply_regular_file
  split
  · split
    · split
      · exact Machine.le_emit m _
      · exact (Machine.le_emit m _).trans (regular_create_le w path wpath node _)
    · exact regular_create_le w path wpath node m
  · exact regular_bind_le w path path node m

theorem mm_apply_regular_file_rc (w : World) (path wpath : String) (node : Node)
    (has_tmpfs : Bool) (m : Machine) :
    (mm_apply_regular_file w path wpath node has_tmpfs m).1 = 0 ∨
      (mm_apply_regular_file w path wpath node has_tmpfs m).1 = -1 := by
  unfold mm_apply_regular_file
  split
  · split
    · split
      · exact Or.inr rfl
      · exact regular_create_rc w path wpath node _
    · exact regular_create_rc w path wpath node m
  · exact regular_bind_rc w path path node m

theorem mm_apply_symlink_le (w : World) (path wpath : String) (node : Node) (m : Machine) :
    m.Le (mm_apply_symlink w path wpath node m).2 := by
  unfold mm_apply_symlink
  split
  · exact Machine.Le.rfl_le m
  · split
    · exact mm_clone_symlink_le w _ wpath m
    · exact (mm_clone_symlink_le w _ wpath m).inc_mounted

theorem mm_apply_symlink_rc (w : World) (path wpath : String) (node : Node) (m : Machine) :
    (mm_apply_symlink w path wpath node m).1 = 0 ∨ (mm_apply_symlink w path wpath node m).1 = -1 := by
  unfold mm_apply_symlink
  repeat' (first | exact Or.inl rfl | exact Or.inr rfl | split | dsimp only)

theorem mm_setup_dir_tmpfs_le (w : World) (path wpath : String) (node : Node) (m : Machine) :
    m.Le (mm_setup_dir_tmpfs w path wpath node m).2 := by
  unfold mm_setup_dir_tmpfs
  repeat' (first
    | exact Machine.Le.rfl_le _
    | assumption
    | split
    | apply Machine.Le.emit
    | apply Machine.Le.inc_mounted
    | apply Machine.Le.inc_fail
    | dsimp only)

theorem mm_setup_dir_tmpfs_rc (w : World) (path wpath : String) (node : Node) (m : Machine) :
    (mm_setup_dir_tmpfs w path wpath node m).1 = 0 ∨ (mm_setup_dir_tmpfs w path wpath node m).1 = -1 := by
  unfold mm_setup_dir_tmpfs
  repeat' (first | exact Or.inl rfl | exact Or.inr rfl | split | dsimp only)

theorem dir_enter_le (w : World) (path wpath : String) (node : Node)
    (create_tmp now_tmp : Bool) (m : Machine) :
    m.Le (dir_enter w path wpath node create_tmp now_tmp m).2 := by
  have hs := mm_setup_dir_tmpfs_le w path wpath node m
  unfold dir_enter
  repeat' (first
    | exact Machine.Le.rfl_le _
    | assumption
    | split
    | apply Machine.Le.emit
    | apply Machine.Le.inc_mounted
    | apply Machine.Le.inc_fail
    | dsimp only)

theorem dir_enter_rc (w : World) (path wpath : String) (node : Node)
    (create_tmp now_tmp : Bool) (m : Machine) :
    (dir_enter w path wpath node create_tmp now_tmp m).1 = 0 ∨ (dir_enter w path wpath node create_tmp now_tmp m).1 = -1 := by
  unfold dir_enter
  repeat' (first | exact Or.inl rfl | exact Or.inr rfl | split | dsimp only)

theorem dir_finish_le (w : World) (path wpath : String) (node : Node) (create_tmp : Bool)
    (m : Machine) :
    m.Le (dir_finish w path wpath node create_tmp m).2 := by
  unfold dir_finish
  repeat' (first
    | exact Machine.Le.rfl_le _
    | assumption
    | split
    | apply Machine.Le.emit
    | apply Machine.Le.inc_mounted
    | apply Machine.Le.inc_fail
    | dsimp only)

theorem dir_finish_rc (w : World) (path wpath : String) (node : Node) (create_tmp : Bool)
    (m : Machine) :
    (dir_finish w path wpath node create_tmp m).1 = 0 ∨ (dir_finish w path wpath node create_tmp m).1 = -1 := by
  unfold dir_finish
  repeat' (first | exact Or.inl rfl | exact Or.inr rfl | split | dsimp only)

theorem mirror_regular_le (w : World) (src dst : String) (st : Stat) (m : Machine) :
    m.Le (mirror_regular w src dst st m).2 := by
  unfold mirror_regular
  repeat' (first
    | exact Machine.Le.rfl_le _
    | assumption
    | split
    | apply Machine.Le.emit
    | apply Machine.Le.inc_mounted
    | apply Machine.Le.inc_fail
    | dsimp only)

theorem mirror_regular_rc (w : World) (src dst : String) (st : Stat) (m : Machine) :
    (mirror_regular w src dst st m).1 = 0 ∨ (mirror_regular w src dst st m).1 = -1 := by
  unfold mirror_regular
  repeat' (first | exact Or.inl rfl | exact Or.inr rfl | split | dsimp only)

theorem mirror_mkdir_le (w : World) (src dst : String) (st : Stat) (m : Machine) :
    m.Le (mirror_mkdir w src dst st m).2 := by
  unfold mirror_mkdir
  repeat' (first
    | exact Machine.Le.rfl_le _
    | assumption
    | split
    | apply Machine.Le.emit
    | apply Machine.Le.inc_mounted
    | apply Machine.Le.inc_fail
    | dsimp only)

theorem mirror_mkdir_rc (w : World) (src dst : String) (st : Stat) (m : Machine) :
    (mirror_mkdir w src dst st m).1 = 0 ∨ (mirror_mkdir w src dst st m).1 = -1 := by
  unfold mirror_mkdir
  repeat' (first | exact Or.inl rfl | exact Or.inr rfl | split | dsimp only)

theorem mirror_symlink_le (w : World) (src dst : String) (m : Machine) :
    m.Le (mirror_symlink w src dst m).2 := by
  have hs := mm_clone_symlink_le w src dst m
  unfold mirror_symlink
  repeat' (first
    | exact Machine.Le.rfl_le _
    | assumption
    | split
    | apply Machine.Le.emit
    | apply Machine.Le.inc_mounted
    | apply Machine.Le.inc_fail
    | dsimp only)

theorem mirror_symlink_rc (w : World) (src dst : String) (m : Machine) :
    (mirror_symlink w src dst m).1 = 0 ∨ (mirror_symlink w src dst m).1 = -1 := by
  unfold mirror_symlink
  repeat' (first | exact Or.inl rfl | exact Or.inr rfl | split | dsimp only)

/-! ## Nodes up to flags -/

namespace Node

@[simp] theorem count_set_skip (n : Node) (b : Bool) : (n.set_skip b).count = n.count := by
  cases n; simp [set_skip, count]

@[simp] theorem count_set_done (n : Node) (b : Bool) : (n.set_done b).count = n.count := by
  cases n; simp [set_done, count]

@[simp] theorem height_set_skip (n : Node) (b : Bool) : (n.set_skip b).height = n.height := by
  cases n; simp [set_skip, height]

@[simp] theorem height_set_done (n : Node) (b : Bool) : (n.set_done b).height = n.height := by
  cases n; simp [set_done, height]

theorem count_eq (n : Node) : n.count = 1 + countList n.children := by
  cases n; simp [count, children]

theorem height_eq (n : Node) : n.height = 1 + heightList n.children := by
  cases n; simp [height, children]

theorem Sim.sim_refl (n : Node) : n.Sim n := ⟨rfl, rfl, rfl, rfl, rfl, rfl, rfl, rfl⟩

theorem Sim.sim_trans {a b c : Node} (h1 : a.Sim b) (h2 : b.Sim c) : a.Sim c := by
  obtain ⟨a1, a2, a3, a4, a5, a6, a7, a8⟩ := h1
  obtain ⟨b1, b2, b3, b4, b5, b6, b7, b8⟩ := h2
  exact ⟨b1.trans a1, b2.trans a2, b3.trans a3, b4.trans a4, b5.trans a5, b6.trans a6,
    b7.trans a7, b8.trans a8⟩

theorem sim_set_done (n : Node) (b : Bool) : n.Sim (n.set_done b) := by
  refine ⟨?_, ?_, ?_, ?_, ?_, ?_, ?_, ?_⟩ <;> simp

theorem sim_set_skip (n : Node) (b : Bool) : n.Sim (n.set_skip b) := by
  refine ⟨?_, ?_, ?_, ?_, ?_, ?_, ?_, ?_⟩ <;> simp

theorem Same.same_refl (n : Node) : n.Same n := ⟨Sim.sim_refl n, rfl, rfl⟩

theorem Same.same_trans {a b c : Node} (h1 : a.Same b) (h2 : b.Same c) : a.Same c :=
  ⟨h1.1.sim_trans h2.1, h2.2.1.trans h1.2.1, h2.2.2.trans h1.2.2⟩

theorem countList_of_forall₂ {l l' : List Node} (h : List.Forall₂ Sim l l') :
    countList l' = countList l := by
  induction h with
  | nil => rfl
  | cons hc _ ih => simp only [countList, ih, hc.2.2.2.2.2.1]

theorem heightList_of_forall₂ {l l' : List Node} (h : List.Forall₂ Sim l l') :
    heightList l' = heightList l := by
  induction h with
  | nil => rfl
  | cons hc _ ih => simp only [heightList, ih, hc.2.2.2.2.2.2.1]

theorem names_of_forall₂ {l l' : List Node} (h : List.Forall₂ Sim l l') :
    l'.map Node.name = l.map Node.name := by
  induction h with
  | nil => rfl
  | cons hc _ ih => simp only [List.map_cons, ih, hc.1]

theorem forall₂_sim_refl (l : List Node) : List.Forall₂ Sim l l := by
  induction l with
  | nil => exact List.Forall₂.nil
  | cons c cs ih => exact List.Forall₂.cons (Sim.sim_refl c) ih

theorem forall₂_sim_set {l : List Node} {i : Nat} {c c' : Node} (hi : l[i]? = some c)
    (hs : c.Sim c') : List.Forall₂ Sim l (l.set i c') := by
  induction l generalizing i with
  | nil => simp at hi
  | cons d ds ih =>
    cases i with
    | zero =>
      simp only [List.getElem?_cons_zero, Option.some.injEq] at hi
      subst hi
      exact List.Forall₂.cons hs (forall₂_sim_refl ds)
    | succ j =>
      simp only [List.getElem?_cons_succ] at hi
      exact List.Forall₂.cons (Sim.sim_refl d) (ih hi)

theorem same_set_children {n : Node} {cs : List Node} (h : List.Forall₂ Sim n.children cs) :
    n.Same (n.set_children cs) := by
  refine ⟨⟨?_, ?_, ?_, ?_, ?_, ?_, ?_, ?_⟩, ?_, ?_⟩ <;>
    simp [count_eq, height_eq, countList_of_forall₂ h, heightList_of_forall₂ h,
      names_of_forall₂ h]

theorem same_set_child {n : Node} {i : Nat} {c c' : Node} (hi : n.children[i]? = some c)
    (hs : c.Sim c') : n.Same (n.set_child i c') :=
  same_set_children (forall₂_sim_set hi hs)

end Node

theorem find_child_some {name : String} {cs : List Node} {i : Nat} {c : Node}
    (h : find_child name cs = some (i, c)) : cs[i]? = some c ∧ c.name = name := by
  induction cs generalizing i with
  | nil => simp [find_child] at h
  | cons d ds ih =>
    unfold find_child at h
    by_cases hd : d.name = name
    · rw [if_pos hd] at h
      simp only [Option.some.injEq, Prod.mk.injEq] at h
      obtain ⟨rfl, rfl⟩ := h
      exact ⟨by simp, hd⟩
    · rw [if_neg hd] at h
      cases hf : find_child name ds with
      | none => rw [hf] at h; cases h
      | some jc =>
        obtain ⟨j, e⟩ := jc
        rw [hf] at h
        simp only [Option.some.injEq, Prod.mk.injEq] at h
        obtain ⟨rfl, rfl⟩ := h
        exact ⟨by simpa using (ih hf).1, (ih hf).2⟩

theorem node_child_find_some {node : Node} {name : String} {i : Nat} {c : Node}
    (h : node_child_find node name = some (i, c)) :
    node.children[i]? = some c ∧ c.name = name :=
  find_child_some h

theorem check_children_forall₂ (w : World) (tr : List Op) (hmp : Bool) (path : String)
    (cs : List Node) :
    List.Forall₂ Node.Sim cs (check_children w tr hmp path cs).2 := by
  induction cs with
  | nil => exact List.Forall₂.nil
  | cons c cs ih =>
    unfold check_children
    repeat' split
    · exact List.Forall₂.cons (Node.Sim.sim_refl c) ih
    · exact List.Forall₂.cons (Node.sim_set_skip c true) ih
    · exact Node.forall₂_sim_refl _
    · exact List.Forall₂.cons (Node.Sim.sim_refl c) ih

theorem mm_check_need_tmpfs_same (w : World) (tr : List Op) (node : Node) (path : String) :
    node.Same (mm_check_need_tmpfs w tr node path).2 :=
  Node.same_set_children (check_children_forall₂ w tr _ path _)

theorem decide_create_tmp_same (w : World) (tr : List Op) (node : Node) (path : String)
    (has_tmpfs : Bool) : node.Same (decide_create_tmp w tr node path has_tmpfs).2 := by
  unfold decide_create_tmp
  repeat' split
  · exact Node.Same.same_refl node
  · exact mm_check_need_tmpfs_same w tr node path
  · exact Node.Same.same_refl node

/-! ## Every call leaves a later machine and the same tree up to flags -/

theorem mirror_children_le {mirror : String → Machine → Option (Int × Machine)}
    (hm : ∀ de m r m', mirror de m = some (r, m') → m.Le m' ∧ (r = 0 ∨ r = -1))
    (entries : List String) (m : Machine) (r : Int) (m' : Machine)
    (h : mirror_children mirror entries m = some (r, m')) : m.Le m' ∧ (r = 0 ∨ r = -1) := by
  obtain ⟨_, h1, _, h3⟩ := mirror_children_inv (fun _ m1 => m.Le m1)
    (fun _ _ _ _ h => h) (fun de _ m1 r1 m2 _ h hs => h.trans (hm de m1 r1 m2 hs).1)
    entries m r m' (Machine.Le.rfl_le m) h
  exact ⟨h1, h3⟩

theorem mm_mirror_entry_ok (w : World) (fuel : Nat) :
    MirrorOk (fun p wk n m => mm_mirror_entry w fuel p wk n m) := by
  induction fuel with
  | zero => intro p wk n m r m' h; simp [mm_mirror_entry] at h
  | succ fuel ih =>
    intro p wk n m r m' h
    rcases mm_mirror_entry_cases h with ⟨_, rfl, rfl⟩ | ⟨src, dst, _, _, hc⟩
    · exact ⟨Machine.Le.rfl_le _, Or.inr rfl⟩
    rcases hc with ⟨_, rfl, rfl⟩ | ⟨st, _, hc⟩
    · exact ⟨Machine.Le.rfl_le _, Or.inl rfl⟩
    rcases hc with ⟨_, he⟩ | ⟨_, _, _, rfl, rfl⟩ | ⟨_, _, _, _, rfl, rfl⟩ |
      ⟨_, _, _, entries, _, hl⟩ | ⟨_, _, _, he⟩ | ⟨_, _, _, rfl, rfl⟩
    · have h1 := mirror_regular_le w src dst st m
      have h2 := mirror_regular_rc w src dst st m
      rw [← he] at h1 h2
      exact ⟨h1, h2⟩
    · exact ⟨mirror_mkdir_le w src dst st m, Or.inr rfl⟩
    · exact ⟨mirror_mkdir_le w src dst st m, Or.inr rfl⟩
    · have := mirror_children_le (fun de m1 r1 m2 hs => ih _ _ de m1 r1 m2 hs) _ _ r m' hl
      exact ⟨(mirror_mkdir_le w src dst st m).trans this.1, this.2⟩
    · have h1 := mirror_symlink_le w src dst m
      have h2 := mirror_symlink_rc w src dst m
      rw [← he] at h1 h2
      exact ⟨h1, h2⟩
    · exact ⟨Machine.Le.rfl_le _, Or.inl rfl⟩

theorem dir_children_loop_ok {ap : ApplyFn} {mi : MirrorFn} (hap : ApplyOk ap)
    (hmi : MirrorOk mi) {path wpath : String} {now_tmp : Bool} {entries : List String}
    {m : Machine} {node : Node} {r : Int} {m' : Machine} {node' : Node}
    (h : dir_children_loop ap mi path wpath now_tmp entries m node = some (r, m', node')) :
    m.Le m' ∧ node.Same node' ∧ (r = 0 ∨ r = -1) := by
  obtain ⟨_, ⟨h1, h2⟩, _, h3⟩ := dir_children_loop_inv
    (fun _ m1 n1 => m.Le m1 ∧ node.Same n1)
    (fun _ _ _ _ _ h => h)
    (fun de _ m1 n1 i c _ h hf _ =>
      ⟨h.1, h.2.same_trans (Node.same_set_child (node_child_find_some hf).1 (Node.sim_set_done c true))⟩)
    (fun de _ m1 n1 i c r1 m2 c1 _ h hf _ ha => by
      obtain ⟨a1, a2, _⟩ := hap _ _ _ _ _ _ _ _ ha
      refine ⟨?_, h.2.same_trans (Node.same_set_child (node_child_find_some hf).1
        ((Node.sim_set_done c true).sim_trans a2.1))⟩
      split
      · exact (h.1.trans a1).trans (child_failed_le _ _)
      · exact h.1.trans a1)
    (fun de _ m1 n1 r1 m2 _ h _ _ hm => by
      obtain ⟨a1, _⟩ := hmi _ _ _ _ _ _ hm
      refine ⟨?_, h.2⟩
      split
      · exact (h.1.trans a1).trans (child_failed_le _ _)
      · exact h.1.trans a1)
    (fun _ _ _ _ _ h _ _ => h)
    entries m node r m' node' ⟨Machine.Le.rfl_le _, Node.Same.same_refl node⟩ h
  exact ⟨h1, h2, h3.imp id (fun h => h.1)⟩

theorem remaining_children_loop_ok {ap : ApplyFn} (hap : ApplyOk ap)
    {path wpath : String} {now_tmp : Bool} {idxs : List Nat}
    {m : Machine} {node : Node} {r : Int} {m' : Machine} {node' : Node}
    (h : remaining_children_loop ap path wpath now_tmp idxs m node = some (r, m', node')) :
    m.Le m' ∧ node.Same node' ∧ (r = 0 ∨ r = -1) := by
  obtain ⟨_, ⟨h1, h2⟩, _, h3⟩ := remaining_children_loop_inv
    (fun _ m1 n1 => m.Le m1 ∧ node.Same n1)
    (fun _ _ _ _ h _ => h)
    (fun _ _ _ _ _ h _ _ => h)
    (fun i _ m1 n1 c r1 m2 c1 h hc _ _ ha => by
      obtain ⟨a1, a2, _⟩ := hap _ _ _ _ _ _ _ _ ha
      refine ⟨?_, h.2.same_trans (Node.same_set_child hc a2.1)⟩
      split
      · exact (h.1.trans a1).trans (child_failed_le _ _)
      · exact h.1.trans a1)
    idxs m node r m' node' ⟨Machine.Le.rfl_le _, Node.Same.same_refl node⟩ h
  exact ⟨h1, h2, h3.imp id (fun h => h.1)⟩

theorem mm_process_dir_children_ok {w : World} {ap : ApplyFn} {mi : MirrorFn}
    (hap : ApplyOk ap) (hmi : MirrorOk mi) {path wpath : String} {node : Node}
    {now_tmp : Bool} {m : Machine} {r : Int} {m' : Machine} {node' : Node}
    (h : mm_process_dir_children w ap mi path wpath node now_tmp m = some (r, m', node')) :
    m.Le m' ∧ node.Same node' ∧ (r = 0 ∨ r = -1) := by
  rcases mm_process_dir_children_cases h with ⟨_, rfl, rfl, rfl⟩ | ⟨_, _, hc⟩
  · exact ⟨Machine.Le.rfl_le _, Node.Same.same_refl _, Or.inl rfl⟩
  rcases hc with ⟨_, rfl, rfl, rfl⟩ | ⟨entries, _, hl⟩
  · refine ⟨Machine.Le.rfl_le _, Node.Same.same_refl _, ?_⟩
    cases now_tmp
    · exact Or.inl rfl
    · exact Or.inr rfl
  · exact dir_children_loop_ok hap hmi hl

theorem dir_passes_ok {w : World} {ap : ApplyFn} {mi : MirrorFn}
    (hap : ApplyOk ap) (hmi : MirrorOk mi) {path wpath : String} {node : Node}
    {create_tmp now_tmp : Bool} {m : Machine} {r : Int} {m' : Machine} {node' : Node}
    (h : dir_passes w ap mi path wpath node create_tmp now_tmp m = some (r, m', node')) :
    m.Le m' ∧ node.Same node' ∧ (r = 0 ∨ r = -1) := by
  obtain ⟨r1, m1, n1, h1, hc⟩ := dir_passes_cases h
  obtain ⟨a1, a2, _⟩ := mm_process_dir_children_ok hap hmi h1
  rcases hc with ⟨_, rfl, rfl, rfl⟩ | ⟨_, r2, m2, n2, h2, hc⟩
  · exact ⟨a1, a2, Or.inr rfl⟩
  obtain ⟨b1, b2, _⟩ := remaining_children_loop_ok hap h2
  rcases hc with ⟨_, rfl, rfl, rfl⟩ | ⟨_, rfl, rfl, rfl⟩
  · exact ⟨a1.trans b1, a2.same_trans b2, Or.inr rfl⟩
  · exact ⟨(a1.trans b1).trans (dir_finish_le w _ _ _ _ _), a2.same_trans b2,
      dir_finish_rc w _ _ _ _ _⟩

theorem dir_body_ok {w : World} {ap : ApplyFn} {mi : MirrorFn}
    (hap : ApplyOk ap) (hmi : MirrorOk mi) {path wpath : String} {node : Node}
    {create_tmp now_tmp : Bool} {m : Machine} {r : Int} {m' : Machine} {node' : Node}
    (h : dir_body w ap mi path wpath node create_tmp now_tmp m = some (r, m', node')) :
    m.Le m' ∧ node.Same node' ∧ (r = 0 ∨ r = -1) := by
  rcases dir_body_cases h with ⟨_, rfl, rfl, rfl⟩ | ⟨_, hp⟩
  · exact ⟨dir_enter_le w _ _ _ _ _ _, Node.Same.same_refl _, Or.inr rfl⟩
  · obtain ⟨a1, a2, a3⟩ := dir_passes_ok hap hmi hp
    exact ⟨(dir_enter_le w _ _ _ _ _ _).trans a1, a2, a3⟩

theorem mm_apply_node_recursive_ok (w : World) (fuel : Nat) :
    ApplyOk (fun b wb c h m => mm_apply_node_recursive w fuel b wb c h m) := by
  induction fuel with
  | zero => intro b wb c h m r m' c' hh; simp [mm_apply_node_recursive] at hh
  | succ fuel ih =>
    intro b wb c h m r m' c' hh
    rcases mm_apply_node_recursive_cases hh with ⟨_, rfl, rfl, rfl⟩ | ⟨path, wpath, _, _, hc⟩
    · exact ⟨Machine.Le.rfl_le _, Node.Same.same_refl _, Or.inr rfl⟩
    rcases hc with ⟨_, rfl, rfl, rfl⟩ | ⟨_, rfl, rfl, rfl⟩ | ⟨_, rfl, rfl, rfl⟩ | ⟨_, hd⟩
    · exact ⟨mm_apply_regular_file_le w _ _ _ _ _, Node.Same.same_refl _,
        mm_apply_regular_file_rc w _ _ _ _ _⟩
    · exact ⟨mm_apply_symlink_le w _ _ _ _, Node.Same.same_refl _, mm_apply_symlink_rc w _ _ _ _⟩
    · exact ⟨Machine.le_inc_whiteout _, Node.Same.same_refl _, Or.inl rfl⟩
    · obtain ⟨a1, a2, a3⟩ := dir_body_ok ih (mm_mirror_entry_ok w fuel) hd
      exact ⟨a1, (decide_create_tmp_same w _ _ _ _).same_trans a2, a3⟩

/-! ## Enough fuel gives a result -/

theorem mirror_children_total {mirror : String → Machine → Option (Int × Machine)}
    (entries : List String)
    (hm : ∀ de ∈ entries, ¬(de = "." ∨ de = "..") → ∀ m, ∃ res, mirror de m = some res)
    (m : Machine) : ∃ res, mirror_children mirror entries m = some res := by
  induction entries generalizing m with
  | nil => exact ⟨_, rfl⟩
  | cons de rest ih =>
    have ih' := ih (fun d hd => hm d (List.mem_cons_of_mem _ hd))
    unfold mirror_children
    split
    · exact ih' m
    · next hdot =>
      obtain ⟨⟨r, m1⟩, h1⟩ := hm de (List.mem_cons_self _ _) hdot m
      rw [h1]
      dsimp only
      split
      · exact ⟨_, rfl⟩
      · exact ih' m1

theorem mm_mirror_entry_total (w : World) (depth : String → Nat)
    (hdepth : ∀ t src l e c, w.opendir t src = some l → e ∈ l → ¬(e = "." ∨ e = "..") →
      w.path_join src e = some c → depth c < depth src) :
    ∀ fuel path work name m, 0 < fuel →
      (∀ src, w.path_join path name = some src → depth src + 1 < fuel) →
      ∃ res, mm_mirror_entry w fuel path work name m = some res := by
  intro fuel
  induction fuel with
  | zero => intro _ _ _ _ h; exact absurd h (Nat.lt_irrefl 0)
  | succ fuel ih =>
    intro path work name m _ hf
    simp only [mm_mirror_entry]
    split
    · next src dst hsrc _ =>
      have hs := hf src hsrc
      repeat' (first | exact ⟨_, rfl⟩ | split)
      have ho := (by assumption : w.opendir _ src = some _)
      refine mirror_children_total _ (fun de hde hdot m1 => ?_) _
      refine ih src dst de m1 (by omega) (fun src' hsrc' => ?_)
      have := hdepth _ _ _ _ _ ho hde hdot hsrc'
      omega
    · exact ⟨_, rfl⟩

theorem Node.height_le_heightList {l : List Node} {i : Nat} {c : Node} (h : l[i]? = some c) :
    c.height ≤ Node.heightList l := by
  induction l generalizing i with
  | nil => simp at h
  | cons d ds ih =>
    cases i with
    | zero =>
      simp only [List.getElem?_cons_zero, Option.some.injEq] at h
      subst h
      simp only [Node.heightList]
      exact le_max_left _ _
    | succ j =>
      simp only [List.getElem?_cons_succ] at h
      simp only [Node.heightList]
      exact le_trans (ih h) (le_max_right _ _)

theorem Node.child_height_lt {n : Node} {i : Nat} {c : Node} (h : n.children[i]? = some c) :
    c.height < n.height := by
  have := Node.height_le_heightList h
  rw [Node.height_eq n]
  omega

theorem dir_children_loop_total {ap : ApplyFn} {mi : MirrorFn} (hok : ApplyOk ap)
    {path wpath : String} {now_tmp : Bool} (H : Nat)
    (hap : ∀ c m, c.height < H → ∃ res, ap path wpath c now_tmp m = some res)
    (hmi : ∀ de m, ∃ res, mi path wpath de m = some res) :
    ∀ entries m node, node.height ≤ H →
      ∃ res, dir_children_loop ap mi path wpath now_tmp entries m node = some res := by
  intro entries
  induction entries with
  | nil => intro m node _; exact ⟨_, rfl⟩
  | cons de rest ih =>
    intro m node hH
    unfold dir_children_loop
    split
    · exact ih m node hH
    · split
      · next i c hf =>
        have hi := (node_child_find_some hf).1
        split
        · refine ih m _ ?_
          rw [(Node.same_set_child hi (Node.sim_set_done c true)).1.2.2.2.2.2.2.1]
          exact hH
        · have hc : (c.set_done true).height < H := by
            rw [Node.height_set_done]
            exact lt_of_lt_of_le (Node.child_height_lt hi) hH
          obtain ⟨⟨r, m1, c1⟩, h1⟩ := hap (c.set_done true) m hc
          rw [h1]
          dsimp only
          have hs := (hok _ _ _ _ _ _ _ _ h1).2.1
          have hn : (node.set_child i c1).height ≤ H := by
            rw [(Node.same_set_child hi ((Node.sim_set_done c true).sim_trans hs.1)).1.2.2.2.2.2.2.1]
            exact hH
          repeat' (first | exact ⟨_, rfl⟩ | exact ih _ _ hn | split)
      · split
        · obtain ⟨⟨r, m1⟩, h1⟩ := hmi de m
          rw [h1]
          dsimp only
          repeat' (first | exact ⟨_, rfl⟩ | exact ih _ _ hH | split)
        · exact ih m node hH

theorem remaining_children_loop_total {ap : ApplyFn} (hok : ApplyOk ap)
    {path wpath : String} {now_tmp : Bool} (H : Nat)
    (hap : ∀ c m, c.height < H → ∃ res, ap path wpath c now_tmp m = some res) :
    ∀ idxs m node, node.height ≤ H →
      ∃ res, remaining_children_loop ap path wpath now_tmp idxs m node = some res := by
  intro idxs
  induction idxs with
  | nil => intro m node _; exact ⟨_, rfl⟩
  | cons i rest ih =>
    intro m node hH
    unfold remaining_children_loop
    split
    · exact ih m node hH
    · next c hi =>
      split
      · exact ih m node hH
      · have hc : c.height < H := lt_of_lt_of_le (Node.child_height_lt hi) hH
        obtain ⟨⟨r, m1, c1⟩, h1⟩ := hap c m hc
        rw [h1]
        dsimp only
        have hs := (hok _ _ _ _ _ _ _ _ h1).2.1
        have hn : (node.set_child i c1).height ≤ H := by
          rw [(Node.same_set_child hi hs.1).1.2.2.2.2.2.2.1]
          exact hH
        repeat' (first | exact ⟨_, rfl⟩ | exact ih _ _ hn | split)

theorem dir_body_total {w : World} {ap : ApplyFn} {mi : MirrorFn} (hok : ApplyOk ap)
    (hmok : MirrorOk mi) {path wpath : String} {create_tmp now_tmp : Bool} (H : Nat)
    (hap : ∀ c m, c.height < H → ∃ res, ap path wpath c now_tmp m = some res)
    (hmi : ∀ de m, ∃ res, mi path wpath de m = some res)
    (node : Node) (m : Machine) (hH : node.height ≤ H) :
    ∃ res, dir_body w ap mi path wpath node create_tmp now_tmp m = some res := by
  unfold dir_body
  split
  · exact ⟨_, rfl⟩
  · unfold dir_passes
    have h1 : ∃ res, mm_process_dir_children w ap mi path wpath node now_tmp
        (dir_enter w path wpath node create_tmp now_tmp m).2 = some res := by
      unfold mm_process_dir_children
      repeat' (first | exact ⟨_, rfl⟩ | split)
      exact dir_children_loop_total hok H hap hmi _ _ _ hH
    obtain ⟨⟨r1, m1, n1⟩, h1⟩ := h1
    rw [h1]
    dsimp only
    split
    · exact ⟨_, rfl⟩
    · have hn1 : n1.height ≤ H := by
        rw [(mm_process_dir_children_ok hok hmok h1).2.1.1.2.2.2.2.2.2.1]
        exact hH
      obtain ⟨⟨r2, m2, n2⟩, h2⟩ :=
        remaining_children_loop_total hok H hap (List.range n1.child_count) m1 n1 hn1
      unfold mm_process_remaining_children
      rw [h2]
      dsimp only
      split <;> exact ⟨_, rfl⟩

theorem mm_apply_node_recursive_total (w : World) (depth : String → Nat) (bound : Nat)
    (hbound : ∀ p, depth p ≤ bound)
    (hdepth : ∀ t src l e c, w.opendir t src = some l → e ∈ l → ¬(e = "." ∨ e = "..") →
      w.path_join src e = some c → depth c < depth src) :
    ∀ fuel base wbase node has_tmpfs m, Node.height node + bound + 1 < fuel →
      ∃ res, mm_apply_node_recursive w fuel base wbase node has_tmpfs m = some res := by
  intro fuel
  induction fuel with
  | zero => intro _ _ _ _ _ h; exact absurd h (Nat.not_lt_zero _)
  | succ fuel ih =>
    intro base wbase node has_tmpfs m hf
    simp only [mm_apply_node_recursive]
    split
    · next path wpath hpath _ =>
      split
      · exact ⟨_, rfl⟩
      · exact ⟨_, rfl⟩
      · exact ⟨_, rfl⟩
      · have hpos : 1 ≤ node.height := by rw [Node.height_eq]; omega
        refine dir_body_total (mm_apply_node_recursive_ok w fuel) (mm_mirror_entry_ok w fuel)
          node.height ?_ ?_ _ _ ?_
        · intro c m1 hc
          exact ih path wpath c _ m1 (by omega)
        · intro de m1
          refine mm_mirror_entry_total w depth hdepth fuel path wpath de m1 (by omega)
            (fun src _ => ?_)
          have := hbound src
          omega
        · rw [(decide_create_tmp_same w _ _ _ _).1.2.2.2.2.2.2.1]
    · exact ⟨_, rfl⟩

/-- Enough fuel gives a result on a live tree of bounded depth. -/
theorem mm_apply_node_recursive_returns (w : World) (bound : Nat) (hd : bounded_depth w bound)
    (fuel : Nat) (base wbase : String) (node : Node) (has_tmpfs : Bool) (m : Machine)
    (hfuel : node.height + bound + 1 < fuel) :
    ∃ res, mm_apply_node_recursive w fuel base wbase node has_tmpfs m = some res := by
  obtain ⟨depth, hbound, hdepth⟩ := hd
  exact mm_apply_node_recursive_total w depth bound hbound hdepth fuel base wbase node
    has_tmpfs m hfuel

/-! ## The tmpfs-need oracle -/

theorem child_need_iff (w : World) (tr : List Op) (c : Node) (rp : String) :
    child_need w tr c rp = true ↔ requires_divergence w tr c rp := by
  unfold child_need requires_divergence
  cases hty : c.type <;> cases hl : w.lstat tr rp <;> simp

theorem check_children_fst (w : World) (tr : List Op) (hmp : Bool) (path : String)
    (cs : List Node) :
    (check_children w tr hmp path cs).1 = true ↔
      hmp = true ∧ ∃ c ∈ cs, ∃ rp, w.path_join path c.name = some rp ∧
        child_need w tr c rp = true := by
  induction cs with
  | nil => simp [check_children]
  | cons c cs ih =>
    unfold check_children
    cases hj : w.path_join path c.name with
    | none => simp [ih, hj]
    | some rp =>
      by_cases hn : child_need w tr c rp = true
      · cases hmp <;> simp [hn, ih, hj]
      · simp [hn, ih, hj]

/-- C1: `mm_check_need_tmpfs(node, path)` returns true if and only if the node
has a `module_path` and some child requires type divergence at its live path,
the join of `path` with its name (the existential carries the successful join,
so the equivalence holds whenever every join succeeds).
In particular (second part) with a `module_path`, a REGULAR child whose live
counterpart is a directory makes it return true, and (third part) a node whose
only child is a WHITEOUT with no live counterpart makes it return false. -/
theorem mm_check_need_tmpfs_iff_divergence (w : World) (tr : List Op) (node : Node)
    (path : String) :
    ((mm_check_need_tmpfs w tr node path).1 = true ↔
      node.module_path.isSome = true ∧
        ∃ c ∈ node.children, ∃ rp, w.path_join path c.name = some rp ∧
          requires_divergence w tr c rp) ∧
    (∀ c ∈ node.children, ∀ rp st, c.type = NFT_REGULAR →
      w.path_join path c.name = some rp → w.lstat tr rp = some st →
      w.node_type_from_stat st = NFT_DIRECTORY → node.module_path.isSome = true →
      (mm_check_need_tmpfs w tr node path).1 = true) ∧
    (∀ c rp, node.children = [c] → c.type = NFT_WHITEOUT →
      w.path_join path c.name = some rp → w.path_exists tr rp = false →
      (mm_check_need_tmpfs w tr node path).1 = false) := by
  have key : (mm_check_need_tmpfs w tr node path).1 = true ↔
      node.module_path.isSome = true ∧
        ∃ c ∈ node.children, ∃ rp, w.path_join path c.name = some rp ∧
          requires_divergence w tr c rp := by
    unfold mm_check_need_tmpfs
    simp only [check_children_fst, child_need_iff]
  refine ⟨key, ?_, ?_⟩
  · intro c hc rp st hty hj hl hrt hmp
    rw [key]
    refine ⟨hmp, c, hc, rp, hj, Or.inr (Or.inr ⟨Or.inl hty, Or.inr ⟨st, hl, Or.inl ?_⟩⟩)⟩
    rw [hrt, hty]; decide
  · intro c rp hcs hty hj hpe
    cases hres : (mm_check_need_tmpfs w tr node path).1 with
    | false => rfl
    | true =>
      exfalso
      obtain ⟨_, c', hc', rp', hj', hdiv⟩ := key.mp hres
      rw [hcs, List.mem_singleton] at hc'
      subst hc'
      rw [hj] at hj'
      cases hj'
      rcases hdiv with h | ⟨_, h⟩ | ⟨h | h, _⟩
      · rw [hty] at h; cases h
      · rw [hpe] at h; cases h
      · rw [hty] at h; cases h
      · rw [hty] at h; cases h

/-! ## The driver -/

/-- C8: `magic_mount` on a non-null context.  If the builder returns no tree it
issues no operation at all and returns 0.  Otherwise (1) it returns, given
enough fuel for the built tree on a live tree of bounded depth; and (2)
whenever it returns, it returns 0 if and only if the workdir path is built, its
`mkdir_p` and the tmpfs mount succeed, and the top-level apply on the root
returns 0; and when the staging mount succeeded, the return value is exactly
the apply's result and the trace is the apply's trace followed by the detach
unmount and the `rmdir` of the workdir, whatever the apply returned. -/
theorem magic_mount_returns (w : World) (fuel : Nat) (ctx : MagicMount) (tmp_root : String)
    (tr : List Op) :
    (w.build_mount_tree ctx = none →
      magic_mount w fuel (some ctx) tmp_root tr = some (0, some ctx, tr)) ∧
    (∀ root, w.build_mount_tree ctx = some root →
      (∀ bound, bounded_depth w bound → root.height + bound + 1 < fuel →
        ∃ rc ctx' tr', magic_mount w fuel (some ctx) tmp_root tr = some (rc, some ctx', tr')) ∧
      (∀ rc ctx' tr', magic_mount w fuel (some ctx) tmp_root tr = some (rc, some ctx', tr') →
        (rc = 0 ↔ ∃ tmp_dir, w.path_join tmp_root "workdir" = some tmp_dir ∧
          w.sys_errno tr (Op.mkdir_p tmp_dir) = 0 ∧
          w.sys_errno (tr ++ [Op.mkdir_p tmp_dir])
            (Op.mount_tmpfs ctx.mount_source tmp_dir) = 0 ∧
          ∃ m1 root1, mm_apply_node_recursive w fuel "/" tmp_dir root false
            ⟨ctx, tr ++ [Op.mkdir_p tmp_dir] ++ [Op.mount_tmpfs ctx.mount_source tmp_dir] ++
              [Op.mount_private tmp_dir]⟩ = some (0, m1, root1)) ∧
        (∀ tmp_dir, w.path_join tmp_root "workdir" = some tmp_dir →
          w.sys_errno tr (Op.mkdir_p tmp_dir) = 0 →
          w.sys_errno (tr ++ [Op.mkdir_p tmp_dir])
            (Op.mount_tmpfs ctx.mount_source tmp_dir) = 0 →
          ∃ r m1 root1, mm_apply_node_recursive w fuel "/" tmp_dir root false
            ⟨ctx, tr ++ [Op.mkdir_p tmp_dir] ++ [Op.mount_tmpfs ctx.mount_source tmp_dir] ++
              [Op.mount_private tmp_dir]⟩ = some (r, m1, root1) ∧
            rc = r ∧
            tr' = m1.trace ++ [Op.umount2_detach tmp_dir] ++ [Op.rmdir tmp_dir] ∧
            ctx' = (if r ≠ 0 then m1.inc_fail else m1).ctx))) := by
  unfold magic_mount
  dsimp only
  cases hb : w.build_mount_tree ctx with
  | none =>
    refine ⟨fun _ => rfl, ?_⟩
    intro root h
    cases h
  | some root =>
    refine ⟨(fun h => by cases h), ?_⟩
    intro root' hroot
    cases hroot
    dsimp only
    cases hj : w.path_join tmp_root "workdir" with
    | none =>
      refine ⟨fun _ _ _ => ⟨-1, ctx, tr, rfl⟩, ?_⟩
      intro rc ctx' tr' h
      simp only [Option.some.injEq, Prod.mk.injEq] at h
      obtain ⟨rfl, _, _⟩ := h
      refine ⟨⟨(fun h => by cases h), ?_⟩, fun tmp_dir h => by cases h⟩
      rintro ⟨_, h, _⟩
      cases h
    | some tmp_dir =>
      dsimp only
      by_cases hmk : w.sys_errno tr (Op.mkdir_p tmp_dir) ≠ 0
      · rw [if_pos hmk]
        refine ⟨fun _ _ _ => ⟨-1, ctx, _, rfl⟩, ?_⟩
        intro rc ctx' tr' h
        simp only [Option.some.injEq, Prod.mk.injEq] at h
        obtain ⟨rfl, _, _⟩ := h
        refine ⟨⟨(fun h => by cases h), ?_⟩, ?_⟩
        · rintro ⟨td, h, h1, _⟩
          cases h
          exact absurd h1 hmk
        · intro td h h1
          cases h
          exact absurd h1 hmk
      · rw [if_neg hmk]
        by_cases hmt : w.sys_errno (tr ++ [Op.mkdir_p tmp_dir])
            (Op.mount_tmpfs ctx.mount_source tmp_dir) ≠ 0
        · rw [if_pos hmt]
          refine ⟨fun _ _ _ => ⟨-1, ctx, _, rfl⟩, ?_⟩
          intro rc ctx' tr' h
          simp only [Option.some.injEq, Prod.mk.injEq] at h
          obtain ⟨rfl, _, _⟩ := h
          refine ⟨⟨(fun h => by cases h), ?_⟩, ?_⟩
          · rintro ⟨td, h, _, h2, _⟩
            cases h
            exact absurd h2 hmt
          · intro td h _ h2
            cases h
            exact absurd h2 hmt
        · rw [if_neg hmt]
          constructor
          · intro bound hd hfuel
            obtain ⟨⟨r, m1, root1⟩, ha⟩ := mm_apply_node_recursive_returns w bound hd fuel "/"
              tmp_dir root false ⟨ctx, tr ++ [Op.mkdir_p tmp_dir] ++
                [Op.mount_tmpfs ctx.mount_source tmp_dir] ++ [Op.mount_private tmp_dir]⟩ hfuel
            rw [ha]
            exact ⟨r, _, _, rfl⟩
          · intro rc ctx' tr' h
            cases ha : mm_apply_node_recursive w fuel "/" tmp_dir root false
                ⟨ctx, tr ++ [Op.mkdir_p tmp_dir] ++
                  [Op.mount_tmpfs ctx.mount_source tmp_dir] ++ [Op.mount_private tmp_dir]⟩ with
            | none =>
              rw [ha] at h
              cases h
            | some res =>
              obtain ⟨r, m1, root1⟩ := res
              rw [ha] at h
              simp only [Option.some.injEq, Prod.mk.injEq] at h
              obtain ⟨rfl, hc, ht⟩ := h
              refine ⟨⟨fun h0 => ?_, ?_⟩, ?_⟩
              · subst h0
                exact ⟨tmp_dir, rfl, not_not.mp hmk, not_not.mp hmt, m1, root1, ha⟩
              · rintro ⟨td, h, _, _, m1', root1', ha'⟩
                cases h
                rw [ha] at ha'
                simp only [Option.some.injEq, Prod.mk.injEq] at ha'
                exact ha'.1
              · intro td h _ _
                cases h
                refine ⟨r, m1, root1, ha, rfl, ?_, hc.symm⟩
                rw [← ht]
                split <;> rfl

/-! ## A failure inside an overlay aborts the directory -/

theorem child_failed_eq (m : Machine) (c : Option Node) (dir : Node) :
    child_failed m (failed_module c dir) = after_failure m (attributed_module c dir) := by
  have key : ∀ mn : Option String, child_failed m mn = after_failure m mn := by
    intro mn
    cases mn <;> simp [child_failed, after_failure, Machine.inc_fail, Machine.emit]
  have hmn : failed_module c dir = attributed_module c dir := by
    unfold failed_module attributed_module
    cases c with
    | none => cases h : dir.module_name <;> simp
    | some c => cases h : c.module_name <;> simp [h]
  rw [hmn, key]

theorem dir_children_loop_append (ap : ApplyFn) (mi : MirrorFn) (path wpath : String)
    (now_tmp : Bool) (pre post : List String) (m : Machine) (node : Node) :
    dir_children_loop ap mi path wpath now_tmp (pre ++ post) m node =
      match dir_children_loop ap mi path wpath now_tmp pre m node with
      | none => none
      | some (r, m1, n1) =>
        if r ≠ 0 then some (r, m1, n1)
        else dir_children_loop ap mi path wpath now_tmp post m1 n1 := by
  induction pre generalizing m node with
  | nil => simp [dir_children_loop]
  | cons de rest ih =>
    simp only [List.cons_append, dir_children_loop]
    split
    · exact ih m node
    · split
      · split
        · exact ih _ _
        · split
          · rfl
          · split
            · split
              · simp
              · exact ih _ _
            · exact ih _ _
      · split
        · split
          · rfl
          · split
            · simp
            · exact ih _ _
        · exact ih _ _

theorem remaining_children_loop_append (ap : ApplyFn) (path wpath : String)
    (now_tmp : Bool) (pre post : List Nat) (m : Machine) (node : Node) :
    remaining_children_loop ap path wpath now_tmp (pre ++ post) m node =
      match remaining_children_loop ap path wpath now_tmp pre m node with
      | none => none
      | some (r, m1, n1) =>
        if r ≠ 0 then some (r, m1, n1)
        else remaining_children_loop ap path wpath now_tmp post m1 n1 := by
  induction pre generalizing m node with
  | nil => simp [remaining_children_loop]
  | cons i rest ih =>
    simp only [List.cons_append, remaining_children_loop]
    split
    · exact ih m node
    · split
      · exact ih _ _
      · split
        · rfl
        · split
          · split
            · simp
            · exact ih _ _
          · exact ih _ _

theorem mm_apply_node_recursive_dir {w : World} {fuel : Nat} {base wbase path wpath : String}
    {node : Node} {has_tmpfs : Bool} {m : Machine} (hty : node.type = NFT_DIRECTORY)
    (hp : w.path_join base node.name = some path)
    (hwp : w.path_join wbase node.name = some wpath) :
    mm_apply_node_recursive w (fuel + 1) base wbase node has_tmpfs m =
      dir_body w (fun b wb c h m1 => mm_apply_node_recursive w fuel b wb c h m1)
        (fun p wk n m1 => mm_mirror_entry w fuel p wk n m1) path wpath
        (decide_create_tmp w m.trace node path has_tmpfs).2
        (decide_create_tmp w m.trace node path has_tmpfs).1
        (has_tmpfs || (decide_create_tmp w m.trace node path has_tmpfs).1) m := by
  simp only [mm_apply_node_recursive, hp, hwp, hty]

theorem mm_process_dir_children_loop {w : World} {ap : ApplyFn} {mi : MirrorFn}
    {path wpath : String} {node : Node} {now_tmp : Bool} {m : Machine} {entries : List String}
    (hpe : w.path_exists m.trace path = true) (hrep : node.replace = false)
    (hod : w.opendir m.trace path = some entries) :
    mm_process_dir_children w ap mi path wpath node now_tmp m =
      dir_children_loop ap mi path wpath now_tmp entries m node := by
  unfold mm_process_dir_children
  rw [hpe, hrep, hod]
  rfl

theorem attributed_module_same (c : Option Node) {a b : Node} (h : a.Same b) :
    attributed_module c b = attributed_module c a := by
  unfold attributed_module
  rw [h.1.2.2.2.1]

/-- C5 (as amended): a DIRECTORY applied with an overlay active (`now_tmp`),
once its staging directory is set up (`dir_enter` succeeded, leaving machine
`m0`).  First pass: if the entries before `de` were processed without failure,
leaving machine `ma`, and the child found for `de` (not skipped) fails, or `de`
names no child and its mirroring fails, leaving machine `mb`, then the
directory's apply returns -1 and its final machine is `mb` with `nodes_fail`
incremented and `module_mark_failed` appended for the child's `module_name` if
it has one, otherwise for the directory's if it has one, otherwise not called.
Second pass: the same for a remaining child.  As the final trace ends there, no
further child is processed and neither the read-only remount nor the `MS_MOVE`
of the directory is issued. -/
theorem overlay_failure_aborts_directory (w : World) (fuel : Nat)
    (base wbase path wpath : String) (node node1 : Node) (has_tmpfs create_tmp : Bool)
    (m m0 : Machine) (hty : node.type = NFT_DIRECTORY)
    (hp : w.path_join base node.name = some path)
    (hwp : w.path_join wbase node.name = some wpath)
    (hct : decide_create_tmp w m.trace node path has_tmpfs = (create_tmp, node1))
    (hnow : (has_tmpfs || create_tmp) = true)
    (henter : dir_enter w path wpath node1 create_tmp true m = (0, m0)) :
    (∀ pre de post ma na, w.path_exists m0.trace path = true → node1.replace = false →
      w.opendir m0.trace path = some (pre ++ de :: post) → ¬(de = "." ∨ de = "..") →
      dir_children_loop (fun b wb c h m1 => mm_apply_node_recursive w fuel b wb c h m1)
        (fun p wk n m1 => mm_mirror_entry w fuel p wk n m1) path wpath true pre m0 node1 =
        some (0, ma, na) →
      (∀ i c r mb cb, node_child_find na de = some (i, c) → c.skip = false →
        mm_apply_node_recursive w fuel path wpath (c.set_done true) true ma =
          some (r, mb, cb) → r ≠ 0 →
        mm_apply_node_recursive w (fuel + 1) base wbase node has_tmpfs m =
          some (-1, after_failure mb (attributed_module (some c) node),
            na.set_child i cb)) ∧
      (∀ r mb, node_child_find na de = none →
        mm_mirror_entry w fuel path wpath de ma = some (r, mb) → r ≠ 0 →
        mm_apply_node_recursive w (fuel + 1) base wbase node has_tmpfs m =
          some (-1, after_failure mb (attributed_module none node), na))) ∧
    (∀ m1 n1 pre i post ma na c r mb cb,
      mm_process_dir_children w
        (fun b wb c h m1 => mm_apply_node_recursive w fuel b wb c h m1)
        (fun p wk n m1 => mm_mirror_entry w fuel p wk n m1) path wpath node1 true m0 =
        some (0, m1, n1) →
      List.range n1.child_count = pre ++ i :: post →
      remaining_children_loop (fun b wb c h m1 => mm_apply_node_recursive w fuel b wb c h m1)
        path wpath true pre m1 n1 = some (0, ma, na) →
      na.children[i]? = some c → c.skip = false → c.done = false →
      mm_apply_node_recursive w fuel path wpath c true ma = some (r, mb, cb) → r ≠ 0 →
      mm_apply_node_recursive w (fuel + 1) base wbase node has_tmpfs m =
        some (-1, after_failure mb (attributed_module (some c) node), na.set_child i cb)) := by
  have hok := mm_apply_node_recursive_ok w fuel
  have hmok := mm_mirror_entry_ok w fuel
  have hsame1 : node.Same node1 := by
    have := decide_create_tmp_same w m.trace node path has_tmpfs
    rw [hct] at this
    exact this
  have hbody : mm_apply_node_recursive w (fuel + 1) base wbase node has_tmpfs m =
      dir_passes w (fun b wb c h m1 => mm_apply_node_recursive w fuel b wb c h m1)
        (fun p wk n m1 => mm_mirror_entry w fuel p wk n m1) path wpath node1 create_tmp true
        m0 := by
    rw [mm_apply_node_recursive_dir hty hp hwp, hct]
    dsimp only
    rw [hnow]
    unfold dir_body
    rw [henter]
    simp
  constructor
  · intro pre de post ma na hpe hrep hod hdot hpre
    have hsame : node.Same na := hsame1.same_trans (dir_children_loop_ok hok hmok hpre).2.1
    have hfirst : ∀ res, dir_children_loop
        (fun b wb c h m1 => mm_apply_node_recursive w fuel b wb c h m1)
        (fun p wk n m1 => mm_mirror_entry w fuel p wk n m1) path wpath true (de :: post) ma na =
          some (-1, res) →
        mm_apply_node_recursive w (fuel + 1) base wbase node has_tmpfs m = some (-1, res) := by
      intro res hres
      rw [hbody]
      unfold dir_passes
      rw [mm_process_dir_children_loop hpe hrep hod, dir_children_loop_append, hpre]
      simp [hres]
    constructor
    · intro i c r mb cb hf hs ha hr
      apply hfirst
      unfold dir_children_loop
      rw [if_neg hdot, hf]
      dsimp only
      rw [hs, ha]
      simp only [Bool.false_eq_true, if_false, if_pos hr, if_true]
      rw [child_failed_eq, attributed_module_same _ hsame]
    · intro r mb hf hm hr
      apply hfirst
      unfold dir_children_loop
      rw [if_neg hdot, hf]
      dsimp only
      rw [hm]
      simp only [if_true, if_pos hr]
      rw [child_failed_eq, attributed_module_same _ hsame]
  · intro m1 n1 pre i post ma na c r mb cb h1 hrange hpre hc hs hd ha hr
    have hsame : node.Same na :=
      (hsame1.same_trans (mm_process_dir_children_ok hok hmok h1).2.1).same_trans
        (remaining_children_loop_ok hok hpre).2.1
    rw [hbody]
    unfold dir_passes
    rw [h1]
    dsimp only
    unfold mm_process_remaining_children
    rw [hrange, remaining_children_loop_append, hpre]
    dsimp only
    unfold remaining_children_loop
    rw [hc]
    dsimp only
    rw [hs, hd, ha]
    simp only [Bool.or_self, Bool.false_eq_true, if_false, if_pos hr, if_true]
    rw [child_failed_eq, attributed_module_same _ hsame]
    simp

/-! ## What a staged subtree issues -/

namespace Machine

theorem Ext.rfl_ext (P : Op → Prop) (m : Machine) : m.Ext P m :=
  ⟨[], by simp, fun _ h => by cases h⟩

theorem Ext.ext_trans {P : Op → Prop} {a b c : Machine} (h1 : a.Ext P b) (h2 : b.Ext P c) :
    a.Ext P c := by
  obtain ⟨l1, e1, p1⟩ := h1
  obtain ⟨l2, e2, p2⟩ := h2
  refine ⟨l1 ++ l2, by rw [e2, e1, List.append_assoc], ?_⟩
  intro op hop
  rcases List.mem_append.mp hop with h | h
  · exact p1 op h
  · exact p2 op h

theorem Ext.ext_emit {P : Op → Prop} {a b : Machine} (h : a.Ext P b) {op : Op} (hp : P op) :
    a.Ext P (b.emit op) := by
  obtain ⟨l, e, p⟩ := h
  refine ⟨l ++ [op], by simp [emit, e], ?_⟩
  intro o ho
  rcases List.mem_append.mp ho with h | h
  · exact p o h
  · rw [List.mem_singleton] at h
    rw [h]
    exact hp

theorem Ext.ext_inc_mounted {P : Op → Prop} {a b : Machine} (h : a.Ext P b) :
    a.Ext P b.inc_mounted := h

theorem Ext.ext_inc_fail {P : Op → Prop} {a b : Machine} (h : a.Ext P b) :
    a.Ext P b.inc_fail := h

theorem Ext.ext_inc_whiteout {P : Op → Prop} {a b : Machine} (h : a.Ext P b) :
    a.Ext P b.inc_whiteout := h

theorem Ext.ext_mono {P Q : Op → Prop} {a b : Machine} (h : a.Ext P b)
    (hpq : ∀ op, P op → Q op) : a.Ext Q b := by
  obtain ⟨l, e, p⟩ := h
  exact ⟨l, e, fun op hop => hpq op (p op hop)⟩

end Machine

theorem child_failed_ext {P : Op → Prop} (hP : ∀ n, P (Op.module_mark_failed n))
    {a b : Machine} (h : a.Ext P b) (mn : Option String) : a.Ext P (child_failed b mn) := by
  unfold child_failed
  cases mn with
  | none => exact h
  | some n => exact h.ext_emit (hP n)

theorem mm_clone_symlink_staged (w : World) (root src dst : String) (m : Machine)
    (hd : Under w root dst) :
    m.Ext (Op.staged w root) (mm_clone_symlink w src dst m).2 := by
  unfold mm_clone_symlink
  repeat' (first
    | exact Machine.Ext.rfl_ext _ _
    | exact hd
    | split
    | apply Machine.Ext.ext_emit)

theorem mirror_regular_staged (w : World) (root src dst : String) (st : Stat) (m : Machine)
    (hd : Under w root dst) :
    m.Ext (Op.staged w root) (mirror_regular w src dst st m).2 := by
  unfold mirror_regular
  repeat' (first
    | exact Machine.Ext.rfl_ext _ _
    | exact hd
    | split
    | apply Machine.Ext.ext_emit)

theorem mirror_mkdir_staged (w : World) (root src dst : String) (st : Stat) (m : Machine)
    (hd : Under w root dst) :
    m.Ext (Op.staged w root) (mirror_mkdir w src dst st m).2 := by
  unfold mirror_mkdir
  repeat' (first
    | exact Machine.Ext.rfl_ext _ _
    | exact hd
    | split
    | apply Machine.Ext.ext_emit)

theorem mirror_symlink_staged (w : World) (root src dst : String) (m : Machine)
    (hd : Under w root dst) :
    m.Ext (Op.staged w root) (mirror_symlink w src dst m).2 := by
  have := mm_clone_symlink_staged w root src dst m hd
  unfold mirror_symlink
  split <;> exact this

theorem mm_mirror_entry_staged (w : World) (fuel : Nat) :
    ∀ path work name m r m' root, Under w root work →
      mm_mirror_entry w fuel path work name m = some (r, m') →
      m.Ext (Op.staged w root) m' := by
  induction fuel with
  | zero => intro _ _ _ _ _ _ _ _ h; simp [mm_mirror_entry] at h
  | succ fuel ih =>
    intro path work name m r m' root hu h
    rcases mm_mirror_entry_cases h with ⟨_, _, rfl⟩ | ⟨src, dst, _, hj, hc⟩
    · exact Machine.Ext.rfl_ext _ _
    have hd : Under w root dst := Under.join hu hj
    rcases hc with ⟨_, _, rfl⟩ | ⟨st, _, hc⟩
    · exact Machine.Ext.rfl_ext _ _
    rcases hc with ⟨_, he⟩ | ⟨_, _, _, _, rfl⟩ | ⟨_, _, _, _, _, rfl⟩ |
      ⟨_, _, _, entries, _, hl⟩ | ⟨_, _, _, he⟩ | ⟨_, _, _, _, rfl⟩
    · have := mirror_regular_staged w root src dst st m hd
      rw [← he] at this
      exact this
    · exact mirror_mkdir_staged w root src dst st m hd
    · exact mirror_mkdir_staged w root src dst st m hd
    · obtain ⟨_, h1, _⟩ := mirror_children_inv
        (fun _ m1 => m.Ext (Op.staged w root) m1)
        (fun _ _ _ _ h => h)
        (fun de _ m1 r1 m2 _ h hs => h.ext_trans (ih src dst de m1 r1 m2 root hd hs))
        entries _ r m' (mirror_mkdir_staged w root src dst st m hd) hl
      exact h1
    · have := mirror_symlink_staged w root src dst m hd
      rw [← he] at this
      exact this
    · exact Machine.Ext.rfl_ext _ _

theorem regular_bind_staged (w : World) (root path target : String) (node : Node)
    (m : Machine) (ht : Under w root target) :
    m.Ext (Op.staged w root) (regular_bind w path target node m).2 := by
  unfold regular_bind
  repeat' (first
    | exact Machine.Ext.rfl_ext _ _
    | exact ht
    | exact trivial
    | split
    | apply Machine.Ext.ext_inc_mounted
    | apply Machine.Ext.ext_emit
    | dsimp only)

theorem regular_create_staged (w : World) (root path wpath : String) (node : Node)
    {m0 m : Machine} (h0 : m0.Ext (Op.staged w root) m) (ht : Under w root wpath) :
    m0.Ext (Op.staged w root) (regular_create w path wpath node m).2 := by
  have hs : Op.staged w root (Op.open_creat wpath 0o644) := ht
  unfold regular_create
  split
  · exact h0.ext_emit hs
  · exact (h0.ext_emit hs).ext_trans (regular_bind_staged w root path wpath node _ ht)

theorem mm_apply_regular_file_staged (w : World) (root path wpath : String) (node : Node)
    (m : Machine) (ht : Under w root wpath) :
    m.Ext (Op.staged w root) (mm_apply_regular_file w path wpath node true m).2 := by
  unfold mm_apply_regular_file
  rw [if_pos rfl]
  split
  · next dir hdir =>
    have hs : Op.staged w root (Op.mkdir_p dir) := ⟨wpath, ht, Or.inr hdir⟩
    split
    · exact (Machine.Ext.rfl_ext _ m).ext_emit hs
    · exact regular_create_staged w root path wpath node
        ((Machine.Ext.rfl_ext _ m).ext_emit hs) ht
  · exact regular_create_staged w root path wpath node (Machine.Ext.rfl_ext _ m) ht

theorem mm_apply_symlink_staged (w : World) (root path wpath : String) (node : Node)
    (m : Machine) (ht : Under w root wpath) :
    m.Ext (Op.staged w root) (mm_apply_symlink w path wpath node m).2 := by
  unfold mm_apply_symlink
  split
  · exact Machine.Ext.rfl_ext _ _
  · split
    · exact mm_clone_symlink_staged w root _ wpath m ht
    · exact mm_clone_symlink_staged w root _ wpath m ht

theorem mm_setup_dir_tmpfs_staged (w : World) (root path wpath : String) (node : Node)
    (m : Machine) (ht : Under w root wpath) :
    m.Ext (Op.staged w root) (mm_setup_dir_tmpfs w path wpath node m).2 := by
  have hs : Op.staged w root (Op.mkdir_p wpath) := ⟨wpath, ht, Or.inl rfl⟩
  unfold mm_setup_dir_tmpfs
  repeat' (first
    | exact Machine.Ext.rfl_ext _ _
    | exact hs
    | exact ht
    | split
    | apply Machine.Ext.ext_emit
    | dsimp only)

theorem decide_create_tmp_true (w : World) (tr : List Op) (node : Node) (path : String) :
    decide_create_tmp w tr node path true = (false, node) := by
  simp [decide_create_tmp]

theorem mm_process_dir_children_ext (P : Op → Prop) (hP : ∀ n, P (Op.module_mark_failed n))
    {w : World} {ap : ApplyFn} {mi : MirrorFn} {path wpath : String} {now_tmp : Bool}
    (hap : ∀ c m r m' c', ap path wpath c now_tmp m = some (r, m', c') → m.Ext P m')
    (hmi : ∀ de m r m', mi path wpath de m = some (r, m') → m.Ext P m')
    {node : Node} {m : Machine} {r : Int} {m' : Machine} {node' : Node}
    (h : mm_process_dir_children w ap mi path wpath node now_tmp m = some (r, m', node')) :
    m.Ext P m' := by
  rcases mm_process_dir_children_cases h with ⟨_, _, rfl, _⟩ | ⟨_, _, hc⟩
  · exact Machine.Ext.rfl_ext _ _
  rcases hc with ⟨_, _, rfl, _⟩ | ⟨entries, _, hl⟩
  · exact Machine.Ext.rfl_ext _ _
  obtain ⟨_, h1, _⟩ := dir_children_loop_inv (fun _ m1 _ => m.Ext P m1)
    (fun _ _ _ _ _ h => h)
    (fun _ _ _ _ _ _ _ h _ _ => h)
    (fun _ _ m1 _ _ c r1 m2 c1 _ h _ _ ha => by
      have := h.ext_trans (hap _ _ _ _ _ ha)
      split
      · exact child_failed_ext hP this _
      · exact this)
    (fun de _ m1 _ r1 m2 _ h _ _ hm => by
      have := h.ext_trans (hmi _ _ _ _ hm)
      split
      · exact child_failed_ext hP this _
      · exact this)
    (fun _ _ _ _ _ h _ _ => h)
    entries m node r m' node' (Machine.Ext.rfl_ext _ _) hl
  exact h1

theorem mm_process_remaining_children_ext (P : Op → Prop)
    (hP : ∀ n, P (Op.module_mark_failed n))
    {ap : ApplyFn} {path wpath : String} {now_tmp : Bool}
    (hap : ∀ c m r m' c', ap path wpath c now_tmp m = some (r, m', c') → m.Ext P m')
    {node : Node} {m : Machine} {r : Int} {m' : Machine} {node' : Node}
    (h : mm_process_remaining_children ap path wpath node now_tmp m = some (r, m', node')) :
    m.Ext P m' := by
  obtain ⟨_, h1, _⟩ := remaining_children_loop_inv (fun _ m1 _ => m.Ext P m1)
    (fun _ _ _ _ h _ => h)
    (fun _ _ _ _ _ h _ _ => h)
    (fun _ _ m1 _ c r1 m2 c1 h _ _ _ ha => by
      have := h.ext_trans (hap _ _ _ _ _ ha)
      split
      · exact child_failed_ext hP this _
      · exact this)
    _ m node r m' node' (Machine.Ext.rfl_ext _ _) h
  exact h1

theorem mm_apply_node_recursive_staged (w : World) (fuel : Nat) :
    ∀ base wbase node m r m' node' root, Under w root wbase →
      mm_apply_node_recursive w fuel base wbase node true m = some (r, m', node') →
      m.Ext (Op.staged w root) m' := by
  induction fuel with
  | zero => intro _ _ _ _ _ _ _ _ _ h; simp [mm_apply_node_recursive] at h
  | succ fuel ih =>
    intro base wbase node m r m' node' root hu h
    rcases mm_apply_node_recursive_cases h with ⟨_, _, rfl, _⟩ | ⟨path, wpath, _, hj, hc⟩
    · exact Machine.Ext.rfl_ext _ _
    have hw : Under w root wpath := Under.join hu hj
    rcases hc with ⟨_, _, rfl, _⟩ | ⟨_, _, rfl, _⟩ | ⟨_, _, rfl, _⟩ | ⟨_, hd⟩
    · exact mm_apply_regular_file_staged w root path wpath node m hw
    · exact mm_apply_symlink_staged w root path wpath node m hw
    · exact Machine.Ext.rfl_ext _ _
    · rw [decide_create_tmp_true] at hd
      dsimp only [Bool.true_or] at hd
      have hap : ∀ c m1 r1 m2 c1,
          mm_apply_node_recursive w fuel path wpath c true m1 = some (r1, m2, c1) →
          m1.Ext (Op.staged w root) m2 := fun c m1 r1 m2 c1 ha =>
        ih path wpath c m1 r1 m2 c1 root hw ha
      have hmi : ∀ de m1 r1 m2,
          mm_mirror_entry w fuel path wpath de m1 = some (r1, m2) →
          m1.Ext (Op.staged w root) m2 := fun de m1 r1 m2 hm =>
        mm_mirror_entry_staged w fuel path wpath de m1 r1 m2 root hw hm
      have hent : m.Ext (Op.staged w root) (dir_enter w path wpath node false true m).2 := by
        have hs := mm_setup_dir_tmpfs_staged w root path wpath node m hw
        unfold dir_enter
        repeat' (first | exact hs | split | dsimp only)
      rcases dir_body_cases hd with ⟨_, _, rfl, _⟩ | ⟨_, hp⟩
      · exact hent
      obtain ⟨r1, m1, n1, h1, hc⟩ := dir_passes_cases hp
      have e1 := hent.ext_trans (mm_process_dir_children_ext
        (Op.staged w root) (fun _ => trivial) hap hmi h1)
      rcases hc with ⟨_, _, rfl, _⟩ | ⟨_, r2, m2, n2, h2, hc⟩
      · exact e1
      have e2 := e1.ext_trans (mm_process_remaining_children_ext
        (Op.staged w root) (fun _ => trivial) hap h2)
      rcases hc with ⟨_, _, rfl, _⟩ | ⟨_, _, rfl, _⟩
      · exact e2
      · have : (dir_finish w path wpath n2 false m2).2 = m2.inc_mounted := by
          simp [dir_finish]
        rw [this]
        exact e2

/-! ## Order of the mount operations of an overlay directory -/

theorem mm_setup_dir_tmpfs_no_mount (w : World) (path wpath : String) (node : Node)
    (m : Machine) :
    m.Ext (fun op => op.is_mount = false) (mm_setup_dir_tmpfs w path wpath node m).2 := by
  unfold mm_setup_dir_tmpfs
  repeat' (first
    | exact Machine.Ext.rfl_ext _ _
    | exact rfl
    | split
    | apply Machine.Ext.ext_emit
    | dsimp only)

theorem dir_enter_create (w : World) (path wpath : String) (node : Node) (m : Machine)
    (h : (dir_enter w path wpath node true true m).1 = 0) :
    ∃ pre, (dir_enter w path wpath node true true m).2.trace =
        m.trace ++ pre ++ [Op.mount_bind wpath wpath] ∧
      ∀ op ∈ pre, op.is_mount = false := by
  obtain ⟨pre, e, hp⟩ := mm_setup_dir_tmpfs_no_mount w path wpath node m
  by_cases hs : (mm_setup_dir_tmpfs w path wpath node m).1 = 0
  · by_cases hb : w.sys_errno (mm_setup_dir_tmpfs w path wpath node m).2.trace
        (Op.mount_bind wpath wpath) = 0
    · refine ⟨pre, ?_, hp⟩
      have hb2 := hb
      rw [e] at hb2
      simp [dir_enter, hs, hb2, Machine.emit, e]
    · simp [dir_enter, hs, hb] at h
  · simp [dir_enter, hs] at h

theorem dir_finish_create (w : World) (path wpath : String) (node : Node) (m : Machine)
    (h : (dir_finish w path wpath node true m).1 = 0) :
    (dir_finish w path wpath node true m).2.trace =
      m.trace ++ [Op.mount_remount_ro wpath, Op.mount_move wpath path, Op.mount_private path] ++
        (if m.ctx.enable_unmountable then [Op.ksu_send_unmountable path] else []) := by
  by_cases hmv : w.sys_errno (m.emit (Op.mount_remount_ro wpath)).trace
      (Op.mount_move wpath path) = 0
  · have hmv2 : w.sys_errno (m.trace ++ [Op.mount_remount_ro wpath])
        (Op.mount_move wpath path) = 0 := hmv
    cases he : m.ctx.enable_unmountable <;>
      simp [dir_finish, hmv2, Machine.emit, Machine.inc_mounted, he]
  · simp [dir_finish, hmv] at h

/-- C4: a DIRECTORY whose apply creates an overlay (`create_tmp`) and returns
success issues, in this order: operations that are not mounts (the creation of
the staging directory), the self-bind of `wpath` onto `wpath`, the operations
of its children and of the mirrored entries, all of them staged under `wpath`
(binds and read-only remounts target `wpath` or a path below it; there is no
move, no propagation change, no unmount among them), the read-only remount of
`wpath`, the `MS_MOVE` of `wpath` onto `path`, the recursive-private marking of
`path`, and last the notification of `path` when notifications are enabled.
Nothing is issued on the staged subtree after the move.  The first part
states how the children are applied: the apply is the directory body with
`create_tmp = true` and `now_tmp = true`, which passes `now_tmp` to every
child as its `has_tmpfs`. -/
theorem overlay_mount_order (w : World) (fuel : Nat) (base wbase path wpath : String)
    (node : Node) (has_tmpfs : Bool) (m m' : Machine) (node' : Node)
    (hty : node.type = NFT_DIRECTORY)
    (hp : w.path_join base node.name = some path)
    (hwp : w.path_join wbase node.name = some wpath)
    (hct : (decide_create_tmp w m.trace node path has_tmpfs).1 = true)
    (h : mm_apply_node_recursive w (fuel + 1) base wbase node has_tmpfs m =
      some (0, m', node')) :
    mm_apply_node_recursive w (fuel + 1) base wbase node has_tmpfs m =
      dir_body w (fun b wb c h1 m1 => mm_apply_node_recursive w fuel b wb c h1 m1)
        (fun p wk n m1 => mm_mirror_entry w fuel p wk n m1) path wpath
        (decide_create_tmp w m.trace node path has_tmpfs).2 true true m ∧
    ∃ pre mid, m'.trace = m.trace ++ pre ++ [Op.mount_bind wpath wpath] ++ mid ++
        [Op.mount_remount_ro wpath, Op.mount_move wpath path, Op.mount_private path] ++
        (if m.ctx.enable_unmountable then [Op.ksu_send_unmountable path] else []) ∧
      (∀ op ∈ pre, op.is_mount = false) ∧ (∀ op ∈ mid, Op.staged w wpath op) := by
  refine ⟨by rw [mm_apply_node_recursive_dir hty hp hwp, hct, Bool.or_true], ?_⟩
  rw [mm_apply_node_recursive_dir hty hp hwp, hct, Bool.or_true] at h
  have hok := mm_apply_node_recursive_ok w fuel
  have hmok := mm_mirror_entry_ok w fuel
  have hap : ∀ c m1 r1 m2 c1,
      mm_apply_node_recursive w fuel path wpath c true m1 = some (r1, m2, c1) →
      m1.Ext (Op.staged w wpath) m2 := fun c m1 r1 m2 c1 ha =>
    mm_apply_node_recursive_staged w fuel path wpath c m1 r1 m2 c1 wpath Under.self ha
  have hmi : ∀ de m1 r1 m2,
      mm_mirror_entry w fuel path wpath de m1 = some (r1, m2) →
      m1.Ext (Op.staged w wpath) m2 := fun de m1 r1 m2 hm =>
    mm_mirror_entry_staged w fuel path wpath de m1 r1 m2 wpath Under.self hm
  rcases dir_body_cases h with ⟨_, h0, _⟩ | ⟨he, hpass⟩
  · exact absurd h0 (by decide)
  obtain ⟨pre, epre, hpre⟩ := dir_enter_create w path wpath _ m he
  have hle0 := dir_enter_le w path wpath (decide_create_tmp w m.trace node path has_tmpfs).2
    true true m
  obtain ⟨r1, m1, n1, h1, hc⟩ := dir_passes_cases hpass
  rcases hc with ⟨_, h0, _⟩ | ⟨_, r2, m2, n2, h2, hc⟩
  · exact absurd h0 (by decide)
  rcases hc with ⟨_, h0, _⟩ | ⟨_, hr, hm', _⟩
  · exact absurd h0 (by decide)
  have e1 := mm_process_dir_children_ext (Op.staged w wpath) (fun _ => trivial) hap hmi h1
  have e2 := e1.ext_trans
    (mm_process_remaining_children_ext (Op.staged w wpath) (fun _ => trivial) hap h2)
  obtain ⟨mid, emid, hmid⟩ := e2
  have hen : m2.ctx.enable_unmountable = m.ctx.enable_unmountable :=
    (hle0.trans ((mm_process_dir_children_ok hok hmok h1).1.trans
      (remaining_children_loop_ok hok h2).1)).2.2.1
  refine ⟨pre, mid, ?_, hpre, hmid⟩
  rw [hm', dir_finish_create w path wpath n2 m2 hr.symm, emid, epre, hen]

/-! ## The fallback of the oracle: skipped children -/

theorem Node.getElem?_set_child_self {n : Node} {i : Nat} {c : Node} (c1 : Node)
    (h : n.children[i]? = some c) : (n.set_child i c1).children[i]? = some c1 := by
  rw [Node.children_set_child]
  exact List.getElem?_set_self (List.getElem?_eq_some.mp h).1

theorem Node.getElem?_set_child_ne (n : Node) {i j : Nat} (c1 : Node) (h : i ≠ j) :
    (n.set_child i c1).children[j]? = n.children[j]? := by
  rw [Node.children_set_child]
  exact List.getElem?_set_ne h

theorem attempt_all_append (ap : ApplyFn) (path wpath : String) (dir : Node)
    (l1 l2 : List Node) (m : Machine) :
    attempt_all ap path wpath dir (l1 ++ l2) m =
      (attempt_all ap path wpath dir l1 m).bind (attempt_all ap path wpath dir l2) := by
  induction l1 generalizing m with
  | nil => rfl
  | cons c cs ih =>
    simp only [List.cons_append, attempt_all]
    cases ap path wpath c false m with
    | none => rfl
    | some res => exact ih _

theorem attempt_all_dir (ap : ApplyFn) (path wpath : String) {dir dir' : Node}
    (h : dir.module_name = dir'.module_name) (l : List Node) (m : Machine) :
    attempt_all ap path wpath dir l m = attempt_all ap path wpath dir' l m := by
  induction l generalizing m with
  | nil => rfl
  | cons c cs ih =>
    simp only [attempt_all]
    have : attributed_module (some c) dir = attributed_module (some c) dir' := by
      unfold attributed_module
      rw [h]
    rw [this]
    cases ap path wpath c false m with
    | none => rfl
    | some res => exact ih _

theorem attempt_all_snoc {ap : ApplyFn} {path wpath : String} {dir : Node}
    {l : List Node} {m0 m m1 : Machine} {c c1 : Node} {r : Int}
    (h : attempt_all ap path wpath dir l m0 = some m)
    (ha : ap path wpath c false m = some (r, m1, c1)) :
    attempt_all ap path wpath dir (l ++ [c]) m0 =
      some (if r ≠ 0 then after_failure m1 (attributed_module (some c) dir) else m1) := by
  rw [attempt_all_append, h]
  simp only [Option.bind, attempt_all, ha]

theorem attributed_module_set_done (c : Node) (b : Bool) (dir : Node) :
    attributed_module (some (c.set_done b)) dir = attributed_module (some c) dir := by
  simp [attributed_module]

theorem check_children_no_module_path (w : World) (tr : List Op) (path : String)
    (cs : List Node) (hjoin : ∀ c ∈ cs, (w.path_join path c.name).isSome = true) :
    (check_children w tr false path cs).1 = false ∧
      List.Forall₂ (fun c c1 => ∃ rp, w.path_join path c.name = some rp ∧
          (requires_divergence w tr c rp → c1 = c.set_skip true) ∧
          (¬requires_divergence w tr c rp → c1 = c))
        cs (check_children w tr false path cs).2 := by
  induction cs with
  | nil => exact ⟨rfl, List.Forall₂.nil⟩
  | cons c cs ih =>
    have ih' := ih (fun d hd => hjoin d (List.mem_cons_of_mem c hd))
    have hc := hjoin c (List.mem_cons_self c cs)
    obtain ⟨rp, hrp⟩ := Option.isSome_iff_exists.mp hc
    unfold check_children
    rw [hrp]
    dsimp only
    by_cases hn : child_need w tr c rp = true
    · rw [if_pos hn]
      simp only [Bool.not_false, if_true]
      refine ⟨ih'.1, List.Forall₂.cons ⟨rp, hrp, fun _ => rfl, fun h => ?_⟩ ih'.2⟩
      exact absurd ((child_need_iff w tr c rp).mp hn) h
    · rw [if_neg hn]
      refine ⟨ih'.1, List.Forall₂.cons ⟨rp, hrp, fun h => ?_, fun _ => rfl⟩ ih'.2⟩
      exact absurd ((child_need_iff w tr c rp).mpr h) hn

theorem dir_passes_no_overlay {w : World} {ap : ApplyFn} {mi : MirrorFn} (hok : ApplyOk ap)
    (hmok : MirrorOk mi) {path wpath : String} {node : Node} {m : Machine} {r : Int}
    {m' : Machine} {node' : Node}
    (h : dir_passes w ap mi path wpath node false false m = some (r, m', node')) :
    ∃ m1 n1 m2, mm_process_dir_children w ap mi path wpath node false m = some (0, m1, n1) ∧
      mm_process_remaining_children ap path wpath n1 false m1 = some (0, m2, node') ∧
      r = 0 ∧ m' = m2.inc_mounted := by
  obtain ⟨r1, m1, n1, h1, hc⟩ := dir_passes_cases h
  have hr1 : r1 = 0 := by
    rcases mm_process_dir_children_cases h1 with ⟨_, h0, _⟩ | ⟨_, _, hc1⟩
    · exact h0
    rcases hc1 with ⟨_, h0, _⟩ | ⟨entries, _, hl⟩
    · simpa using h0
    · obtain ⟨_, _, _, h3⟩ := dir_children_loop_inv (fun _ _ _ => True)
        (fun _ _ _ _ _ _ => trivial) (fun _ _ _ _ _ _ _ _ _ _ => trivial)
        (fun _ _ _ _ _ _ _ _ _ _ _ _ _ _ => trivial)
        (fun _ _ _ _ _ _ _ _ _ _ _ => trivial) (fun _ _ _ _ _ _ _ _ => trivial)
        entries m node r1 m1 n1 trivial hl
      rcases h3 with h3 | ⟨_, h3⟩
      · exact h3
      · cases h3
  subst hr1
  rcases hc with ⟨h0, _⟩ | ⟨_, r2, m2, n2, h2, hc⟩
  · exact absurd rfl h0
  have hr2 : r2 = 0 := by
    obtain ⟨_, _, _, h3⟩ := remaining_children_loop_inv (fun _ _ _ => True)
      (fun _ _ _ _ _ _ => trivial) (fun _ _ _ _ _ _ _ _ => trivial)
      (fun _ _ _ _ _ _ _ _ _ _ _ _ _ => trivial)
      _ m1 n1 r2 m2 n2 trivial h2
    rcases h3 with h3 | ⟨_, h3⟩
    · exact h3
    · cases h3
  subst hr2
  rcases hc with ⟨h0, _⟩ | ⟨_, hr, hm, hn⟩
  · exact absurd rfl h0
  subst hn
  refine ⟨m1, n1, m2, h1, h2, ?_, ?_⟩
  · rw [hr]; simp [dir_finish]
  · rw [hm]; simp [dir_finish]

/-! ## Lists filtered by a predicate -/

theorem filter_getElem?_countP {α : Type} (p : α → Bool) :
    ∀ (l : List α) (i : Nat) (c : α), l[i]? = some c → p c = true →
      (l.filter p)[(l.take i).countP p]? = some c := by
  intro l
  induction l with
  | nil => intro i c h; simp at h
  | cons d ds ih =>
    intro i c h hp
    cases i with
    | zero =>
      simp only [List.getElem?_cons_zero, Option.some.injEq] at h
      subst h
      simp [List.filter_cons, hp]
    | succ j =>
      simp only [List.getElem?_cons_succ] at h
      have := ih j c h hp
      by_cases hd : p d = true
      · simp [List.filter_cons, hd, List.take_succ_cons, List.countP_cons, this]
      · simp [List.filter_cons, hd, List.take_succ_cons, List.countP_cons, this]

theorem filter_set_countP {α : Type} (p : α → Bool) :
    ∀ (l : List α) (i : Nat) (c c' : α), l[i]? = some c → p c' = p c →
      (l.set i c').filter p =
        if p c = true then (l.filter p).set ((l.take i).countP p) c' else l.filter p := by
  intro l
  induction l with
  | nil => intro i c c' h; simp at h
  | cons d ds ih =>
    intro i c c' h hp
    cases i with
    | zero =>
      simp only [List.getElem?_cons_zero, Option.some.injEq] at h
      subst h
      by_cases hd : p d = true
      · have hc : p c' = true := by rw [hp]; exact hd
        simp [List.filter_cons, hd, hc]
      · have hc : ¬p c' = true := by rw [hp]; exact hd
        simp [List.filter_cons, hd, hc]
    | succ j =>
      simp only [List.getElem?_cons_succ] at h
      have := ih j c c' h hp
      by_cases hd : p d = true
      · by_cases hc : p c = true
        · simp [List.filter_cons, hd, hc, List.take_succ_cons, List.countP_cons, this]
        · simp [List.filter_cons, hd, hc, List.take_succ_cons, List.countP_cons, this]
      · by_cases hc : p c = true
        · simp [List.filter_cons, hd, hc, List.take_succ_cons, List.countP_cons, this]
        · simp [List.filter_cons, hd, hc, List.take_succ_cons, List.countP_cons, this]

theorem countP_take_succ {α : Type} (p : α → Bool) (l : List α) (i : Nat) (c : α)
    (h : l[i]? = some c) :
    (l.take (i + 1)).countP p = (l.take i).countP p + if p c = true then 1 else 0 := by
  rw [List.take_succ, h, List.countP_append]
  simp [List.countP_cons]

theorem names_set {l : List Node} {i : Nat} {c c' : Node} (h : l[i]? = some c)
    (hn : c'.name = c.name) : (l.set i c').map Node.name = l.map Node.name := by
  induction l generalizing i with
  | nil => rfl
  | cons d ds ih =>
    cases i with
    | zero =>
      simp only [List.getElem?_cons_zero, Option.some.injEq] at h
      subst h
      simp [hn]
    | succ j =>
      simp only [List.getElem?_cons_succ] at h
      simp [ih h]

/-! ## Looking a child up among the children that are not skipped -/

theorem find_child_eq_none {name : String} {cs : List Node} (h : ∀ c ∈ cs, c.name ≠ name) :
    find_child name cs = none := by
  induction cs with
  | nil => rfl
  | cons d ds ih =>
    unfold find_child
    rw [if_neg (h d (List.mem_cons_self _ _)), ih (fun c hc => h c (List.mem_cons_of_mem _ hc))]

theorem find_child_none_iff {name : String} {cs : List Node} (h : find_child name cs = none) :
    ∀ c ∈ cs, c.name ≠ name := by
  induction cs with
  | nil => intro c hc; cases hc
  | cons d ds ih =>
    unfold find_child at h
    by_cases hd : d.name = name
    · rw [if_pos hd] at h
      cases h
    · rw [if_neg hd] at h
      cases hf : find_child name ds with
      | some _ => rw [hf] at h; cases h
      | none =>
        intro c hc
        rcases List.mem_cons.mp hc with rfl | hc
        · exact hd
        · exact ih hf c hc

theorem find_child_filter_none {name : String} {cs : List Node} (p : Node → Bool)
    (h : find_child name cs = none) : find_child name (cs.filter p) = none :=
  find_child_eq_none (fun c hc => find_child_none_iff h c (List.mem_filter.mp hc).1)

theorem find_child_filter_some {name : String} (p : Node → Bool) :
    ∀ (cs : List Node) (i : Nat) (c : Node), find_child name cs = some (i, c) → p c = true →
      find_child name (cs.filter p) = some ((cs.take i).countP p, c) := by
  intro cs
  induction cs with
  | nil => intro i c h; simp [find_child] at h
  | cons d ds ih =>
    intro i c h hp
    unfold find_child at h
    by_cases hd : d.name = name
    · rw [if_pos hd] at h
      simp only [Option.some.injEq, Prod.mk.injEq] at h
      obtain ⟨rfl, rfl⟩ := h
      simp [List.filter_cons, hp, find_child, hd]
    · rw [if_neg hd] at h
      cases hf : find_child name ds with
      | none => rw [hf] at h; cases h
      | some res =>
        obtain ⟨j, e⟩ := res
        rw [hf] at h
        simp only [Option.some.injEq, Prod.mk.injEq] at h
        obtain ⟨rfl, rfl⟩ := h
        have := ih j e hf hp
        by_cases hpd : p d = true
        · simp [List.filter_cons, hpd, find_child, hd, this, List.take_succ_cons,
            List.countP_cons]
        · simp [List.filter_cons, hpd, this, List.take_succ_cons, List.countP_cons]

theorem find_child_filter_skipped {name : String} (p : Node → Bool) :
    ∀ (cs : List Node) (i : Nat) (c : Node), (cs.map Node.name).Nodup →
      find_child name cs = some (i, c) → p c = false →
      find_child name (cs.filter p) = none := by
  intro cs
  induction cs with
  | nil => intro i c _ h; simp [find_child] at h
  | cons d ds ih =>
    intro i c hnd h hp
    simp only [List.map_cons, List.nodup_cons] at hnd
    unfold find_child at h
    by_cases hd : d.name = name
    · rw [if_pos hd] at h
      simp only [Option.some.injEq, Prod.mk.injEq] at h
      obtain ⟨rfl, rfl⟩ := h
      have : List.filter p (d :: ds) = List.filter p ds := by simp [List.filter_cons, hp]
      rw [this]
      apply find_child_eq_none
      intro c hc hcn
      apply hnd.1
      rw [hd, ← hcn]
      exact List.mem_map_of_mem _ (List.mem_filter.mp hc).1
    · rw [if_neg hd] at h
      cases hf : find_child name ds with
      | none => rw [hf] at h; cases h
      | some res =>
        obtain ⟨j, e⟩ := res
        rw [hf] at h
        simp only [Option.some.injEq, Prod.mk.injEq] at h
        obtain ⟨rfl, rfl⟩ := h
        have := ih j e hnd.2 hf hp
        by_cases hpd : p d = true
        · simp [List.filter_cons, hpd, find_child, hd, this]
        · simp [List.filter_cons, hpd, this]

/-! ## The child passes do not see the skipped children -/

theorem Pruned.failed_module_eq (c : Option Node) {n n' : Node} (h : Pruned n n') :
    failed_module c n' = failed_module c n := by
  unfold failed_module
  rw [h.1]

theorem Pruned.set_skipped {n n' : Node} (h : Pruned n n') {i : Nat} {c c' : Node}
    (hi : n.children[i]? = some c) (hc : c.skip = true) (hc' : c'.skip = true) :
    Pruned (n.set_child i c') n' := by
  refine ⟨by rw [Node.module_name_set_child]; exact h.1,
    by rw [Node.replace_set_child]; exact h.2.1, ?_⟩
  rw [Node.children_set_child,
    filter_set_countP (fun c => !c.skip) n.children i c c' hi (by simp [hc, hc'])]
  simp [hc, h.2.2]

theorem Pruned.set_live {n n' : Node} (h : Pruned n n') {i : Nat} {c c' : Node}
    (hi : n.children[i]? = some c) (hc : c.skip = false) (hc' : c'.skip = false) :
    Pruned (n.set_child i c')
      (n'.set_child ((n.children.take i).countP (fun c => !c.skip)) c') := by
  refine ⟨by rw [Node.module_name_set_child, Node.module_name_set_child]; exact h.1,
    by rw [Node.replace_set_child, Node.replace_set_child]; exact h.2.1, ?_⟩
  rw [Node.children_set_child, Node.children_set_child,
    filter_set_countP (fun c => !c.skip) n.children i c c' hi (by simp [hc, hc'])]
  simp [hc, h.2.2]

theorem dir_children_loop_pruned {ap : ApplyFn} {mi : MirrorFn} (hok : ApplyOk ap)
    (path wpath : String) (entries : List String) :
    ∀ (m : Machine) (n n' : Node), Pruned n n' → (n.children.map Node.name).Nodup →
      PrunedRun (dir_children_loop ap mi path wpath false entries m n)
        (dir_children_loop ap mi path wpath false entries m n') := by
  induction entries with
  | nil =>
    intro m n n' h hnd
    exact ⟨rfl, rfl, h, hnd⟩
  | cons de rest ih =>
    intro m n n' h hnd
    unfold dir_children_loop
    by_cases hd : de = "." ∨ de = ".."
    · rw [if_pos hd, if_pos hd]
      exact ih m n n' h hnd
    · rw [if_neg hd, if_neg hd]
      cases hf : node_child_find n de with
      | none =>
        have hf' : node_child_find n' de = none := by
          unfold node_child_find at hf ⊢
          rw [h.2.2]
          exact find_child_filter_none _ hf
        rw [hf']
        simp only [Bool.false_eq_true, if_false]
        exact ih m n n' h hnd
      | some res =>
        obtain ⟨i, c⟩ := res
        obtain ⟨hi, hname⟩ := node_child_find_some hf
        dsimp only
        cases hs : c.skip with
        | true =>
          have hf' : node_child_find n' de = none := by
            unfold node_child_find at hf ⊢
            rw [h.2.2]
            exact find_child_filter_skipped _ _ i c hnd hf (by simp [hs])
          rw [hf']
          simp only [Bool.false_eq_true, if_false, if_true]
          refine ih m _ n' (h.set_skipped hi hs (by simpa using hs)) ?_
          rw [Node.children_set_child, names_set hi (by simp)]
          exact hnd
        | false =>
          have hf' : node_child_find n' de =
              some ((n.children.take i).countP (fun c => !c.skip), c) := by
            unfold node_child_find at hf ⊢
            rw [h.2.2]
            exact find_child_filter_some _ _ i c hf (by simp [hs])
          rw [hf']
          simp only [Bool.false_eq_true, if_false, hs]
          cases ha : ap path wpath (c.set_done true) false m with
          | none => exact trivial
          | some res =>
            obtain ⟨r1, m1, c1⟩ := res
            dsimp only
            obtain ⟨_, hsame, _⟩ := hok _ _ _ _ _ _ _ _ ha
            have hc1 : c1.skip = false := by rw [hsame.2.1]; simpa using hs
            have hn := h.set_live hi hs hc1
            have hnd' : ((n.set_child i c1).children.map Node.name).Nodup := by
              rw [Node.children_set_child, names_set hi (by rw [hsame.1.1]; simp)]
              exact hnd
            by_cases hr1 : r1 ≠ 0
            · rw [if_pos hr1, if_pos hr1, h.failed_module_eq]
              exact ih _ _ _ hn hnd'
            · rw [if_neg hr1, if_neg hr1]
              exact ih _ _ _ hn hnd'

theorem remaining_children_loop_pruned {ap : ApplyFn} (hok : ApplyOk ap)
    (path wpath : String) (cnt : Nat) :
    ∀ (k : Nat) (m : Machine) (n n' : Node), Pruned n n' → k + cnt = n.children.length →
      SameRun (remaining_children_loop ap path wpath false (List.range' k cnt) m n)
        (remaining_children_loop ap path wpath false
          (List.range' ((n.children.take k).countP (fun c => !c.skip))
            (n'.children.length - (n.children.take k).countP (fun c => !c.skip))) m n') := by
  induction cnt with
  | zero =>
    intro k m n n' h hk
    have hk' : k = n.children.length := by omega
    have : (n.children.take k).countP (fun c => !c.skip) = n'.children.length := by
      rw [hk', List.take_length, h.2.2, List.countP_eq_length_filter]
    rw [this, Nat.sub_self]
    exact ⟨rfl, rfl⟩
  | succ cnt ih =>
    intro k m n n' h hk
    have hlt : k < n.children.length := by omega
    have hc : n.children[k]? = some n.children[k] := List.getElem?_eq_getElem hlt
    generalize n.children[k] = c at hc
    have hsucc := countP_take_succ (fun c => !c.skip) n.children k c hc
    rw [List.range'_succ]
    cases hs : c.skip with
    | true =>
      rw [remaining_children_loop, hc]
      simp only [hs, Bool.true_or, if_true]
      have := ih (k + 1) m n n' h (by omega)
      rw [hsucc] at this
      simpa [hs] using this
    | false =>
      have hget := filter_getElem?_countP (fun c => !c.skip) n.children k c hc (by simp [hs])
      rw [← h.2.2] at hget
      have hlt' : (n.children.take k).countP (fun c => !c.skip) < n'.children.length :=
        (List.getElem?_eq_some.mp hget).1
      have hlen : n'.children.length - (n.children.take k).countP (fun c => !c.skip) =
          (n'.children.length - ((n.children.take k).countP (fun c => !c.skip) + 1)) + 1 := by
        omega
      rw [hlen, List.range'_succ, remaining_children_loop, hc, remaining_children_loop, hget]
      simp only [hs, Bool.false_or]
      have hsucc' : (n.children.take (k + 1)).countP (fun c => !c.skip) =
          (n.children.take k).countP (fun c => !c.skip) + 1 := by
        rw [hsucc]
        simp [hs]
      cases hdn : c.done with
      | true =>
        simp only [if_true]
        have := ih (k + 1) m n n' h (by omega)
        rw [hsucc'] at this
        exact this
      | false =>
        simp only [Bool.false_eq_true, if_false]
        cases ha : ap path wpath c false m with
        | none => exact trivial
        | some res =>
          obtain ⟨r1, m1, c1⟩ := res
          dsimp only
          obtain ⟨_, hsame, _⟩ := hok _ _ _ _ _ _ _ _ ha
          have hc1 : c1.skip = false := by rw [hsame.2.1]; exact hs
          have hn := h.set_live hc hs hc1
          have hcount : ((n.set_child k c1).children.take (k + 1)).countP (fun c => !c.skip) =
              (n.children.take k).countP (fun c => !c.skip) + 1 := by
            rw [Node.children_set_child,
              countP_take_succ (fun c => !c.skip) (n.children.set k c1) k c1
                (by rw [List.getElem?_set_self hlt]),
              List.set_take, List.set_eq_of_length_le (by rw [List.length_take]; omega)]
            simp [hc1]
          have hlen2 : (n.set_child k c1).children.length = n.children.length := by
            rw [Node.children_set_child, List.length_set]
          have hlen3 : (n'.set_child ((n.children.take k).countP (fun c => !c.skip)) c1).children.length
              = n'.children.length := by
            rw [Node.children_set_child, List.length_set]
          by_cases hr1 : r1 ≠ 0
          · rw [if_pos hr1, if_pos hr1, h.failed_module_eq]
            have := ih (k + 1) (child_failed m1 (failed_module (some c) n)) _ _ hn
              (by rw [hlen2]; omega)
            rw [hcount, hlen3] at this
            exact this
          · rw [if_neg hr1, if_neg hr1]
            have := ih (k + 1) m1 _ _ hn (by rw [hlen2]; omega)
            rw [hcount, hlen3] at this
            exact this

/-! ## The run as a best-effort application of children that are not skipped -/

theorem schedInv_refl (ap : ApplyFn) (path wpath : String) (node0 : Node) (m0 : Machine) :
    SchedInv ap path wpath node0 m0 m0 node0 :=
  ⟨Node.Same.same_refl _, fun _ c' hc' => ⟨c', hc', rfl, Node.Sim.sim_refl _⟩, [], rfl,
    fun _ hx => by cases hx⟩

theorem SchedInv.step_skip {ap : ApplyFn} {path wpath : String} {node0 : Node}
    {m0 m : Machine} {n : Node} (h : SchedInv ap path wpath node0 m0 m n) {i : Nat} {c : Node}
    (hi : n.children[i]? = some c) :
    SchedInv ap path wpath node0 m0 m (n.set_child i (c.set_done true)) := by
  obtain ⟨h1, h2, h3⟩ := h
  refine ⟨h1.same_trans (Node.same_set_child hi (Node.sim_set_done c true)), ?_, h3⟩
  intro j c' hc'
  by_cases hij : i = j
  · subst hij
    rw [Node.getElem?_set_child_self _ hi] at hc'
    cases hc'
    obtain ⟨c0, a1, a2, a3⟩ := h2 i c hi
    exact ⟨c0, a1, by simpa using a2, a3.sim_trans (Node.sim_set_done c true)⟩
  · rw [Node.getElem?_set_child_ne _ _ hij] at hc'
    exact h2 j c' hc'

theorem SchedInv.step_apply {ap : ApplyFn} (hok : ApplyOk ap) {path wpath : String}
    {node0 : Node} {m0 m : Machine} {n : Node} (h : SchedInv ap path wpath node0 m0 m n)
    {i : Nat} {c x : Node} (hi : n.children[i]? = some c) (hsk : c.skip = false)
    (hx : x = c ∨ x = c.set_done true) {r : Int} {m1 : Machine} {c1 : Node}
    (ha : ap path wpath x false m = some (r, m1, c1)) :
    SchedInv ap path wpath node0 m0
      (if r ≠ 0 then child_failed m1 (failed_module (some c) n) else m1)
      (n.set_child i c1) := by
  obtain ⟨h1, h2, sched, h3, h4⟩ := h
  obtain ⟨_, hsame, _⟩ := hok _ _ _ _ _ _ _ _ ha
  obtain ⟨c0, a1, a2, a3⟩ := h2 i c hi
  have hcx : c.Sim x := by
    rcases hx with rfl | rfl
    · exact Node.Sim.sim_refl _
    · exact Node.sim_set_done c true
  have hxs : x.skip = c.skip := by
    rcases hx with rfl | rfl
    · rfl
    · simp
  have hmod : attributed_module (some x) node0 = attributed_module (some c) n := by
    rw [attributed_module_same (some c) h1]
    rcases hx with rfl | rfl
    · rfl
    · exact attributed_module_set_done c true node0
  refine ⟨h1.same_trans (Node.same_set_child hi (hcx.sim_trans hsame.1)), ?_,
    sched ++ [x], ?_, ?_⟩
  · intro j c' hc'
    by_cases hij : i = j
    · subst hij
      rw [Node.getElem?_set_child_self _ hi] at hc'
      cases hc'
      exact ⟨c0, a1, by rw [hsame.2.1, hxs, a2], a3.sim_trans (hcx.sim_trans hsame.1)⟩
    · rw [Node.getElem?_set_child_ne _ _ hij] at hc'
      exact h2 j c' hc'
  · rw [attempt_all_snoc h3 ha, hmod, child_failed_eq]
  · intro y hy
    rcases List.mem_append.mp hy with hy | hy
    · exact h4 y hy
    · rw [List.mem_singleton] at hy
      subst hy
      exact ⟨c0, List.getElem?_mem a1, by rw [← a2]; exact hsk, a3.sim_trans hcx⟩

theorem dir_children_loop_sched {ap : ApplyFn} {mi : MirrorFn} (hok : ApplyOk ap)
    {path wpath : String} {node0 : Node} {m0 : Machine} {entries : List String}
    {m : Machine} {n : Node} (hinit : SchedInv ap path wpath node0 m0 m n)
    {r : Int} {m' : Machine} {node' : Node}
    (h : dir_children_loop ap mi path wpath false entries m n = some (r, m', node')) :
    r = 0 ∧ SchedInv ap path wpath node0 m0 m' node' := by
  obtain ⟨_, h1, _, h3⟩ := dir_children_loop_inv
    (fun _ m1 n1 => SchedInv ap path wpath node0 m0 m1 n1)
    (fun _ _ _ _ _ hi => hi)
    (fun de _ _ nd i c _ hi hf _ => hi.step_skip (node_child_find_some hf).1)
    (fun de _ _ nd i c r1 m1 c1 _ hi hf hsk ha =>
      hi.step_apply hok (node_child_find_some hf).1 hsk (Or.inr rfl) ha)
    (fun _ _ _ _ _ _ _ _ _ hnow _ => by cases hnow)
    (fun _ _ _ _ _ hi _ _ => hi)
    entries m n r m' node' hinit h
  refine ⟨?_, h1⟩
  rcases h3 with h3 | ⟨_, h3⟩
  · exact h3
  · cases h3

theorem remaining_children_loop_sched {ap : ApplyFn} (hok : ApplyOk ap)
    {path wpath : String} {node0 : Node} {m0 : Machine} {idxs : List Nat}
    {m : Machine} {n : Node} (hinit : SchedInv ap path wpath node0 m0 m n)
    {r : Int} {m' : Machine} {node' : Node}
    (h : remaining_children_loop ap path wpath false idxs m n = some (r, m', node')) :
    SchedInv ap path wpath node0 m0 m' node' := by
  obtain ⟨_, h1, _⟩ := remaining_children_loop_inv
    (fun _ m1 n1 => SchedInv ap path wpath node0 m0 m1 n1)
    (fun _ _ _ _ hi _ => hi)
    (fun _ _ _ _ _ hi _ _ => hi)
    (fun i _ _ nd c r1 m1 c1 hi hc hsk _ ha => hi.step_apply hok hc hsk (Or.inl rfl) ha)
    idxs m n r m' node' hinit h
  exact h1

/-! ## The run on the node without its skipped children -/

theorem mm_process_dir_children_pruned (w : World) {ap : ApplyFn} (mi : MirrorFn)
    (hok : ApplyOk ap) (path wpath : String) (m : Machine) (n n' : Node) (h : Pruned n n')
    (hnd : (n.children.map Node.name).Nodup) :
    PrunedRun (mm_process_dir_children w ap mi path wpath n false m)
      (mm_process_dir_children w ap mi path wpath n' false m) := by
  unfold mm_process_dir_children
  rw [h.2.1]
  split
  · exact ⟨rfl, rfl, h, hnd⟩
  · split
    · exact ⟨rfl, rfl, h, hnd⟩
    · exact dir_children_loop_pruned hok path wpath _ m n n' h hnd

theorem dir_passes_pruned {w : World} {ap : ApplyFn} {mi : MirrorFn} (hok : ApplyOk ap)
    (path wpath : String) (m : Machine) (n n' : Node) (h : Pruned n n')
    (hnd : (n.children.map Node.name).Nodup) :
    SameRun (dir_passes w ap mi path wpath n false false m)
      (dir_passes w ap mi path wpath n' false false m) := by
  have h1 := mm_process_dir_children_pruned w mi hok path wpath m n n' h hnd
  unfold dir_passes
  cases ha : mm_process_dir_children w ap mi path wpath n false m with
  | none =>
    cases hb : mm_process_dir_children w ap mi path wpath n' false m with
    | none => exact trivial
    | some b => rw [ha, hb] at h1; exact h1.elim
  | some a =>
    cases hb : mm_process_dir_children w ap mi path wpath n' false m with
    | none => rw [ha, hb] at h1; exact h1.elim
    | some b =>
      obtain ⟨r1, m1, n1⟩ := a
      obtain ⟨r1', m1', n1'⟩ := b
      rw [ha, hb] at h1
      obtain ⟨rfl, rfl, hn1, _⟩ := h1
      dsimp only
      by_cases hr1 : r1 ≠ 0
      · rw [if_pos hr1, if_pos hr1]
        exact ⟨rfl, rfl⟩
      · rw [if_neg hr1, if_neg hr1]
        have h2 := remaining_children_loop_pruned hok path wpath n1.children.length 0 m1 n1 n1'
          hn1 (Nat.zero_add _)
        simp only [List.take_zero, List.countP_nil, Nat.sub_zero] at h2
        unfold mm_process_remaining_children Node.child_count
        rw [List.range_eq_range', List.range_eq_range']
        cases hc : remaining_children_loop ap path wpath false
            (List.range' 0 n1.children.length) m1 n1 with
        | none =>
          cases hd : remaining_children_loop ap path wpath false
              (List.range' 0 n1'.children.length) m1 n1' with
          | none => exact trivial
          | some d => rw [hc, hd] at h2; exact h2.elim
        | some c =>
          cases hd : remaining_children_loop ap path wpath false
              (List.range' 0 n1'.children.length) m1 n1' with
          | none => rw [hc, hd] at h2; exact h2.elim
          | some d =>
            obtain ⟨r2, m2, n2⟩ := c
            obtain ⟨r2', m2', n2'⟩ := d
            rw [hc, hd] at h2
            obtain ⟨rfl, rfl⟩ := h2
            dsimp only
            by_cases hr2 : r2 ≠ 0
            · rw [if_pos hr2, if_pos hr2]
              exact ⟨rfl, rfl⟩
            · rw [if_neg hr2, if_neg hr2]
              exact ⟨by simp [dir_finish], by simp [dir_finish]⟩

theorem check_children_live (w : World) (tr : List Op) (path : String) (cs : List Node) :
    ∀ c ∈ (check_children w tr false path cs).2, c.skip = false →
      ∀ rp, w.path_join path c.name = some rp → child_need w tr c rp = false := by
  induction cs with
  | nil => intro c hc; simp [check_children] at hc
  | cons d ds ih =>
    intro c hc hsk rp hrp
    unfold check_children at hc
    cases hj : w.path_join path d.name with
    | none =>
      rw [hj] at hc
      rcases List.mem_cons.mp hc with rfl | hc
      · rw [hj] at hrp
        cases hrp
      · exact ih c hc hsk rp hrp
    | some rp' =>
      rw [hj] at hc
      simp only at hc
      by_cases hn : child_need w tr d rp' = true
      · rw [if_pos hn] at hc
        simp only [Bool.not_false, if_true] at hc
        rcases List.mem_cons.mp hc with rfl | hc
        · simp at hsk
        · exact ih c hc hsk rp hrp
      · rw [if_neg hn] at hc
        rcases List.mem_cons.mp hc with rfl | hc
        · rw [hj] at hrp
          cases hrp
          simpa using hn
        · exact ih c hc hsk rp hrp

theorem check_children_no_need (w : World) (tr : List Op) (hmp : Bool) (path : String)
    (cs : List Node)
    (h : ∀ c ∈ cs, ∀ rp, w.path_join path c.name = some rp → child_need w tr c rp = false) :
    check_children w tr hmp path cs = (false, cs) := by
  induction cs with
  | nil => rfl
  | cons d ds ih =>
    have ih' := ih (fun c hc => h c (List.mem_cons_of_mem _ hc))
    unfold check_children
    cases hj : w.path_join path d.name with
    | none => simp only [ih']
    | some rp =>
      simp only
      rw [if_neg (by rw [h d (List.mem_cons_self _ _) rp hj]; decide), ih']

theorem check_children_names (w : World) (tr : List Op) (path : String) (cs : List Node) :
    (check_children w tr false path cs).2.map Node.name = cs.map Node.name := by
  induction cs with
  | nil => rfl
  | cons d ds ih =>
    unfold check_children
    cases hj : w.path_join path d.name with
    | none => simp only [List.map_cons, ih]
    | some rp =>
      simp only
      by_cases hn : child_need w tr d rp = true
      · rw [if_pos hn]
        simp only [Bool.not_false, if_true, List.map_cons, ih, Node.name_set_skip]
      · rw [if_neg hn]
        simp only [List.map_cons, ih]

theorem mm_check_need_tmpfs_no_need (w : World) (tr : List Op) (path : String) (n : Node)
    (hmp : n.module_path = none)
    (h : check_children w tr false path n.children = (false, n.children)) :
    mm_check_need_tmpfs w tr n path = (false, n) := by
  unfold mm_check_need_tmpfs
  rw [hmp]
  simp only [Option.isSome_none]
  rw [h]
  cases n
  rfl

theorem no_module_path_body (w : World) (fuel : Nat) (base wbase path wpath : String)
    (node : Node) (m : Machine)
    (hty : node.type = NFT_DIRECTORY)
    (hp : w.path_join base node.name = some path)
    (hwp : w.path_join wbase node.name = some wpath)
    (hmp : node.module_path = none)
    (h1 : (mm_check_need_tmpfs w m.trace node path).1 = false) :
    mm_apply_node_recursive w (fuel + 1) base wbase node false m =
      dir_passes w (fun b wb c h m1 => mm_apply_node_recursive w fuel b wb c h m1)
        (fun p wk n m1 => mm_mirror_entry w fuel p wk n m1) path wpath
        (mm_check_need_tmpfs w m.trace node path).2 false false m := by
  have hdc : decide_create_tmp w m.trace node path false =
      (false, (mm_check_need_tmpfs w m.trace node path).2) := by
    unfold decide_create_tmp
    rw [hmp]
    simp only [Option.isSome_none, Bool.and_false, Bool.false_eq_true, if_false, Bool.not_false,
      if_true]
    rw [← h1]
  rw [mm_apply_node_recursive_dir hty hp hwp, hdc]
  simp [dir_body, dir_enter]

/-- C2 (as amended): a DIRECTORY node without `module_path`, with unique child
names, applied with `has_tmpfs = false`, every join of its path with a child
name succeeding.  (1) The oracle returns false and sets `skip` on exactly the
children that require type divergence, leaving every other child as it is.
(2) With enough fuel on a live tree of bounded depth the apply returns.
(3) Whenever the apply returns, it returns 0 and its machine is the one reached
from the initial machine by the best-effort application of a sequence of nodes,
each of which is (up to flags) a child that the oracle did not skip, followed
by the increment of `nodes_mounted`: the directory issues no operation of its
own (no self-bind, no read-only remount, no `MS_MOVE`), and nothing is issued,
counted or marked for a skipped child.  (4) The skipped children have no effect
at all: the apply of the node and the apply of the node from which the skipped
children have been removed give the same return value and the same machine
(trace and counters), or both do not return. -/
theorem skipped_children_not_applied (w : World) (fuel : Nat)
    (base wbase path wpath : String) (node : Node) (m : Machine)
    (hty : node.type = NFT_DIRECTORY)
    (hp : w.path_join base node.name = some path)
    (hwp : w.path_join wbase node.name = some wpath)
    (hmp : node.module_path = none)
    (hjoin : ∀ c ∈ node.children, (w.path_join path c.name).isSome = true)
    (hnames : (node.children.map Node.name).Nodup) :
    ((mm_check_need_tmpfs w m.trace node path).1 = false ∧
      List.Forall₂ (fun c c1 => ∃ rp, w.path_join path c.name = some rp ∧
          (requires_divergence w m.trace c rp → c1 = c.set_skip true) ∧
          (¬requires_divergence w m.trace c rp → c1 = c))
        node.children (mm_check_need_tmpfs w m.trace node path).2.children) ∧
    (∀ bound, bounded_depth w bound → node.height + bound + 1 < fuel + 1 →
      ∃ res, mm_apply_node_recursive w (fuel + 1) base wbase node false m = some res) ∧
    (∀ r m' node', mm_apply_node_recursive w (fuel + 1) base wbase node false m =
        some (r, m', node') →
      r = 0 ∧ ∃ sched m1,
        attempt_all (fun b wb c h m1 => mm_apply_node_recursive w fuel b wb c h m1)
          path wpath node sched m = some m1 ∧
        m' = m1.inc_mounted ∧
        ∀ x ∈ sched, ∃ c ∈ (mm_check_need_tmpfs w m.trace node path).2.children,
          c.skip = false ∧ c.Sim x) ∧
    SameRun (mm_apply_node_recursive w (fuel + 1) base wbase node false m)
      (mm_apply_node_recursive w (fuel + 1) base wbase
        (mm_check_need_tmpfs w m.trace node path).2.without_skipped false m) := by
  have horacle := check_children_no_module_path w m.trace path node.children hjoin
  have h1 : (mm_check_need_tmpfs w m.trace node path).1 = false := by
    unfold mm_check_need_tmpfs
    rw [hmp]
    exact horacle.1
  have hch : (mm_check_need_tmpfs w m.trace node path).2.children =
      (check_children w m.trace false path node.children).2 := by
    unfold mm_check_need_tmpfs
    rw [hmp, Node.children_set_children]
    rfl
  have hbody := no_module_path_body w fuel base wbase path wpath node m hty hp hwp hmp h1
  refine ⟨⟨h1, ?_⟩, ?_, ?_, ?_⟩
  · rw [hch]
    exact horacle.2
  · intro bound hd hfuel
    exact mm_apply_node_recursive_returns w bound hd (fuel + 1) base wbase node false m hfuel
  · intro r m' node' h
    rw [hbody] at h
    obtain ⟨ma, na, mb, ha, hb, hr, hm'⟩ :=
      dir_passes_no_overlay (mm_apply_node_recursive_ok w fuel) (mm_mirror_entry_ok w fuel) h
    have hinv1 : SchedInv (fun b wb c h m1 => mm_apply_node_recursive w fuel b wb c h m1)
        path wpath (mm_check_need_tmpfs w m.trace node path).2 m ma na := by
      rcases mm_process_dir_children_cases ha with ⟨_, _, e1, e2⟩ | ⟨_, _, hc⟩
      · rw [e1, e2]
        exact schedInv_refl _ _ _ _ _
      rcases hc with ⟨_, _, e1, e2⟩ | ⟨entries, _, hl⟩
      · rw [e1, e2]
        exact schedInv_refl _ _ _ _ _
      · exact (dir_children_loop_sched (mm_apply_node_recursive_ok w fuel)
          (schedInv_refl _ _ _ _ _) hl).2
    unfold mm_process_remaining_children at hb
    obtain ⟨_, _, sched, hs, hlive⟩ :=
      remaining_children_loop_sched (mm_apply_node_recursive_ok w fuel) hinv1 hb
    refine ⟨hr, sched, mb, ?_, hm', hlive⟩
    rw [← hs]
    apply attempt_all_dir
    unfold mm_check_need_tmpfs
    simp
  · have hpr : Pruned (mm_check_need_tmpfs w m.trace node path).2
        (mm_check_need_tmpfs w m.trace node path).2.without_skipped := by
      unfold Node.without_skipped
      exact ⟨by simp, by simp, by simp⟩
    have hnd : ((mm_check_need_tmpfs w m.trace node path).2.children.map Node.name).Nodup := by
      rw [hch, check_children_names]
      exact hnames
    have hty' : (mm_check_need_tmpfs w m.trace node path).2.without_skipped.type =
        NFT_DIRECTORY := by
      unfold Node.without_skipped mm_check_need_tmpfs
      simpa using hty
    have hname' : (mm_check_need_tmpfs w m.trace node path).2.without_skipped.name =
        node.name := by
      unfold Node.without_skipped mm_check_need_tmpfs
      simp
    have hmp' : (mm_check_need_tmpfs w m.trace node path).2.without_skipped.module_path =
        none := by
      unfold Node.without_skipped mm_check_need_tmpfs
      simpa using hmp
    have hor' : mm_check_need_tmpfs w m.trace
        (mm_check_need_tmpfs w m.trace node path).2.without_skipped path =
        (false, (mm_check_need_tmpfs w m.trace node path).2.without_skipped) := by
      have hcc := check_children_no_need w m.trace false path
        (mm_check_need_tmpfs w m.trace node path).2.without_skipped.children (by
          intro c hc rp hrp
          have hc' : c ∈ ((mm_check_need_tmpfs w m.trace node path).2.children.filter
              (fun c => !c.skip)) := by
            rw [← hpr.2.2]
            exact hc
          rw [List.mem_filter, hch] at hc'
          exact check_children_live w m.trace path node.children c hc'.1
            (by simpa using hc'.2) rp hrp)
      exact mm_check_need_tmpfs_no_need w m.trace path _ hmp' hcc
    have hbody' := no_module_path_body w fuel base wbase path wpath _ m hty'
      (by rw [hname']; exact hp)
      (by rw [hname']; exact hwp) hmp' (by rw [hor'])
    rw [hbody, hbody', hor']
    exact dir_passes_pruned (mm_apply_node_recursive_ok w fuel) path wpath m _ _ hpr hnd

/-! ## Outside overlays child failures are counted and do not abort -/

theorem dir_children_loop_pass1 {ap : ApplyFn} {mi : MirrorFn} (hok : ApplyOk ap)
    {path wpath : String} {node0 : Node} {m0 : Machine}
    (hdone : ∀ c ∈ node0.children, c.done = false)
    {entries : List String} (hnd : entries.Nodup)
    {r : Int} {m' : Machine} {node' : Node}
    (h : dir_children_loop ap mi path wpath false entries m0 node0 = some (r, m', node')) :
    r = 0 ∧ Pass1Inv ap path wpath node0 m0 [] m' node' := by
  have key := dir_children_loop_inv (Pass1Inv ap path wpath node0 m0)
    ?_ ?_ ?_ ?_ ?_ entries m0 node0 r m' node' ?_ h
  · obtain ⟨rest, hinv, hr, h3⟩ := key
    have hr0 : r = 0 := by
      rcases h3 with h3 | ⟨_, h3⟩
      · exact h3
      · cases h3
    rw [hr hr0] at hinv
    exact ⟨hr0, hinv⟩
  · -- "." and ".."
    rintro de rest m n _ ⟨hn, hs, sched, h1, h2, h3, h4, h5⟩
    refine ⟨(List.nodup_cons.mp hn).2, hs, sched, h1, h2, h3, ?_, h5⟩
    intro i c' hc'
    obtain ⟨c, a1, a2, a3, a4⟩ := h4 i c' hc'
    refine ⟨c, a1, a2, a3, a4.imp id (fun a => ⟨a.1, fun hm => a.2.1 (List.mem_cons_of_mem _ hm), a.2.2⟩)⟩
  · -- a skipped child is marked done
    rintro de rest m n i c _ ⟨hn, hs, sched, h1, h2, h3, h4, h5⟩ hf hsk
    obtain ⟨hi, hname⟩ := node_child_find_some hf
    obtain ⟨hde, hrest⟩ := List.nodup_cons.mp hn
    refine ⟨hrest, hs.same_trans (Node.same_set_child hi (Node.sim_set_done c true)),
      sched, h1, h2, h3, ?_, ?_⟩
    · intro j c' hc'
      by_cases hij : i = j
      · subst hij
        rw [Node.getElem?_set_child_self _ hi] at hc'
        cases hc'
        obtain ⟨c0, a1, a2, a3, _⟩ := h4 i c hi
        refine ⟨c0, a1, by simpa using a2, by simpa using a3, Or.inr ⟨by simp, ?_, ?_⟩⟩
        · simp only [Node.name_set_done]
          rw [hname]
          exact hde
        · intro hc0
          rw [← a2, hsk] at hc0
          cases hc0
      · rw [Node.getElem?_set_child_ne _ _ hij] at hc'
        obtain ⟨c0, a1, a2, a3, a4⟩ := h4 j c' hc'
        exact ⟨c0, a1, a2, a3,
          a4.imp id (fun a => ⟨a.1, fun hm => a.2.1 (List.mem_cons_of_mem _ hm), a.2.2⟩)⟩
    · intro j hj
      obtain ⟨c', b1, b2⟩ := h5 j hj
      by_cases hij : i = j
      · subst hij
        exact ⟨_, Node.getElem?_set_child_self _ hi, by simp⟩
      · exact ⟨c', by rw [Node.getElem?_set_child_ne _ _ hij]; exact b1, b2⟩
  · -- a child found by name is applied
    rintro de rest m n i c r1 m1 c1 _ ⟨hn, hs, sched, h1, h2, h3, h4, h5⟩ hf hsk ha
    obtain ⟨hi, hname⟩ := node_child_find_some hf
    obtain ⟨hde, hrest⟩ := List.nodup_cons.mp hn
    obtain ⟨_, hsame1, _⟩ := hok _ _ _ _ _ _ _ _ ha
    obtain ⟨c0, a1, a2, a3, a4⟩ := h4 i c hi
    have hcc : c = c0 := by
      rcases a4 with a4 | ⟨_, a4, _⟩
      · exact a4
      · exact absurd (by rw [hname]; exact List.mem_cons_self _ _) a4
    subst hcc
    have hcdone : c.done = false := hdone c (List.getElem?_mem a1)
    have hnot : i ∉ sched.map Prod.fst := by
      intro hmem
      obtain ⟨c', b1, b2⟩ := h5 i hmem
      rw [hi] at b1
      cases b1
      rw [hcdone] at b2
      cases b2
    refine ⟨hrest, hs.same_trans (Node.same_set_child hi
      ((Node.sim_set_done c true).sim_trans hsame1.1)), sched ++ [(i, c.set_done true)],
      ?_, ?_, ?_, ?_, ?_⟩
    · rw [List.map_append, List.map_singleton, attempt_all_snoc h1 ha,
        attributed_module_set_done, child_failed_eq, attributed_module_same _ hs]
    · rw [List.map_append, List.map_singleton]
      exact List.Nodup.append h2 (List.nodup_singleton _)
        (by
          intro x hx1 hx2
          rw [List.mem_singleton] at hx2
          subst hx2
          exact hnot hx1)
    · intro ic hic
      rcases List.mem_append.mp hic with hic | hic
      · exact h3 ic hic
      · rw [List.mem_singleton] at hic
        subst hic
        exact ⟨c, a1, hsk, rfl⟩
    · intro j c' hc'
      by_cases hij : i = j
      · subst hij
        rw [Node.getElem?_set_child_self _ hi] at hc'
        cases hc'
        refine ⟨c, a1, ?_, ?_, Or.inr ⟨?_, ?_, ?_⟩⟩
        · rw [hsame1.2.1]; simp
        · rw [hsame1.1.1]; simp
        · rw [hsame1.2.2]; simp
        · rw [hsame1.1.1, Node.name_set_done, hname]
          exact hde
        · intro _
          rw [List.map_append, List.map_singleton]
          exact List.mem_append_right _ (List.mem_singleton.mpr rfl)
      · rw [Node.getElem?_set_child_ne _ _ hij] at hc'
        obtain ⟨d0, b1, b2, b3, b4⟩ := h4 j c' hc'
        refine ⟨d0, b1, b2, b3, b4.imp id (fun a => ⟨a.1,
          fun hm => a.2.1 (List.mem_cons_of_mem _ hm), fun hd0 => ?_⟩)⟩
        rw [List.map_append]
        exact List.mem_append_left _ (a.2.2 hd0)
    · intro j hj
      rw [List.map_append, List.map_singleton] at hj
      by_cases hij : i = j
      · subst hij
        exact ⟨c1, Node.getElem?_set_child_self _ hi, by rw [hsame1.2.2]; simp⟩
      · rcases List.mem_append.mp hj with hj | hj
        · obtain ⟨c', b1, b2⟩ := h5 j hj
          exact ⟨c', by rw [Node.getElem?_set_child_ne _ _ hij]; exact b1, b2⟩
        · rw [List.mem_singleton] at hj
          exact absurd hj.symm hij
  · -- no mirroring outside an overlay
    intro _ _ _ _ _ _ _ _ _ hnow
    cases hnow
  · -- an entry naming no child
    rintro de rest m n _ ⟨hn, hs, sched, h1, h2, h3, h4, h5⟩ _ _
    refine ⟨(List.nodup_cons.mp hn).2, hs, sched, h1, h2, h3, ?_, h5⟩
    intro i c' hc'
    obtain ⟨c, a1, a2, a3, a4⟩ := h4 i c' hc'
    exact ⟨c, a1, a2, a3,
      a4.imp id (fun a => ⟨a.1, fun hm => a.2.1 (List.mem_cons_of_mem _ hm), a.2.2⟩)⟩
  · -- initially
    refine ⟨hnd, Node.Same.same_refl _, [], rfl, List.nodup_nil, ?_, ?_, ?_⟩
    · intro ic hic
      cases hic
    · intro i c' hc'
      exact ⟨c', hc', rfl, rfl, Or.inl rfl⟩
    · intro i hi
      cases hi

theorem remaining_children_loop_pass2 {ap : ApplyFn} (hok : ApplyOk ap)
    {path wpath : String} {node0 : Node} {m0 : Machine}
    {all : List Nat} (hnd : all.Nodup)
    {r : Int} {m' : Machine} {node' : Node}
    (h : remaining_children_loop ap path wpath false all m0 node0 = some (r, m', node')) :
    r = 0 ∧ Pass2Inv ap path wpath node0 m0 all [] m' node' := by
  have key := remaining_children_loop_inv (Pass2Inv ap path wpath node0 m0 all)
    ?_ ?_ ?_ all m0 node0 r m' node' ?_ h
  · obtain ⟨rest, hinv, hr, h3⟩ := key
    have hr0 : r = 0 := by
      rcases h3 with h3 | ⟨_, h3⟩
      · exact h3
      · cases h3
    rw [hr hr0] at hinv
    exact ⟨hr0, hinv⟩
  · -- an index without child
    rintro i rest m n ⟨hn, hs, sched, h1, h2, h3, h4, h5⟩ hc
    obtain ⟨hi, hrest⟩ := List.nodup_cons.mp hn
    refine ⟨hrest, hs, sched, h1, h2, ?_, ?_, ?_⟩
    · intro ic hic
      obtain ⟨b1, b2⟩ := h3 ic hic
      exact ⟨fun hm => b1 (List.mem_cons_of_mem _ hm), b2⟩
    · intro j hj
      exact h4 j (List.mem_cons_of_mem _ hj)
    · intro j c hj hjr hc0 hsk hdn
      by_cases hij : j = i
      · subst hij
        rw [← h4 j (List.mem_cons_self _ _), hc] at hc0
        cases hc0
      · exact h5 j c hj (by
          intro hm
          rcases List.mem_cons.mp hm with hm | hm
          · exact hij hm
          · exact hjr hm) hc0 hsk hdn
  · -- a child that is skipped or done
    rintro i rest m n c ⟨hn, hs, sched, h1, h2, h3, h4, h5⟩ hc hsd
    obtain ⟨hi, hrest⟩ := List.nodup_cons.mp hn
    refine ⟨hrest, hs, sched, h1, h2, ?_, ?_, ?_⟩
    · intro ic hic
      obtain ⟨b1, b2⟩ := h3 ic hic
      exact ⟨fun hm => b1 (List.mem_cons_of_mem _ hm), b2⟩
    · intro j hj
      exact h4 j (List.mem_cons_of_mem _ hj)
    · intro j c0 hj hjr hc0 hsk hdn
      by_cases hij : j = i
      · subst hij
        rw [← h4 j (List.mem_cons_self _ _), hc] at hc0
        cases hc0
        rw [hsk, hdn] at hsd
        cases hsd
      · exact h5 j c0 hj (by
          intro hm
          rcases List.mem_cons.mp hm with hm | hm
          · exact hij hm
          · exact hjr hm) hc0 hsk hdn
  · -- a remaining child is applied
    rintro i rest m n c r1 m1 c1 ⟨hn, hs, sched, h1, h2, h3, h4, h5⟩ hc hsk hdn ha
    obtain ⟨hi, hrest⟩ := List.nodup_cons.mp hn
    obtain ⟨_, hsame1, _⟩ := hok _ _ _ _ _ _ _ _ ha
    have hc0 : node0.children[i]? = some c := by
      rw [← h4 i (List.mem_cons_self _ _)]
      exact hc
    have hnot : i ∉ sched.map Prod.fst := by
      intro hmem
      obtain ⟨ic, hic, hicfst⟩ := List.mem_map.mp hmem
      exact (h3 ic hic).1 (by rw [hicfst]; exact List.mem_cons_self _ _)
    refine ⟨hrest, hs.same_trans (Node.same_set_child hc hsame1.1), sched ++ [(i, c)],
      ?_, ?_, ?_, ?_, ?_⟩
    · rw [List.map_append, List.map_singleton, attempt_all_snoc h1 ha, child_failed_eq,
        attributed_module_same _ hs]
    · rw [List.map_append, List.map_singleton]
      exact List.Nodup.append h2 (List.nodup_singleton _)
        (by
          intro x hx1 hx2
          rw [List.mem_singleton] at hx2
          subst hx2
          exact hnot hx1)
    · intro ic hic
      rcases List.mem_append.mp hic with hic | hic
      · obtain ⟨b1, b2⟩ := h3 ic hic
        exact ⟨fun hm => b1 (List.mem_cons_of_mem _ hm), b2⟩
      · rw [List.mem_singleton] at hic
        subst hic
        exact ⟨hi, hc0, hsk, hdn⟩
    · intro j hj
      have hij : i ≠ j := by
        intro e
        subst e
        exact hi hj
      rw [Node.getElem?_set_child_ne _ _ hij]
      exact h4 j (List.mem_cons_of_mem _ hj)
    · intro j d hj hjr hd0 hdsk hddn
      rw [List.map_append, List.map_singleton]
      by_cases hij : j = i
      · subst hij
        exact List.mem_append_right _ (List.mem_singleton.mpr rfl)
      · exact List.mem_append_left _ (h5 j d hj (by
          intro hm
          rcases List.mem_cons.mp hm with hm | hm
          · exact hij hm
          · exact hjr hm) hd0 hdsk hddn)
  · -- initially
    refine ⟨hnd, Node.Same.same_refl _, [], rfl, List.nodup_nil, ?_, ?_, ?_⟩
    · intro ic hic
      cases hic
    · intro j _
      rfl
    · intro j c hj hjr
      exact absurd hj hjr

theorem check_children_done (w : World) (tr : List Op) (hmp : Bool) (path : String)
    (cs : List Node) (hdone : ∀ c ∈ cs, c.done = false) :
    ∀ c ∈ (check_children w tr hmp path cs).2, c.done = false := by
  induction cs with
  | nil => intro c hc; simp [check_children] at hc
  | cons d ds ih =>
    have ih' := ih (fun c hc => hdone c (List.mem_cons_of_mem _ hc))
    have hd := hdone d (List.mem_cons_self _ _)
    unfold check_children
    repeat' split
    all_goals
      intro c hc
      rcases List.mem_cons.mp hc with rfl | hc
      · first | exact hd | simpa using hd
      · first | exact ih' c hc | exact hdone c (List.mem_cons_of_mem _ hc)

theorem decide_create_tmp_done (w : World) (tr : List Op) (node : Node) (path : String)
    (has_tmpfs : Bool) (hdone : ∀ c ∈ node.children, c.done = false) :
    ∀ c ∈ (decide_create_tmp w tr node path has_tmpfs).2.children, c.done = false := by
  unfold decide_create_tmp
  repeat' split
  · exact hdone
  · unfold mm_check_need_tmpfs
    rw [Node.children_set_children]
    exact check_children_done w tr _ path _ hdone
  · exact hdone

theorem pass1Inv_refl (ap : ApplyFn) (path wpath : String) (node0 : Node) (m0 : Machine) :
    Pass1Inv ap path wpath node0 m0 [] m0 node0 := by
  refine ⟨List.nodup_nil, Node.Same.same_refl _, [], rfl, List.nodup_nil, ?_, ?_, ?_⟩
  · intro ic hic
    cases hic
  · intro i c' hc'
    exact ⟨c', hc', rfl, rfl, Or.inl rfl⟩
  · intro i hi
    cases hi

/-- C6 (as amended): a DIRECTORY applied with no overlay active (`has_tmpfs = false`,
`create_tmp = false`, its own path joins succeeding), whose children carry no
`done` mark yet and whose directory listing has no repeated name.  (1) Its
apply returns, given enough fuel on a live tree of bounded depth.  (2) Whenever
it returns, it returns 0 and has incremented `nodes_mounted`, whatever its
children returned; the machine before that increment is the result of the
best-effort application (`attempt_all`: each failure increments `nodes_fail`
once and does not stop the sequence) of a schedule of children in which every
child that the oracle did not skip occurs exactly once, and nothing else
occurs. -/
theorem no_overlay_best_effort (w : World) (fuel : Nat) (base wbase path wpath : String)
    (node : Node) (m : Machine)
    (hty : node.type = NFT_DIRECTORY)
    (hp : w.path_join base node.name = some path)
    (hwp : w.path_join wbase node.name = some wpath)
    (hct : (decide_create_tmp w m.trace node path false).1 = false)
    (hdone : ∀ c ∈ node.children, c.done = false)
    (hnodup : ∀ l, w.opendir m.trace path = some l → l.Nodup) :
    (∀ bound, bounded_depth w bound → node.height + bound + 1 < fuel + 1 →
      ∃ res, mm_apply_node_recursive w (fuel + 1) base wbase node false m = some res) ∧
    ∀ r m' node', mm_apply_node_recursive w (fuel + 1) base wbase node false m =
        some (r, m', node') →
      ∃ (sched : List (Nat × Node)) (m1 : Machine),
        r = 0 ∧ m' = m1.inc_mounted ∧
        attempt_all (fun b wb c h m2 => mm_apply_node_recursive w fuel b wb c h m2)
          path wpath node (sched.map Prod.snd) m = some m1 ∧
        (sched.map Prod.fst).Nodup ∧
        (∀ i c, (decide_create_tmp w m.trace node path false).2.children[i]? = some c →
          c.skip = false → i ∈ sched.map Prod.fst) ∧
        (∀ ic ∈ sched, ∃ c,
          (decide_create_tmp w m.trace node path false).2.children[ic.1]? = some c ∧
          c.skip = false ∧ (ic.2 = c ∨ ic.2 = c.set_done true)) := by
  have hok := mm_apply_node_recursive_ok w fuel
  have hmok := mm_mirror_entry_ok w fuel
  refine ⟨fun bound hd hfuel =>
    mm_apply_node_recursive_returns w bound hd (fuel + 1) base wbase node false m hfuel, ?_⟩
  intro r m' node' hres
  have hres2 := hres
  rw [mm_apply_node_recursive_dir hty hp hwp, hct] at hres2
  have hsame1 := decide_create_tmp_same w m.trace node path false
  have hdone1 := decide_create_tmp_done w m.trace node path false hdone
  generalize (decide_create_tmp w m.trace node path false).2 = node1 at hres2 hsame1 hdone1 ⊢
  have hbody : dir_passes w (fun b wb c h m2 => mm_apply_node_recursive w fuel b wb c h m2)
      (fun p wk n m2 => mm_mirror_entry w fuel p wk n m2) path wpath node1 false false m =
      some (r, m', node') := by
    simpa [dir_body, dir_enter] using hres2
  obtain ⟨m1, n1, m2, h1, h2, hr, hm'⟩ := dir_passes_no_overlay hok hmok hbody
  subst hr hm'
  -- first pass
  have hp1 : Pass1Inv (fun b wb c h m2 => mm_apply_node_recursive w fuel b wb c h m2)
      path wpath node1 m [] m1 n1 := by
    rcases mm_process_dir_children_cases h1 with ⟨_, _, hm1, hn1⟩ | ⟨_, _, hc⟩
    · rw [hm1, hn1]
      exact pass1Inv_refl _ _ _ _ _
    rcases hc with ⟨_, _, hm1, hn1⟩ | ⟨entries, ho, hl⟩
    · rw [hm1, hn1]
      exact pass1Inv_refl _ _ _ _ _
    · exact (dir_children_loop_pass1 hok hdone1 (hnodup entries ho) hl).2
  obtain ⟨_, hs1, sched1, a1, a2, a3, a4, a5⟩ := hp1
  -- second pass
  obtain ⟨_, _, hs2, sched2, b1, b2, b3, b4, b5⟩ :=
    remaining_children_loop_pass2 hok (List.nodup_range n1.child_count) h2
  have hlen : n1.children.length = node1.children.length := by
    have := congrArg List.length hs1.1.2.2.2.2.2.2.2
    simpa using this
  refine ⟨sched1 ++ sched2, m2, rfl, rfl, ?_, ?_, ?_, ?_⟩
  · rw [List.map_append, attempt_all_append,
      attempt_all_dir _ _ _ (hsame1.1.2.2.2.1.symm) _ m, a1]
    simp only [Option.bind]
    rw [attempt_all_dir _ _ _ (hsame1.1.2.2.2.1.symm),
      attempt_all_dir _ _ _ (hs1.1.2.2.2.1.symm)]
    exact b1
  · rw [List.map_append]
    refine List.Nodup.append a2 b2 ?_
    intro i hi1 hi2
    obtain ⟨c', d1, d2⟩ := a5 i hi1
    obtain ⟨ic, hic, hicfst⟩ := List.mem_map.mp hi2
    obtain ⟨_, e2, _, e4⟩ := b3 ic hic
    rw [hicfst, d1] at e2
    cases e2
    rw [d2] at e4
    cases e4
  · intro i c hc hsk
    rw [List.map_append]
    have hi : i < n1.children.length := by
      rw [hlen]
      exact (List.getElem?_eq_some.mp hc).1
    obtain ⟨c', hc'⟩ : ∃ c', n1.children[i]? = some c' :=
      ⟨_, List.getElem?_eq_getElem hi⟩
    obtain ⟨c0, d1, d2, _, d4⟩ := a4 i c' hc'
    rw [hc] at d1
    cases d1
    rcases d4 with d4 | ⟨_, _, d4⟩
    · subst d4
      refine List.mem_append_right _ (b5 i c' (List.mem_range.mpr hi) (List.not_mem_nil _) hc' hsk ?_)
      exact hdone1 c' (List.getElem?_mem hc)
    · exact List.mem_append_left _ (d4 hsk)
  · intro ic hic
    rcases List.mem_append.mp hic with hic | hic
    · obtain ⟨c, d1, d2, d3⟩ := a3 ic hic
      exact ⟨c, d1, d2, Or.inr d3⟩
    · obtain ⟨_, e2, e3, e4⟩ := b3 ic hic
      obtain ⟨c0, d1, d2, _, d4⟩ := a4 ic.1 ic.2 e2
      rcases d4 with d4 | ⟨d4, _⟩
      · exact ⟨c0, d1, by rw [← d2]; exact e3, Or.inl d4⟩
      · rw [e4] at d4
        cases d4

/-! ## Accounting of the applied nodes -/

namespace Node

theorem live_count_eq (n : Node) : n.live_count = 1 + live_countList n.children := by
  cases n; simp [live_count, children]

theorem live_whiteouts_eq (n : Node) :
    n.live_whiteouts = (if n.type = NFT_WHITEOUT then 1 else 0) +
      live_whiteoutsList n.children := by
  cases n; simp [live_whiteouts, children, type]

theorem clean_eq (n : Node) :
    n.clean = ((decide (n.type = NFT_DIRECTORY) || n.children.isEmpty) &&
      cleanList n.children) := by
  cases n; simp [clean, children, type]

@[simp] theorem clean_set_done (n : Node) (b : Bool) : (n.set_done b).clean = n.clean := by
  cases n; simp [set_done, clean]

@[simp] theorem clean_set_skip (n : Node) (b : Bool) : (n.set_skip b).clean = n.clean := by
  cases n; simp [set_skip, clean]

theorem cleanList_mem {l : List Node} (h : cleanList l = true) :
    ∀ c ∈ l, c.skip = false ∧ c.done = false ∧ c.clean = true := by
  induction l with
  | nil => intro c hc; cases hc
  | cons d ds ih =>
    simp only [cleanList, Bool.and_eq_true, Bool.not_eq_true'] at h
    intro c hc
    rcases List.mem_cons.mp hc with rfl | hc
    · exact ⟨h.1.1.1, h.1.1.2, h.1.2⟩
    · exact ih h.2 c hc

theorem clean_children {n : Node} (h : n.clean = true) :
    ∀ c ∈ n.children, c.skip = false ∧ c.done = false ∧ c.clean = true := by
  rw [clean_eq] at h
  simp only [Bool.and_eq_true] at h
  exact cleanList_mem h.2

theorem clean_leaf {n : Node} (h : n.clean = true) (hty : n.type ≠ NFT_DIRECTORY) :
    n.children = [] := by
  rw [clean_eq] at h
  simp only [Bool.and_eq_true, Bool.or_eq_true, decide_eq_true_eq, List.isEmpty_iff] at h
  rcases h.1 with h1 | h1
  · exact absurd h1 hty
  · exact h1

end Node

theorem accounted_set (f : Node → Nat) (p : List Nat) :
    ∀ (l : List Node) (k i : Nat) (c c1 : Node), l[i]? = some c →
      accounted f p k (l.set i c1) + contrib f p (k + i) c =
        accounted f p k l + contrib f p (k + i) c1 := by
  intro l
  induction l with
  | nil => intro k i c c1 h; simp at h
  | cons d ds ih =>
    intro k i c c1 h
    cases i with
    | zero =>
      simp only [List.getElem?_cons_zero, Option.some.injEq] at h
      subst h
      simp only [List.set_cons_zero, accounted, Nat.add_zero]
      omega
    | succ j =>
      simp only [List.getElem?_cons_succ] at h
      have := ih (k + 1) j c c1 h
      simp only [List.set_cons_succ, accounted]
      have e : k + (j + 1) = k + 1 + j := by omega
      rw [e]
      omega

theorem contrib_pending_ne (f : Node → Nat) (rest : List Nat) {g j : Nat} (c : Node)
    (h : j ≠ g) : contrib f (g :: rest) j c = contrib f rest j c := by
  unfold contrib
  simp [h]

theorem accounted_pending_far (f : Node → Nat) (rest : List Nat) (g : Nat) :
    ∀ (l : List Node) (k : Nat), (g < k ∨ k + l.length ≤ g) →
      accounted f (g :: rest) k l = accounted f rest k l := by
  intro l
  induction l with
  | nil => intro k _; rfl
  | cons d ds ih =>
    intro k h
    simp only [accounted]
    rw [contrib_pending_ne f rest d (by simp only [List.length_cons] at h; omega),
      ih (k + 1) (by simp only [List.length_cons] at h; omega)]

theorem accounted_pending (f : Node → Nat) (rest : List Nat) :
    ∀ (l : List Node) (k i : Nat) (c : Node), l[i]? = some c →
      accounted f rest k l + contrib f ((k + i) :: rest) (k + i) c =
        accounted f ((k + i) :: rest) k l + contrib f rest (k + i) c := by
  intro l
  induction l with
  | nil => intro k i c h; simp at h
  | cons d ds ih =>
    intro k i c h
    cases i with
    | zero =>
      simp only [List.getElem?_cons_zero, Option.some.injEq] at h
      subst h
      simp only [accounted, Nat.add_zero]
      rw [accounted_pending_far f rest k ds (k + 1) (Or.inl (by omega))]
      omega
    | succ j =>
      simp only [List.getElem?_cons_succ] at h
      have := ih (k + 1) j c h
      have e : k + (j + 1) = k + 1 + j := by omega
      simp only [accounted]
      rw [e, contrib_pending_ne f rest d (by omega)]
      omega

theorem accounted_zero (f : Node → Nat) (p : List Nat) :
    ∀ (l : List Node) (k : Nat), (∀ c ∈ l, c.done = false) →
      (∀ j, k ≤ j → j < k + l.length → j ∈ p) → accounted f p k l = 0 := by
  intro l
  induction l with
  | nil => intro _ _ _; rfl
  | cons d ds ih =>
    intro k hd hp
    simp only [accounted]
    have h1 : contrib f p k d = 0 := by
      unfold contrib
      rw [if_neg]
      rintro ⟨_, h | h⟩
      · rw [hd d (List.mem_cons_self _ _)] at h
        cases h
      · exact h (hp k (le_refl _) (by simp))
    rw [h1, ih (k + 1) (fun c hc => hd c (List.mem_cons_of_mem _ hc))
      (fun j h1 h2 => hp j (by omega) (by simp only [List.length_cons]; omega))]

theorem accounted_nil_live_count (l : List Node) (k : Nat) :
    accounted Node.live_count [] k l = Node.live_countList l := by
  induction l generalizing k with
  | nil => rfl
  | cons d ds ih =>
    simp only [accounted, Node.live_countList, ih]
    congr 1
    unfold contrib
    cases d.skip <;> simp

theorem accounted_nil_live_whiteouts (l : List Node) (k : Nat) :
    accounted Node.live_whiteouts [] k l = Node.live_whiteoutsList l := by
  induction l generalizing k with
  | nil => rfl
  | cons d ds ih =>
    simp only [accounted, Node.live_whiteoutsList, ih]
    congr 1
    unfold contrib
    cases d.skip <;> simp

/-! ### What each step does to the counters -/

theorem mm_clone_symlink_ctx (w : World) (src dst : String) (m : Machine) :
    (mm_clone_symlink w src dst m).2.ctx = m.ctx := by
  unfold mm_clone_symlink
  repeat' (first | rfl | assumption | split | dsimp only)

theorem mirror_regular_ctx (w : World) (src dst : String) (st : Stat) (m : Machine) :
    (mirror_regular w src dst st m).2.ctx = m.ctx := by
  unfold mirror_regular
  repeat' (first | rfl | assumption | split | dsimp only)

theorem mirror_mkdir_ctx (w : World) (src dst : String) (st : Stat) (m : Machine) :
    (mirror_mkdir w src dst st m).2.ctx = m.ctx := by
  unfold mirror_mkdir
  repeat' (first | rfl | assumption | split | dsimp only)

theorem mirror_symlink_ctx (w : World) (src dst : String) (m : Machine) :
    (mirror_symlink w src dst m).2.ctx = m.ctx := by
  have hs := mm_clone_symlink_ctx w src dst m
  unfold mirror_symlink
  repeat' (first | rfl | assumption | split | dsimp only)

theorem mm_setup_dir_tmpfs_ctx (w : World) (path wpath : String) (node : Node) (m : Machine) :
    (mm_setup_dir_tmpfs w path wpath node m).2.ctx = m.ctx := by
  unfold mm_setup_dir_tmpfs
  repeat' (first | rfl | assumption | split | dsimp only)

theorem dir_enter_ctx (w : World) (path wpath : String) (node : Node)
    (create_tmp now_tmp : Bool) (m : Machine) :
    (dir_enter w path wpath node create_tmp now_tmp m).2.ctx = m.ctx := by
  have hs := mm_setup_dir_tmpfs_ctx w path wpath node m
  unfold dir_enter
  repeat' (first | rfl | assumption | split | dsimp only)

/-- The counters after a successful application of one node that is not a
whiteout: `nodes_mounted` incremented, the others unchanged. -/
theorem regular_bind_stats (w : World) (path target : String) (node : Node) (m : Machine)
    (h : (regular_bind w path target node m).1 = 0) :
    (regular_bind w path target node m).2.ctx.stats =
      ⟨m.ctx.stats.nodes_mounted + 1, m.ctx.stats.nodes_fail, m.ctx.stats.nodes_whiteout⟩ := by
  unfold regular_bind at h ⊢
  cases hmp : node.module_path with
  | none =>
    rw [hmp] at h
    simp at h
  | some mp =>
    rw [hmp] at h
    dsimp only at h ⊢
    by_cases hb : w.sys_errno m.trace (Op.mount_bind mp target) ≠ 0
    · rw [if_pos hb] at h
      simp at h
    · rw [if_neg hb]
      repeat' (first | rfl | split | dsimp only)

theorem regular_create_stats (w : World) (path wpath : String) (node : Node) (m : Machine)
    (h : (regular_create w path wpath node m).1 = 0) :
    (regular_create w path wpath node m).2.ctx.stats =
      ⟨m.ctx.stats.nodes_mounted + 1, m.ctx.stats.nodes_fail, m.ctx.stats.nodes_whiteout⟩ := by
  unfold regular_create at h ⊢
  split
  · next hc =>
    rw [if_pos hc] at h
    simp at h
  · next hc =>
    rw [if_neg hc] at h
    exact regular_bind_stats w path wpath node _ h

theorem mm_apply_regular_file_stats (w : World) (path wpath : String) (node : Node)
    (has_tmpfs : Bool) (m : Machine)
    (h : (mm_apply_regular_file w path wpath node has_tmpfs m).1 = 0) :
    (mm_apply_regular_file w path wpath node has_tmpfs m).2.ctx.stats =
      ⟨m.ctx.stats.nodes_mounted + 1, m.ctx.stats.nodes_fail, m.ctx.stats.nodes_whiteout⟩ := by
  unfold mm_apply_regular_file at h ⊢
  cases has_tmpfs with
  | false =>
    simp only [Bool.false_eq_true, if_false] at h ⊢
    exact regular_bind_stats w path path node m h
  | true =>
    simp only [if_true] at h ⊢
    cases hpd : parent_dir wpath with
    | none =>
      rw [hpd] at h
      exact regular_create_stats w path wpath node m h
    | some dir =>
      rw [hpd] at h
      dsimp only at h ⊢
      split
      · next hc =>
        rw [if_pos hc] at h
        simp at h
      · next hc =>
        rw [if_neg hc] at h
        exact regular_create_stats w path wpath node _ h

theorem mm_apply_symlink_stats (w : World) (path wpath : String) (node : Node) (m : Machine)
    (h : (mm_apply_symlink w path wpath node m).1 = 0) :
    (mm_apply_symlink w path wpath node m).2.ctx.stats =
      ⟨m.ctx.stats.nodes_mounted + 1, m.ctx.stats.nodes_fail, m.ctx.stats.nodes_whiteout⟩ := by
  unfold mm_apply_symlink at h ⊢
  cases hmp : node.module_path with
  | none =>
    rw [hmp] at h
    simp at h
  | some mp =>
    rw [hmp] at h
    dsimp only at h ⊢
    split
    · next hc =>
      rw [if_pos hc] at h
      simp at h
    · simp only [Machine.inc_mounted, mm_clone_symlink_ctx]

theorem dir_finish_stats (w : World) (path wpath : String) (node : Node) (create_tmp : Bool)
    (m : Machine) (h : (dir_finish w path wpath node create_tmp m).1 = 0) :
    (dir_finish w path wpath node create_tmp m).2.ctx.stats =
      ⟨m.ctx.stats.nodes_mounted + 1, m.ctx.stats.nodes_fail, m.ctx.stats.nodes_whiteout⟩ := by
  unfold dir_finish at h ⊢
  cases create_tmp with
  | false => rfl
  | true =>
    simp only [if_true] at h ⊢
    by_cases hb : w.sys_errno (m.emit (Op.mount_remount_ro wpath)).trace
        (Op.mount_move wpath path) ≠ 0
    · rw [if_pos hb] at h
      simp at h
    · rw [if_neg hb]
      repeat' (first | rfl | split | dsimp only)

theorem child_failed_stats (m : Machine) (mn : Option String) :
    (child_failed m mn).ctx.stats.nodes_fail = m.ctx.stats.nodes_fail + 1 := by
  unfold child_failed
  cases mn <;> rfl

theorem mirror_children_ctx {mirror : String → Machine → Option (Int × Machine)}
    (hm : ∀ de m r m', mirror de m = some (r, m') → m'.ctx = m.ctx)
    (entries : List String) (m : Machine) (r : Int) (m' : Machine)
    (h : mirror_children mirror entries m = some (r, m')) : m'.ctx = m.ctx := by
  obtain ⟨_, h1, _⟩ := mirror_children_inv (fun _ m1 => m1.ctx = m.ctx)
    (fun _ _ _ _ h => h) (fun de _ m1 r1 m2 _ h hs => (hm de m1 r1 m2 hs).trans h)
    entries m r m' rfl h
  exact h1

theorem mm_mirror_entry_ctx (w : World) (fuel : Nat) :
    ∀ p wk n m r m', mm_mirror_entry w fuel p wk n m = some (r, m') → m'.ctx = m.ctx := by
  induction fuel with
  | zero => intro p wk n m r m' h; simp [mm_mirror_entry] at h
  | succ fuel ih =>
    intro p wk n m r m' h
    rcases mm_mirror_entry_cases h with ⟨_, _, rfl⟩ | ⟨src, dst, _, _, hc⟩
    · rfl
    rcases hc with ⟨_, _, rfl⟩ | ⟨st, _, hc⟩
    · rfl
    rcases hc with ⟨_, he⟩ | ⟨_, _, _, _, rfl⟩ | ⟨_, _, _, _, _, rfl⟩ |
      ⟨_, _, _, entries, _, hl⟩ | ⟨_, _, _, he⟩ | ⟨_, _, _, _, rfl⟩
    · have h1 := mirror_regular_ctx w src dst st m
      rw [← he] at h1
      exact h1
    · exact mirror_mkdir_ctx w src dst st m
    · exact mirror_mkdir_ctx w src dst st m
    · exact (mirror_children_ctx (fun de m1 r1 m2 hs => ih _ _ de m1 r1 m2 hs) _ _ r m' hl).trans
        (mirror_mkdir_ctx w src dst st m)
    · have h1 := mirror_symlink_ctx w src dst m
      rw [← he] at h1
      exact h1
    · rfl

/-! ### The two child passes -/

theorem contrib_skip (f : Node → Nat) (p : List Nat) (j : Nat) {c : Node}
    (h : c.skip = true) : contrib f p j c = 0 := by
  unfold contrib
  rw [if_neg]
  rintro ⟨h1, _⟩
  rw [h] at h1
  cases h1

theorem contrib_done (f : Node → Nat) (p : List Nat) (j : Nat) {c : Node}
    (h : c.skip = false) (hd : c.done = true) : contrib f p j c = f c := by
  unfold contrib
  rw [if_pos ⟨h, Or.inl hd⟩]

theorem contrib_undone (f : Node → Nat) {p : List Nat} {j : Nat} {c : Node}
    (hd : c.done = false) (hj : j ∈ p) : contrib f p j c = 0 := by
  unfold contrib
  rw [if_neg]
  rintro ⟨_, h | h⟩
  · rw [hd] at h
    cases h
  · exact h hj

theorem contrib_visited (f : Node → Nat) {p : List Nat} {j : Nat} {c : Node}
    (h : c.skip = false) (hj : j ∉ p) : contrib f p j c = f c := by
  unfold contrib
  rw [if_pos ⟨h, Or.inr hj⟩]

theorem Node.Same.length_eq {a b : Node} (h : a.Same b) :
    b.children.length = a.children.length := by
  have := congrArg List.length h.1.2.2.2.2.2.2.2
  simpa using this

theorem dir_children_loop_acc {ap : ApplyFn} {mi : MirrorFn} (hok : ApplyOk ap)
    (hacc : ApplyAcc ap)
    (hmi : ∀ p wk n m r m', mi p wk n m = some (r, m') → m'.ctx = m.ctx ∧ m.Le m')
    {path wpath : String} {now_tmp : Bool} {node0 : Node} {m0 : Machine}
    (hclean : ∀ c ∈ node0.children, c.done = false ∧ c.clean = true)
    {entries : List String} (hnd : entries.Nodup)
    {r : Int} {m' : Machine} {node' : Node}
    (h : dir_children_loop ap mi path wpath now_tmp entries m0 node0 = some (r, m', node'))
    (hr : r = 0) :
    AccInv1 m0 node0 (List.range node0.children.length) [] m' node' := by
  have key := dir_children_loop_inv
    (AccInv1 m0 node0 (List.range node0.children.length))
    ?_ ?_ ?_ ?_ ?_ entries m0 node0 r m' node' ?_ h
  · obtain ⟨rest, hinv, hr', _⟩ := key
    rw [hr' hr] at hinv
    exact hinv
  · -- "." and ".."
    rintro de rest m n _ ⟨h1, h2, h3, h4, h5, h6⟩
    exact ⟨h1, h2, (List.nodup_cons.mp h3).2,
      fun i c hc hd hm => h4 i c hc hd (List.mem_cons_of_mem _ hm), h5, h6⟩
  · -- skipped child
    rintro de rest m n i c _ ⟨h1, h2, h3, h4, h5, h6⟩ hf hsk
    obtain ⟨hi, hname⟩ := node_child_find_some hf
    obtain ⟨hde, hrest⟩ := List.nodup_cons.mp h3
    refine ⟨h1, h2.same_trans (Node.same_set_child hi (Node.sim_set_done c true)), hrest,
      ?_, ?_, ?_⟩
    · intro j c' hc' hd
      by_cases hij : i = j
      · subst hij
        rw [Node.getElem?_set_child_self _ hi] at hc'
        cases hc'
        rw [Node.name_set_done, hname]
        exact hde
      · rw [Node.getElem?_set_child_ne _ _ hij] at hc'
        exact fun hm => h4 j c' hc' hd (List.mem_cons_of_mem _ hm)
    · intro j c' hc' hd
      by_cases hij : i = j
      · subst hij
        rw [Node.getElem?_set_child_self _ hi] at hc'
        cases hc'
        simp at hd
      · rw [Node.getElem?_set_child_ne _ _ hij] at hc'
        exact h5 j c' hc' hd
    · intro hfail
      obtain ⟨e1, e2⟩ := h6 hfail
      have s1 := accounted_set Node.live_count (List.range node0.children.length)
        n.children 0 i c (c.set_done true) hi
      have s2 := accounted_set Node.live_whiteouts (List.range node0.children.length)
        n.children 0 i c (c.set_done true) hi
      rw [contrib_skip _ _ _ hsk, contrib_skip _ _ _ (by simpa using hsk)] at s1 s2
      rw [Node.children_set_child]
      omega
  · -- child found by name
    rintro de rest m n i c r1 m1 c1 _ ⟨h1, h2, h3, h4, h5, h6⟩ hf hsk ha
    obtain ⟨hi, hname⟩ := node_child_find_some hf
    obtain ⟨hde, hrest⟩ := List.nodup_cons.mp h3
    obtain ⟨hle1, hsame1, _⟩ := hok _ _ _ _ _ _ _ _ ha
    have hcd : c.done = false := by
      cases hd : c.done with
      | false => rfl
      | true => exact absurd (by rw [hname]; exact List.mem_cons_self _ _) (h4 i c hi hd)
    have hcc : c.clean = true := h5 i c hi hcd
    have hiall : i ∈ List.range node0.children.length := by
      rw [List.mem_range, ← h2.length_eq]
      exact (List.getElem?_eq_some.mp hi).1
    have hc1s : c1.skip = false := by rw [hsame1.2.1]; simpa using hsk
    have hc1d : c1.done = true := by rw [hsame1.2.2]; simp
    refine ⟨?_, h2.same_trans (Node.same_set_child hi
      ((Node.sim_set_done c true).sim_trans hsame1.1)), hrest, ?_, ?_, ?_⟩
    · split
      · exact (h1.trans hle1).trans (child_failed_le _ _)
      · exact h1.trans hle1
    · intro j c' hc' hd
      by_cases hij : i = j
      · subst hij
        rw [Node.getElem?_set_child_self _ hi] at hc'
        cases hc'
        rw [hsame1.1.1, Node.name_set_done, hname]
        exact hde
      · rw [Node.getElem?_set_child_ne _ _ hij] at hc'
        exact fun hm => h4 j c' hc' hd (List.mem_cons_of_mem _ hm)
    · intro j c' hc' hd
      by_cases hij : i = j
      · subst hij
        rw [Node.getElem?_set_child_self _ hi] at hc'
        cases hc'
        rw [hc1d] at hd
        cases hd
      · rw [Node.getElem?_set_child_ne _ _ hij] at hc'
        exact h5 j c' hc' hd
    · intro hfail
      have l0 := h1.2.2.2.2.2.1
      have l1 := hle1.2.2.2.2.2.1
      have hr1 : r1 = 0 := by
        by_contra hne
        rw [if_pos hne, child_failed_stats] at hfail
        omega
      subst hr1
      simp only [ne_eq, not_true_eq_false, if_false] at hfail ⊢
      obtain ⟨e1, e2⟩ := h6 (by omega)
      obtain ⟨f1, f2⟩ := hacc _ _ _ _ _ _ _ ha (by simpa using hcc) (by omega)
      have s1 := accounted_set Node.live_count (List.range node0.children.length)
        n.children 0 i c c1 hi
      have s2 := accounted_set Node.live_whiteouts (List.range node0.children.length)
        n.children 0 i c c1 hi
      rw [Nat.zero_add, contrib_undone _ hcd hiall, contrib_done _ _ _ hc1s hc1d] at s1 s2
      rw [Node.children_set_child]
      omega
  · -- mirrored entry
    rintro de rest m n r1 m1 _ ⟨h1, h2, h3, h4, h5, h6⟩ _ _ hm
    obtain ⟨hctx, hle⟩ := hmi _ _ _ _ _ _ hm
    refine ⟨?_, h2, (List.nodup_cons.mp h3).2,
      fun i c hc hd hmem => h4 i c hc hd (List.mem_cons_of_mem _ hmem), h5, ?_⟩
    · split
      · exact (h1.trans hle).trans (child_failed_le _ _)
      · exact h1.trans hle
    · intro hfail
      have l0 := h1.2.2.2.2.2.1
      have hr1 : r1 = 0 := by
        by_contra hne
        rw [if_pos hne, child_failed_stats, hctx] at hfail
        omega
      subst hr1
      simp only [ne_eq, not_true_eq_false, if_false] at hfail ⊢
      rw [hctx] at hfail ⊢
      exact h6 hfail
  · -- entry naming no child, outside an overlay
    rintro de rest m n _ ⟨h1, h2, h3, h4, h5, h6⟩ _ _
    exact ⟨h1, h2, (List.nodup_cons.mp h3).2,
      fun i c hc hd hm => h4 i c hc hd (List.mem_cons_of_mem _ hm), h5, h6⟩
  · -- initially
    refine ⟨Machine.Le.rfl_le _, Node.Same.same_refl _, hnd, ?_, ?_, ?_⟩
    · intro i c hc hd
      rw [(hclean c (List.getElem?_mem hc)).1] at hd
      cases hd
    · intro i c hc _
      exact (hclean c (List.getElem?_mem hc)).2
    · intro _
      rw [accounted_zero _ _ _ 0 (fun c hc => (hclean c hc).1)
          (fun j _ hj => List.mem_range.mpr (by omega)),
        accounted_zero _ _ _ 0 (fun c hc => (hclean c hc).1)
          (fun j _ hj => List.mem_range.mpr (by omega))]
      omega

theorem accInv1_init (m0 : Machine) (node0 : Node)
    (hclean : ∀ c ∈ node0.children, c.done = false ∧ c.clean = true) :
    AccInv1 m0 node0 (List.range node0.children.length) [] m0 node0 := by
  refine ⟨Machine.Le.rfl_le _, Node.Same.same_refl _, List.nodup_nil, ?_, ?_, ?_⟩
  · intro i c _ _ hm
    cases hm
  · intro i c hc _
    exact (hclean c (List.getElem?_mem hc)).2
  · intro _
    rw [accounted_zero _ _ _ 0 (fun c hc => (hclean c hc).1)
        (fun j _ hj => List.mem_range.mpr (by omega)),
      accounted_zero _ _ _ 0 (fun c hc => (hclean c hc).1)
        (fun j _ hj => List.mem_range.mpr (by omega))]
    omega

theorem remaining_children_loop_acc {ap : ApplyFn} (hok : ApplyOk ap) (hacc : ApplyAcc ap)
    {path wpath : String} {now_tmp : Bool} {mb : Machine} {nodeRef : Node}
    {idxs : List Nat} {m0 : Machine} {n0 : Node}
    (hinit : AccInv2 mb nodeRef idxs m0 n0)
    {r : Int} {m' : Machine} {node' : Node}
    (h : remaining_children_loop ap path wpath now_tmp idxs m0 n0 = some (r, m', node'))
    (hr : r = 0) : AccInv2 mb nodeRef [] m' node' := by
  have key := remaining_children_loop_inv (AccInv2 mb nodeRef)
    ?_ ?_ ?_ idxs m0 n0 r m' node' hinit h
  · obtain ⟨rest, hinv, hr', _⟩ := key
    rw [hr' hr] at hinv
    exact hinv
  · -- index without child
    rintro i rest m n ⟨h1, h2, h3, h4, h5⟩ hc
    refine ⟨h1, h2, (List.nodup_cons.mp h3).2,
      fun j c hj => h4 j c (List.mem_cons_of_mem _ hj), ?_⟩
    intro hfail
    have hlen : 0 + n.children.length ≤ i := by
      rw [Nat.zero_add]
      exact List.getElem?_eq_none_iff.mp hc
    have := h5 hfail
    rw [accounted_pending_far _ _ _ _ _ (Or.inr hlen),
      accounted_pending_far _ _ _ _ _ (Or.inr hlen)] at this
    exact this
  · -- child skipped or done
    rintro i rest m n c ⟨h1, h2, h3, h4, h5⟩ hc hsd
    obtain ⟨hi, hrest⟩ := List.nodup_cons.mp h3
    refine ⟨h1, h2, hrest, fun j c hj => h4 j c (List.mem_cons_of_mem _ hj), ?_⟩
    intro hfail
    obtain ⟨e1, e2⟩ := h5 hfail
    have s1 := accounted_pending Node.live_count rest n.children 0 i c hc
    have s2 := accounted_pending Node.live_whiteouts rest n.children 0 i c hc
    rw [Nat.zero_add] at s1 s2
    have hcon : ∀ f : Node → Nat, contrib f (i :: rest) i c = contrib f rest i c := by
      intro f
      cases hsk : c.skip with
      | true => rw [contrib_skip _ _ _ hsk, contrib_skip _ _ _ hsk]
      | false =>
        have hd : c.done = true := by
          rw [hsk] at hsd
          simpa using hsd
        rw [contrib_done _ _ _ hsk hd, contrib_done _ _ _ hsk hd]
    rw [hcon] at s1 s2
    omega
  · -- remaining child applied
    rintro i rest m n c r1 m1 c1 ⟨h1, h2, h3, h4, h5⟩ hc hsk hdn ha
    obtain ⟨hi, hrest⟩ := List.nodup_cons.mp h3
    obtain ⟨hle1, hsame1, _⟩ := hok _ _ _ _ _ _ _ _ ha
    have hcc : c.clean = true := h4 i c (List.mem_cons_self _ _) hc hdn
    have hc1s : c1.skip = false := by rw [hsame1.2.1]; exact hsk
    refine ⟨?_, h2.same_trans (Node.same_set_child hc hsame1.1), hrest, ?_, ?_⟩
    · split
      · exact (h1.trans hle1).trans (child_failed_le _ _)
      · exact h1.trans hle1
    · intro j c' hj hc' hd
      have hij : i ≠ j := by
        intro e
        subst e
        exact hi hj
      rw [Node.getElem?_set_child_ne _ _ hij] at hc'
      exact h4 j c' (List.mem_cons_of_mem _ hj) hc' hd
    · intro hfail
      have l0 := h1.2.2.2.2.2.1
      have l1 := hle1.2.2.2.2.2.1
      have hr1 : r1 = 0 := by
        by_contra hne
        rw [if_pos hne, child_failed_stats] at hfail
        omega
      subst hr1
      simp only [ne_eq, not_true_eq_false, if_false] at hfail ⊢
      obtain ⟨e1, e2⟩ := h5 (by omega)
      obtain ⟨f1, f2⟩ := hacc _ _ _ _ _ _ _ ha hcc (by omega)
      have p1 := accounted_pending Node.live_count rest n.children 0 i c hc
      have p2 := accounted_pending Node.live_whiteouts rest n.children 0 i c hc
      have s1 := accounted_set Node.live_count rest n.children 0 i c c1 hc
      have s2 := accounted_set Node.live_whiteouts rest n.children 0 i c c1 hc
      rw [Nat.zero_add] at p1 p2 s1 s2
      rw [contrib_undone _ hdn (List.mem_cons_self _ _), contrib_visited _ hsk hi] at p1 p2
      rw [contrib_visited _ hsk hi, contrib_visited _ hc1s hi] at s1 s2
      rw [Node.children_set_child]
      omega

theorem decide_create_tmp_children (P : Node → Prop) (hP : ∀ c, P c → P (c.set_skip true))
    (w : World) (tr : List Op) (node : Node) (path : String) (has_tmpfs : Bool)
    (h : ∀ c ∈ node.children, P c) :
    ∀ c ∈ (decide_create_tmp w tr node path has_tmpfs).2.children, P c := by
  have hcheck : ∀ (hmp : Bool) (cs : List Node), (∀ c ∈ cs, P c) →
      ∀ c ∈ (check_children w tr hmp path cs).2, P c := by
    intro hmp cs
    induction cs with
    | nil => intro _ c hc; simp [check_children] at hc
    | cons d ds ih =>
      intro hcs
      have ih' := ih (fun c hc => hcs c (List.mem_cons_of_mem _ hc))
      have hd := hcs d (List.mem_cons_self _ _)
      unfold check_children
      repeat' split
      all_goals
        intro c hc
        rcases List.mem_cons.mp hc with rfl | hc
        · first | exact hd | exact hP _ hd
        · first | exact ih' c hc | exact hcs c (List.mem_cons_of_mem _ hc)
  unfold decide_create_tmp
  repeat' split
  · exact h
  · unfold mm_check_need_tmpfs
    rw [Node.children_set_children]
    exact hcheck _ _ h
  · exact h

/-- On a clean tree, with directory listings that repeat no name, a successful
apply that records no failure adds to `nodes_mounted + nodes_whiteout` the
number of nodes outside skipped subtrees and to `nodes_whiteout` the number of
such WHITEOUT nodes. -/
theorem mm_apply_node_recursive_acc (w : World)
    (hnodup : ∀ t p l, w.opendir t p = some l → l.Nodup) (fuel : Nat) :
    ApplyAcc (fun b wb c h m => mm_apply_node_recursive w fuel b wb c h m) := by
  induction fuel with
  | zero => intro b wb c h m m' c' hh; simp [mm_apply_node_recursive] at hh
  | succ fuel ih =>
    intro b wb c h m m' c' hh hclean hfail
    have hok := mm_apply_node_recursive_ok w fuel
    have hmok := mm_mirror_entry_ok w fuel
    rcases mm_apply_node_recursive_cases hh with ⟨_, h0, _⟩ | ⟨path, wpath, _, _, hc⟩
    · cases h0
    rcases hc with ⟨hty, hr, hm, hn⟩ | ⟨hty, hr, hm, hn⟩ | ⟨hty, _, hm, hn⟩ | ⟨hty, hd⟩
    · have hs := mm_apply_regular_file_stats w path wpath c h m hr.symm
      have hl := Node.clean_leaf hclean (by rw [hty]; decide)
      rw [hn, hm, hs, Node.live_count_eq, Node.live_whiteouts_eq, hl, hty]
      simp [Node.live_countList, Node.live_whiteoutsList]
      omega
    · have hs := mm_apply_symlink_stats w path wpath c m hr.symm
      have hl := Node.clean_leaf hclean (by rw [hty]; decide)
      rw [hn, hm, hs, Node.live_count_eq, Node.live_whiteouts_eq, hl, hty]
      simp [Node.live_countList, Node.live_whiteoutsList]
      omega
    · have hl := Node.clean_leaf hclean (by rw [hty]; decide)
      rw [hn, hm, Node.live_count_eq, Node.live_whiteouts_eq, hl, hty]
      simp [Node.live_countList, Node.live_whiteoutsList, Machine.inc_whiteout]
      omega
    · have hsame1 := decide_create_tmp_same w m.trace c path h
      have hclean1 : ∀ d ∈ (decide_create_tmp w m.trace c path h).2.children,
          d.done = false ∧ d.clean = true :=
        decide_create_tmp_children (fun d => d.done = false ∧ d.clean = true)
          (fun d hd => by simpa using hd) w m.trace c path h
          (fun d hd => (Node.clean_children hclean d hd).2)
      generalize (decide_create_tmp w m.trace c path h).2 = node1 at hd hsame1 hclean1
      generalize (decide_create_tmp w m.trace c path h).1 = create_tmp at hd
      generalize (h || create_tmp) = now_tmp at hd
      rcases dir_body_cases hd with ⟨_, h0, _⟩ | ⟨_, hp⟩
      · cases h0
      have hctx0 := dir_enter_ctx w path wpath node1 create_tmp now_tmp m
      generalize (dir_enter w path wpath node1 create_tmp now_tmp m).2 = m0 at hp hctx0
      obtain ⟨r1, m1, n1, h1, hc⟩ := dir_passes_cases hp
      rcases hc with ⟨_, h0, _⟩ | ⟨hr1, r2, m2, n2, h2, hc⟩
      · cases h0
      rcases hc with ⟨_, h0, _⟩ | ⟨hr2, hr, hm, hn⟩
      · cases h0
      subst hr1 hr2
      have hmi : ∀ p wk n m r m',
          mm_mirror_entry w fuel p wk n m = some (r, m') → m'.ctx = m.ctx ∧ m.Le m' :=
        fun p wk n m r m' hmm =>
          ⟨mm_mirror_entry_ctx w fuel p wk n m r m' hmm, (hmok p wk n m r m' hmm).1⟩
      -- first pass
      have hp1 : AccInv1 m0 node1 (List.range node1.children.length) [] m1 n1 := by
        rcases mm_process_dir_children_cases h1 with ⟨_, _, rfl, rfl⟩ | ⟨_, _, hc1⟩
        · exact accInv1_init _ _ hclean1
        rcases hc1 with ⟨_, _, rfl, rfl⟩ | ⟨entries, ho, hl⟩
        · exact accInv1_init _ _ hclean1
        · exact dir_children_loop_acc hok ih hmi hclean1 (hnodup _ _ _ ho) hl rfl
      obtain ⟨p1, p2, _, _, p5, p6⟩ := hp1
      -- second pass
      have hinit : AccInv2 m0 node1 (List.range n1.child_count) m1 n1 := by
        refine ⟨p1, p2, List.nodup_range _, fun i d _ hd0 hdd => p5 i d hd0 hdd, ?_⟩
        unfold Node.child_count
        rw [p2.length_eq]
        exact p6
      obtain ⟨q1, q2, _, _, q5⟩ := remaining_children_loop_acc hok ih hinit h2 rfl
      have hs := dir_finish_stats w path wpath n2 create_tmp m2 hr.symm
      rw [hm, hs] at hfail ⊢
      dsimp only at hfail ⊢
      rw [← hctx0] at hfail ⊢
      obtain ⟨e1, e2⟩ := q5 hfail
      rw [accounted_nil_live_count] at e1
      rw [accounted_nil_live_whiteouts] at e2
      have hty2 : n2.type = NFT_DIRECTORY := by
        rw [q2.1.2.1, hsame1.1.2.1]
        exact hty
      rw [hn, Node.live_count_eq, Node.live_whiteouts_eq, hty2]
      simp only [reduceCtorEq, if_false]
      omega

/-! ## Every node outside a skipped subtree is applied once -/

mutual
theorem Node.count_live_skipped : ∀ n : Node, n.count = n.live_count + n.skipped_count
  | .mk _ _ cs _ _ _ _ _ => by
    simp only [Node.count, Node.live_count, Node.skipped_count]
    have := Node.countList_live_skipped cs
    omega
theorem Node.countList_live_skipped : ∀ l : List Node,
    Node.countList l = Node.live_countList l + Node.skipped_countList l
  | [] => rfl
  | c :: cs => by
    simp only [Node.countList, Node.live_countList, Node.skipped_countList]
    have h1 := Node.count_live_skipped c
    have h2 := Node.countList_live_skipped cs
    cases c.skip <;> simp <;> omega
end

/-- C10: on a tree in which no descendant carries a `skip` or `done` mark and
only directories have children, with directory listings that return no name
twice: if the apply returns success and leaves `nodes_fail` unchanged, then
`nodes_mounted + nodes_whiteout` has increased by exactly the number of nodes
that are not inside the subtree of a skipped child (as the oracle has marked
them during the run), and `nodes_whiteout` by exactly the number of such
WHITEOUT nodes: each of these nodes has been applied exactly once.  Uniqueness
of the child names is not needed. -/
theorem apply_counts_live_nodes (w : World)
    (hnodup : ∀ t p l, w.opendir t p = some l → l.Nodup)
    (fuel : Nat) (base wbase : String) (node : Node) (has_tmpfs : Bool)
    (m m' : Machine) (node' : Node) (hclean : node.clean = true)
    (h : mm_apply_node_recursive w fuel base wbase node has_tmpfs m = some (0, m', node'))
    (hfail : m'.ctx.stats.nodes_fail = m.ctx.stats.nodes_fail) :
    m'.ctx.stats.nodes_mounted + m'.ctx.stats.nodes_whiteout =
      m.ctx.stats.nodes_mounted + m.ctx.stats.nodes_whiteout + node'.live_count ∧
    m'.ctx.stats.nodes_whiteout = m.ctx.stats.nodes_whiteout + node'.live_whiteouts :=
  mm_apply_node_recursive_acc w hnodup fuel base wbase node has_tmpfs m m' node' h hclean hfail

/-- C3 (as amended): for a built tree as the builder leaves it (no `skip` or
`done` mark, only directories have children), with directory listings that
return no name twice and counters starting at zero: if `magic_mount` returns 0
and `nodes_fail` is still zero afterwards, then `nodes_mounted + nodes_whiteout
+ nodes_fail` plus the number of nodes in skipped subtrees (in the tree as the
run leaves it) equals the number of nodes of the tree. -/
theorem magic_mount_accounts_for_every_node (w : World)
    (hnodup : ∀ t p l, w.opendir t p = some l → l.Nodup)
    (fuel : Nat) (ctx ctx' : MagicMount) (tmp_root : String) (tr tr' : List Op)
    (root : Node) (hroot : w.build_mount_tree ctx = some root)
    (hclean : root.clean = true) (hzero : ctx.stats = ⟨0, 0, 0⟩)
    (h : magic_mount w fuel (some ctx) tmp_root tr = some (0, some ctx', tr'))
    (hfail : ctx'.stats.nodes_fail = 0) :
    ∃ tmp_dir m1 root', mm_apply_node_recursive w fuel "/" tmp_dir root false
        ⟨ctx, tr ++ [Op.mkdir_p tmp_dir] ++ [Op.mount_tmpfs ctx.mount_source tmp_dir] ++
          [Op.mount_private tmp_dir]⟩ = some (0, m1, root') ∧
      ctx' = m1.ctx ∧
      ctx'.stats.nodes_mounted + ctx'.stats.nodes_whiteout + ctx'.stats.nodes_fail +
        root'.skipped_count = root.count := by
  unfold magic_mount at h
  dsimp only at h
  rw [hroot] at h
  dsimp only at h
  cases hj : w.path_join tmp_root "workdir" with
  | none => rw [hj] at h; simp at h
  | some tmp_dir =>
    rw [hj] at h
    dsimp only at h
    split at h
    · simp at h
    · split at h
      · simp at h
      · cases ha : mm_apply_node_recursive w fuel "/" tmp_dir root false
            ⟨ctx, tr ++ [Op.mkdir_p tmp_dir] ++ [Op.mount_tmpfs ctx.mount_source tmp_dir] ++
              [Op.mount_private tmp_dir]⟩ with
        | none => rw [ha] at h; cases h
        | some res =>
          obtain ⟨rc, m1, root'⟩ := res
          rw [ha] at h
          simp only [Option.some.injEq, Prod.mk.injEq] at h
          obtain ⟨hrc, hctx, _⟩ := h
          subst hrc
          simp only [ne_eq, not_true_eq_false, if_false] at hctx
          subst hctx
          refine ⟨tmp_dir, m1, root', ha, rfl, ?_⟩
          have hf0 : m1.ctx.stats.nodes_fail = 0 := hfail
          obtain ⟨e1, _⟩ := mm_apply_node_recursive_acc w hnodup fuel "/" tmp_dir root false _
            m1 root' ha hclean (by rw [hf0, hzero])
          have hsame := (mm_apply_node_recursive_ok w fuel _ _ _ _ _ _ _ _ ha).2.1
          have hcount := Node.count_live_skipped root'
          rw [hsame.1.2.2.2.2.2.1] at hcount
          rw [hzero] at e1
          dsimp only at e1
          omega

/-! ## Creations between two machine states -/

theorem creations_append (l1 l2 : List Op) :
    creations (l1 ++ l2) = creations l1 ++ creations l2 := by
  simp [creations, List.filterMap_append]

namespace Machine

theorem made_of_trace {m m' : Machine} {l : List Op} (h : m'.trace = m.trace ++ l)
    (q : String) : m.made m' q = (creations l).count q := by
  unfold made
  rw [h, List.drop_left]

theorem made_self (m : Machine) (q : String) : m.made m q = 0 := by
  rw [made_of_trace (l := []) (by simp) q]
  rfl

theorem made_congr {m m1 m2 : Machine} (h : m1.trace = m2.trace) (q : String) :
    m.made m1 q = m.made m2 q := by
  unfold made
  rw [h]

theorem made_trans {m m1 m2 : Machine} (h1 : ∃ l, m1.trace = m.trace ++ l)
    (h2 : ∃ l, m2.trace = m1.trace ++ l) (q : String) :
    m.made m2 q = m.made m1 q + m1.made m2 q := by
  obtain ⟨l1, e1⟩ := h1
  obtain ⟨l2, e2⟩ := h2
  rw [made_of_trace e1, made_of_trace e2,
    made_of_trace (l := l1 ++ l2) (by rw [e2, e1, List.append_assoc]), creations_append,
    List.count_append]

theorem Le.made_split {m m1 m2 : Machine} (h1 : m.Le m1) (h2 : m1.Le m2) (q : String) :
    m.made m2 q = m.made m1 q + m1.made m2 q :=
  Machine.made_trans h1.2.2.2.1 h2.2.2.2.1 q

theorem made_emit (m : Machine) (op : Op) (q : String) :
    m.made (m.emit op) q = if op.creates = some q then 1 else 0 := by
  rw [made_of_trace (l := [op]) rfl]
  cases h : op.creates with
  | none => simp [creations, h]
  | some p =>
    by_cases hp : p = q
    · simp [creations, h, hp]
    · have : ¬(p == q) = true := by simpa using hp
      simp [creations, h, hp, List.count_cons, this]

end Machine

/-! ## Paths below a working path -/

theorem Under.under_trans {w : World} {a b c : String} (h1 : Under w a b) (h2 : Under w b c) :
    Under w a c := by
  induction h2 with
  | self => exact h1
  | join _ hj ih => exact Under.join ih hj

theorem Op.within_of_none {w : World} {root : String} {op : Op} (h : op.creates = none) :
    op.within w root := by
  intro p hp
  rw [h] at hp
  cases hp

theorem Op.within_of_self {w : World} {root : String} {op : Op}
    (h : op.creates = some root) : op.within w root := by
  intro p hp
  rw [h] at hp
  cases hp
  exact Under.self

theorem Op.within_mono {w : World} {root root' : String} (h : Under w root root') {op : Op}
    (ho : op.within w root') : op.within w root :=
  fun p hp => h.under_trans (ho p hp)

/-! ## What the application of one child and the mirror of one entry create -/

theorem mm_apply_node_recursive_staged_at (w : World) (fuel : Nat) (base wbase : String)
    (node : Node) (m : Machine) (r : Int) (m' : Machine) (node' : Node) (wp : String)
    (hwp : w.path_join wbase node.name = some wp)
    (h : mm_apply_node_recursive w fuel base wbase node true m = some (r, m', node')) :
    m.Ext (Op.staged w wp) m' := by
  cases fuel with
  | zero => simp [mm_apply_node_recursive] at h
  | succ fuel =>
    rcases mm_apply_node_recursive_cases h with ⟨_, _, rfl, _⟩ | ⟨path, wpath, _, hj, hc⟩
    · exact Machine.Ext.rfl_ext _ _
    rw [hwp] at hj
    cases hj
    have hw : Under w wp wp := Under.self
    rcases hc with ⟨_, _, rfl, _⟩ | ⟨_, _, rfl, _⟩ | ⟨_, _, rfl, _⟩ | ⟨_, hd⟩
    · exact mm_apply_regular_file_staged w wp path wp node m hw
    · exact mm_apply_symlink_staged w wp path wp node m hw
    · exact Machine.Ext.rfl_ext _ _
    · rw [decide_create_tmp_true] at hd
      dsimp only [Bool.true_or] at hd
      have hap : ∀ c m1 r1 m2 c1,
          mm_apply_node_recursive w fuel path wp c true m1 = some (r1, m2, c1) →
          m1.Ext (Op.staged w wp) m2 := fun c m1 r1 m2 c1 ha =>
        mm_apply_node_recursive_staged w fuel path wp c m1 r1 m2 c1 wp hw ha
      have hmi : ∀ de m1 r1 m2,
          mm_mirror_entry w fuel path wp de m1 = some (r1, m2) →
          m1.Ext (Op.staged w wp) m2 := fun de m1 r1 m2 hm =>
        mm_mirror_entry_staged w fuel path wp de m1 r1 m2 wp hw hm
      have hent : m.Ext (Op.staged w wp) (dir_enter w path wp node false true m).2 := by
        have hs := mm_setup_dir_tmpfs_staged w wp path wp node m hw
        unfold dir_enter
        repeat' (first | exact hs | split | dsimp only)
      rcases dir_body_cases hd with ⟨_, _, rfl, _⟩ | ⟨_, hp⟩
      · exact hent
      obtain ⟨r1, m1, n1, h1, hc⟩ := dir_passes_cases hp
      have e1 := hent.ext_trans (mm_process_dir_children_ext
        (Op.staged w wp) (fun _ => trivial) hap hmi h1)
      rcases hc with ⟨_, _, rfl, _⟩ | ⟨_, r2, m2, n2, h2, hc⟩
      · exact e1
      have e2 := e1.ext_trans (mm_process_remaining_children_ext
        (Op.staged w wp) (fun _ => trivial) hap h2)
      rcases hc with ⟨_, _, rfl, _⟩ | ⟨_, _, rfl, _⟩
      · exact e2
      · have : (dir_finish w path wp n2 false m2).2 = m2.inc_mounted := by
          simp [dir_finish]
        rw [this]
        exact e2

theorem mm_clone_symlink_within (w : World) (src dst : String) (m : Machine) :
    m.Ext (Op.within w dst) (mm_clone_symlink w src dst m).2 := by
  unfold mm_clone_symlink
  repeat' (first
    | exact Machine.Ext.rfl_ext _ _
    | exact Op.within_of_none rfl
    | exact Op.within_of_self rfl
    | split
    | apply Machine.Ext.ext_emit)

theorem mirror_regular_within (w : World) (src dst : String) (st : Stat) (m : Machine) :
    m.Ext (Op.within w dst) (mirror_regular w src dst st m).2 := by
  unfold mirror_regular
  repeat' (first
    | exact Machine.Ext.rfl_ext _ _
    | exact Op.within_of_none rfl
    | exact Op.within_of_self rfl
    | split
    | apply Machine.Ext.ext_emit)

theorem mirror_mkdir_within (w : World) (src dst : String) (st : Stat) (m : Machine) :
    m.Ext (Op.within w dst) (mirror_mkdir w src dst st m).2 := by
  unfold mirror_mkdir
  repeat' (first
    | exact Machine.Ext.rfl_ext _ _
    | exact Op.within_of_none rfl
    | exact Op.within_of_self rfl
    | split
    | apply Machine.Ext.ext_emit)

theorem mirror_symlink_within (w : World) (src dst : String) (m : Machine) :
    m.Ext (Op.within w dst) (mirror_symlink w src dst m).2 := by
  have := mm_clone_symlink_within w src dst m
  unfold mirror_symlink
  split <;> exact this

/-- The mirror of the entry `name` creates only the entry itself and paths
below it. -/
theorem mm_mirror_entry_within (w : World) (fuel : Nat) :
    ∀ path work name m r m' dst, w.path_join work name = some dst →
      mm_mirror_entry w fuel path work name m = some (r, m') →
      m.Ext (Op.within w dst) m' := by
  induction fuel with
  | zero => intro _ _ _ _ _ _ _ _ h; simp [mm_mirror_entry] at h
  | succ fuel ih =>
    intro path work name m r m' dst0 hd h
    rcases mm_mirror_entry_cases h with ⟨_, _, rfl⟩ | ⟨src, dst, _, hj, hc⟩
    · exact Machine.Ext.rfl_ext _ _
    rw [hd] at hj
    cases hj
    rcases hc with ⟨_, _, rfl⟩ | ⟨st, _, hc⟩
    · exact Machine.Ext.rfl_ext _ _
    rcases hc with ⟨_, he⟩ | ⟨_, _, _, _, rfl⟩ | ⟨_, _, _, _, _, rfl⟩ |
      ⟨_, _, _, entries, _, hl⟩ | ⟨_, _, _, he⟩ | ⟨_, _, _, _, rfl⟩
    · have := mirror_regular_within w src dst0 st m
      rw [← he] at this
      exact this
    · exact mirror_mkdir_within w src dst0 st m
    · exact mirror_mkdir_within w src dst0 st m
    · obtain ⟨_, h1, _⟩ := mirror_children_inv
        (fun _ m1 => m.Ext (Op.within w dst0) m1)
        (fun _ _ _ _ h => h)
        (fun de _ m1 r1 m2 _ h hs => by
          cases hde : w.path_join dst0 de with
          | none =>
            cases fuel with
            | zero => simp [mm_mirror_entry] at hs
            | succ fuel =>
              rcases mm_mirror_entry_cases hs with ⟨_, _, rfl⟩ | ⟨_, _, _, hj, _⟩
              · exact h
              · rw [hde] at hj
                cases hj
          | some d =>
            exact h.ext_trans ((ih src dst0 de m1 r1 m2 d hde hs).ext_mono
              (fun op ho => Op.within_mono (Under.join Under.self hde) ho)))
        entries _ r m' (mirror_mkdir_within w src dst0 st m) hl
      exact h1
    · have := mirror_symlink_within w src dst0 m
      rw [← he] at this
      exact this
    · exact Machine.Ext.rfl_ext _ _

/-! ## Creations that do happen -/

theorem Machine.made_pos_of_emit {m m' : Machine} {op : Op} {q : String}
    (hle : (m.emit op).Le m') (hc : op.creates = some q) : 0 < m.made m' q := by
  rw [Machine.Le.made_split (Machine.le_emit m op) hle, Machine.made_emit, if_pos hc]
  omega

theorem regular_create_made_pos (w : World) (path wpath : String) (node : Node) (m : Machine)
    (h : (regular_create w path wpath node m).1 = 0) :
    0 < m.made (regular_create w path wpath node m).2 wpath := by
  by_cases he : w.sys_errno m.trace (Op.open_creat wpath 0o644) = 0
  · have e : regular_create w path wpath node m =
        regular_bind w path wpath node (m.emit (Op.open_creat wpath 0o644)) := by
      simp [regular_create, he]
    rw [e]
    exact Machine.made_pos_of_emit (regular_bind_le w _ _ _ _) rfl
  · simp [regular_create, he] at h

theorem mm_apply_regular_file_made_pos (w : World) (path wpath : String) (node : Node)
    (m : Machine) (h : (mm_apply_regular_file w path wpath node true m).1 = 0) :
    0 < m.made (mm_apply_regular_file w path wpath node true m).2 wpath := by
  cases hp : parent_dir wpath with
  | none =>
    have e : mm_apply_regular_file w path wpath node true m =
        regular_create w path wpath node m := by
      simp [mm_apply_regular_file, hp]
    rw [e] at h ⊢
    exact regular_create_made_pos w path wpath node m h
  | some dir =>
    by_cases he : w.sys_errno m.trace (Op.mkdir_p dir) = 0
    · have e : mm_apply_regular_file w path wpath node true m =
          regular_create w path wpath node (m.emit (Op.mkdir_p dir)) := by
        simp [mm_apply_regular_file, hp, he]
      rw [e] at h ⊢
      exact Nat.lt_of_lt_of_le (regular_create_made_pos w path wpath node _ h)
        (by
          rw [Machine.Le.made_split (Machine.le_emit m (Op.mkdir_p dir))
            (regular_create_le w path wpath node _)]
          omega)
    · simp [mm_apply_regular_file, hp, he] at h

theorem mm_clone_symlink_made (w : World) (src dst : String) (m : Machine)
    (h : (mm_clone_symlink w src dst m).1 = 0) :
    m.made (mm_clone_symlink w src dst m).2 dst = 1 := by
  cases hr : w.readlink m.trace src with
  | none => simp [mm_clone_symlink, hr] at h
  | some target =>
    by_cases he : w.sys_errno m.trace (Op.symlink target dst) = 0
    · have e : (mm_clone_symlink w src dst m).2 =
          (m.emit (Op.symlink target dst)).emit (Op.copy_selcon src dst) := by
        simp [mm_clone_symlink, hr, he]
      rw [e, Machine.Le.made_split (Machine.le_emit m _) (Machine.le_emit _ _),
        Machine.made_emit, Machine.made_emit]
      simp [Op.creates]
    · simp [mm_clone_symlink, hr, he] at h

theorem mm_apply_symlink_made_pos (w : World) (path wpath : String) (node : Node)
    (m : Machine) (h : (mm_apply_symlink w path wpath node m).1 = 0) :
    0 < m.made (mm_apply_symlink w path wpath node m).2 wpath := by
  cases hmp : node.module_path with
  | none => simp [mm_apply_symlink, hmp] at h
  | some mp =>
    by_cases hc : (mm_clone_symlink w mp wpath m).1 = 0
    · have e : (mm_apply_symlink w path wpath node m).2 =
          (mm_clone_symlink w mp wpath m).2.inc_mounted := by
        simp [mm_apply_symlink, hmp, hc]
      have e2 : m.made (mm_clone_symlink w mp wpath m).2.inc_mounted wpath =
          m.made (mm_clone_symlink w mp wpath m).2 wpath := Machine.made_congr rfl _
      rw [e, e2, mm_clone_symlink_made w mp wpath m hc]
      exact Nat.one_pos
    · simp [mm_apply_symlink, hmp, hc] at h

theorem mm_setup_dir_tmpfs_from_mkdir (w : World) (path wpath : String) (node : Node)
    (m : Machine) : (m.emit (Op.mkdir_p wpath)).Le (mm_setup_dir_tmpfs w path wpath node m).2 := by
  unfold mm_setup_dir_tmpfs
  repeat' (first
    | exact Machine.Le.rfl_le _
    | split
    | apply Machine.Le.emit
    | dsimp only)

theorem mirror_regular_made (w : World) (src dst : String) (st : Stat) (m : Machine)
    (h : (mirror_regular w src dst st m).1 = 0) :
    m.made (mirror_regular w src dst st m).2 dst = 1 := by
  by_cases h1 : w.sys_errno m.trace (Op.open_creat dst (st.st_mode &&& 0o7777)) = 0
  · by_cases h2 : w.sys_errno (m.emit (Op.open_creat dst (st.st_mode &&& 0o7777))).trace
        (Op.mount_bind src dst) = 0
    · have e : (mirror_regular w src dst st m).2 =
          (m.emit (Op.open_creat dst (st.st_mode &&& 0o7777))).emit (Op.mount_bind src dst) := by
        simp [mirror_regular, h1, h2]
      rw [e, Machine.Le.made_split (Machine.le_emit m _) (Machine.le_emit _ _),
        Machine.made_emit, Machine.made_emit]
      simp [Op.creates]
    · simp [mirror_regular, h1, h2] at h
  · simp [mirror_regular, h1] at h

theorem mirror_mkdir_made (w : World) (src dst : String) (st : Stat) (m : Machine)
    (h : (mirror_mkdir w src dst st m).1 = 0) :
    m.made (mirror_mkdir w src dst st m).2 dst = 1 := by
  by_cases h1 : w.sys_errno m.trace (Op.mkdir dst (st.st_mode &&& 0o7777)) ≠ 0 ∧
      w.sys_errno m.trace (Op.mkdir dst (st.st_mode &&& 0o7777)) ≠ EEXIST
  · simp [mirror_mkdir, h1] at h
  · have e : (mirror_mkdir w src dst st m).2 =
        (((m.emit (Op.mkdir dst (st.st_mode &&& 0o7777))).emit
          (Op.chmod dst (st.st_mode &&& 0o7777))).emit
          (Op.chown dst st.st_uid st.st_gid)).emit (Op.copy_selcon src dst) := by
      unfold mirror_mkdir
      rw [if_neg h1]
    rw [e, Machine.Le.made_split (((Machine.le_emit m _).emit _).emit _) (Machine.le_emit _ _),
      Machine.Le.made_split ((Machine.le_emit m _).emit _) (Machine.le_emit _ _),
      Machine.Le.made_split (Machine.le_emit m _) (Machine.le_emit _ _),
      Machine.made_emit, Machine.made_emit, Machine.made_emit, Machine.made_emit]
    simp [Op.creates]

/-- A successful application of a child that is not a WHITEOUT creates its
entry in the working directory. -/
theorem mm_apply_node_recursive_made_pos {w : World} {fuel : Nat} {base wbase : String}
    {c : Node} {m m' : Machine} {c' : Node} {q : String}
    (hq : w.path_join wbase c.name = some q) (hty : c.type ≠ NFT_WHITEOUT)
    (h : mm_apply_node_recursive w fuel base wbase c true m = some (0, m', c')) :
    0 < m.made m' q := by
  cases fuel with
  | zero => simp [mm_apply_node_recursive] at h
  | succ fuel =>
    rcases mm_apply_node_recursive_cases h with ⟨_, hr, _, _⟩ | ⟨path, wpath, _, hj, hc⟩
    · simp at hr
    rw [hq] at hj
    cases hj
    rcases hc with ⟨_, hr, rfl, _⟩ | ⟨_, hr, rfl, _⟩ | ⟨hw, _⟩ | ⟨_, hd⟩
    · exact mm_apply_regular_file_made_pos w path q c m hr.symm
    · exact mm_apply_symlink_made_pos w path q c m hr.symm
    · exact absurd hw hty
    · rw [decide_create_tmp_true] at hd
      have hb : (true || false) = true := rfl
      rw [hb] at hd
      rcases dir_body_cases hd with ⟨_, hr, _, _⟩ | ⟨he, hp⟩
      · simp at hr
      obtain ⟨hle, _, _⟩ := dir_passes_ok (mm_apply_node_recursive_ok w fuel)
        (mm_mirror_entry_ok w fuel) hp
      have hs : (mm_setup_dir_tmpfs w path q c m).1 = 0 := by
        by_cases hs : (mm_setup_dir_tmpfs w path q c m).1 = 0
        · exact hs
        · simp [dir_enter, hs] at he
      have e : (dir_enter w path q c false true m).2 = (mm_setup_dir_tmpfs w path q c m).2 := by
        simp [dir_enter, hs]
      rw [e] at hle
      exact Machine.made_pos_of_emit ((mm_setup_dir_tmpfs_from_mkdir w path q c m).trans hle) rfl

/-- A successful mirror of the entry `n` creates it when `lstat` reads it as a
regular file, a directory or a symlink. -/
theorem mm_mirror_entry_made_pos {w : World} {fuel : Nat} {path work n : String}
    {m m' : Machine} {q : String} (hq : w.path_join work n = some q)
    (h : mm_mirror_entry w fuel path work n m = some (0, m'))
    (hm : mirrored_entry w m.trace path n = true) : 0 < m.made m' q := by
  cases fuel with
  | zero => simp [mm_mirror_entry] at h
  | succ fuel =>
    rcases mm_mirror_entry_cases h with ⟨_, hr, _⟩ | ⟨src, dst, hsrc, hj, hc⟩
    · simp at hr
    rw [hq] at hj
    cases hj
    rcases hc with ⟨hl, _, _⟩ | ⟨st, hl, hc⟩
    · simp [mirrored_entry, hsrc, hl] at hm
    rcases hc with ⟨_, he⟩ | ⟨_, _, _, hr, _⟩ | ⟨_, _, _, _, hr, _⟩ |
      ⟨_, _, hmk, entries, _, hloop⟩ | ⟨_, _, _, he⟩ | ⟨h1, h2, h3, _, _⟩
    · have e1 : (mirror_regular w src q st m).1 = 0 := by rw [← he]
      have e2 : (mirror_regular w src q st m).2 = m' := by rw [← he]
      rw [← e2, mirror_regular_made w src q st m e1]
      exact Nat.one_pos
    · simp at hr
    · simp at hr
    · have hle : (mirror_mkdir w src q st m).2.Le m' :=
        (mirror_children_le (fun de m1 r1 m2 hs => mm_mirror_entry_ok w fuel _ _ _ _ _ _ hs)
          _ _ _ _ hloop).1
      rw [Machine.Le.made_split (mirror_mkdir_le w src q st m) hle,
        mirror_mkdir_made w src q st m hmk]
      omega
    · have e1 : (mirror_symlink w src q m).1 = 0 := by rw [← he]
      have e2 : (mirror_symlink w src q m).2 = m' := by rw [← he]
      have hc : (mm_clone_symlink w src q m).1 = 0 := by
        by_cases hc : (mm_clone_symlink w src q m).1 = 0
        · exact hc
        · simp [mirror_symlink, hc] at e1
      have e3 : (mirror_symlink w src q m).2 = (mm_clone_symlink w src q m).2 := by
        simp [mirror_symlink, hc]
      rw [← e2, e3, mm_clone_symlink_made w src q m hc]
      exact Nat.one_pos
    · simp [mirrored_entry, hsrc, hl, mirrorable, h1, h2, h3] at hm

/-- The mirror of an entry that `lstat` cannot read, or reads as another type
than regular file, directory and symlink, leaves the machine as it is. -/
theorem mm_mirror_entry_nothing {w : World} {fuel : Nat} {path work n : String}
    {m : Machine} {r : Int} {m' : Machine}
    (h : mm_mirror_entry w fuel path work n m = some (r, m'))
    (hm : mirrored_entry w m.trace path n = false) : m' = m := by
  cases fuel with
  | zero => simp [mm_mirror_entry] at h
  | succ fuel =>
    rcases mm_mirror_entry_cases h with ⟨_, _, e⟩ | ⟨src, dst, hsrc, hj, hc⟩
    · exact e
    rcases hc with ⟨_, _, e⟩ | ⟨st, hl, hc⟩
    · exact e
    rcases hc with ⟨h1, _⟩ | ⟨_, h2, _⟩ | ⟨_, h2, _⟩ | ⟨_, h2, _⟩ | ⟨_, _, h3, _⟩ |
      ⟨_, _, _, _, e⟩
    · simp [mirrored_entry, hsrc, hl, mirrorable, h1] at hm
    · simp [mirrored_entry, hsrc, hl, mirrorable, h2] at hm
    · simp [mirrored_entry, hsrc, hl, mirrorable, h2] at hm
    · simp [mirrored_entry, hsrc, hl, mirrorable, h2] at hm
    · simp [mirrored_entry, hsrc, hl, mirrorable, h3] at hm
    · exact e

/-- The application of a WHITEOUT child issues no operation. -/
theorem mm_apply_node_recursive_whiteout_trace {w : World} {fuel : Nat} {base wbase : String}
    {c : Node} {m : Machine} {r : Int} {m' : Machine} {c' : Node}
    (hty : c.type = NFT_WHITEOUT)
    (h : mm_apply_node_recursive w fuel base wbase c true m = some (r, m', c')) :
    m'.trace = m.trace := by
  cases fuel with
  | zero => simp [mm_apply_node_recursive] at h
  | succ fuel =>
    rcases mm_apply_node_recursive_cases h with ⟨_, _, rfl, _⟩ | ⟨path, wpath, _, _, hc⟩
    · rfl
    rcases hc with ⟨ht, _⟩ | ⟨ht, _⟩ | ⟨_, _, rfl, _⟩ | ⟨ht, _⟩
    · rw [hty] at ht; cases ht
    · rw [hty] at ht; cases ht
    · rfl
    · rw [hty] at ht; cases ht

/-- A successful application has joined the working path of the node. -/
theorem mm_apply_node_recursive_join {w : World} {fuel : Nat} {base wbase : String}
    {c : Node} {has_tmpfs : Bool} {m m' : Machine} {c' : Node}
    (h : mm_apply_node_recursive w fuel base wbase c has_tmpfs m = some (0, m', c')) :
    ∃ q, w.path_join wbase c.name = some q := by
  cases fuel with
  | zero => simp [mm_apply_node_recursive] at h
  | succ fuel =>
    rcases mm_apply_node_recursive_cases h with ⟨_, hr, _, _⟩ | ⟨_, wpath, _, hj, _⟩
    · simp at hr
    · exact ⟨wpath, hj⟩

/-- A successful mirror has joined the working path of the entry. -/
theorem mm_mirror_entry_join {w : World} {fuel : Nat} {path work n : String}
    {m m' : Machine} (h : mm_mirror_entry w fuel path work n m = some (0, m')) :
    ∃ q, w.path_join work n = some q := by
  cases fuel with
  | zero => simp [mm_mirror_entry] at h
  | succ fuel =>
    rcases mm_mirror_entry_cases h with ⟨_, hr, _⟩ | ⟨_, dst, _, hj, _⟩
    · simp at hr
    · exact ⟨dst, hj⟩

/-! ## The steps of an overlay directory -/

theorem nodup_names_index {l : List Node} (h : (l.map Node.name).Nodup) {i j : Nat}
    {a b : Node} (hi : l[i]? = some a) (hj : l[j]? = some b) (hn : a.name = b.name) :
    i = j := by
  have h1 : (l.map Node.name)[i]? = some a.name := by simp [hi]
  have h2 : (l.map Node.name)[j]? = some a.name := by simp [hj, hn]
  have hi' : i < (l.map Node.name).length := (List.getElem?_eq_some.mp h1).1
  have hj' : j < (l.map Node.name).length := (List.getElem?_eq_some.mp h2).1
  rcases Nat.lt_trichotomy i j with hlt | heq | hgt
  · exact absurd (h1.trans h2.symm) (List.nodup_iff_getElem?_ne_getElem?.mp h i j hlt hj')
  · exact heq
  · exact absurd (h2.trans h1.symm) (List.nodup_iff_getElem?_ne_getElem?.mp h j i hgt hi')

theorem nodup_names_unique {l : List Node} (h : (l.map Node.name).Nodup) {i : Nat}
    {a b : Node} (hi : l[i]? = some a) (hb : b ∈ l) (hn : b.name = a.name) : b = a := by
  obtain ⟨j, hj⟩ := List.getElem?_of_mem hb
  have := nodup_names_index h hi hj hn.symm
  subst this
  rw [hi] at hj
  cases hj
  rfl

theorem Steps.append {ap : ApplyFn} {mi : MirrorFn} {path wpath : String} :
    ∀ {s1 s2 : List (EntryCall × Machine × Machine)} {m m1 m2 : Machine},
      Steps ap mi path wpath s1 m m1 → Steps ap mi path wpath s2 m1 m2 →
      Steps ap mi path wpath (s1 ++ s2) m m2 := by
  intro s1
  induction s1 with
  | nil =>
    intro s2 m m1 m2 h1 h2
    have e : m1 = m := h1
    subst e
    exact h2
  | cons s rest ih =>
    intro s2 m m1 m2 h1 h2
    obtain ⟨a, b, c⟩ := h1
    exact ⟨a, b, ih c h2⟩

theorem Steps.mem_run {ap : ApplyFn} {mi : MirrorFn} {path wpath : String} :
    ∀ {steps : List (EntryCall × Machine × Machine)} {m m' : Machine},
      Steps ap mi path wpath steps m m' →
      ∀ s ∈ steps, s.1.run ap mi path wpath s.2.1 = some (0, s.2.2) := by
  intro steps
  induction steps with
  | nil => intro m m' _ s hs; cases hs
  | cons s0 rest ih =>
    intro m m' h s hs
    obtain ⟨a, b, c⟩ := h
    rcases List.mem_cons.mp hs with rfl | hs
    · rw [a]
      exact b
    · exact ih c s hs

theorem processed_dot {de : String} (rest : List String) (h : de = "." ∨ de = "..") :
    processed (de :: rest) = processed rest := by
  unfold processed
  rw [List.filter_cons_of_neg (by simp only [decide_eq_true_eq]; exact fun hn => hn h)]

theorem processed_cons {de : String} (rest : List String) (h : ¬(de = "." ∨ de = "..")) :
    processed (de :: rest) = de :: processed rest := by
  unfold processed
  rw [List.filter_cons_of_pos (by simp only [decide_eq_true_eq]; exact h)]

theorem mem_processed {e : String} {l : List String} :
    e ∈ processed l ↔ e ∈ l ∧ ¬(e = "." ∨ e = "..") := by
  simp [processed]

theorem find_child_set_ne {e : String} :
    ∀ (l : List Node) (i : Nat) (c c1 : Node), l[i]? = some c → c1.name = c.name →
      c.name ≠ e → find_child e (l.set i c1) = find_child e l := by
  intro l
  induction l with
  | nil => intro i c c1 h; simp at h
  | cons d ds ih =>
    intro i c c1 h hn hne
    cases i with
    | zero =>
      simp only [List.getElem?_cons_zero, Option.some.injEq] at h
      subst h
      simp only [List.set_cons_zero]
      unfold find_child
      rw [if_neg hne, if_neg (by rw [hn]; exact hne)]
    | succ i =>
      simp only [List.getElem?_cons_succ] at h
      simp only [List.set_cons_succ]
      unfold find_child
      rw [ih i c c1 h hn hne]

theorem listed_call_name (cs : List Node) (de : String) : (listed_call cs de).name = de := by
  unfold listed_call
  cases hf : find_child de cs with
  | none => rfl
  | some ic =>
    obtain ⟨i, c⟩ := ic
    simp only [EntryCall.name, Node.name_set_done]
    exact (find_child_some hf).2

theorem dir_children_loop_steps {ap : ApplyFn} {mi : MirrorFn} (hok : ApplyOk ap)
    (path wpath : String) :
    ∀ (entries : List String) (m : Machine) (n : Node) (m' : Machine) (n' : Node),
      entries.Nodup → (n.children.map Node.name).Nodup →
      (∀ c ∈ n.children, c.skip = false) →
      dir_children_loop ap mi path wpath true entries m n = some (0, m', n') →
      ∃ steps, Steps ap mi path wpath steps m m' ∧
        steps.map Prod.fst = (processed entries).map (listed_call n.children) ∧
        n'.children.length = n.children.length ∧
        ∀ (i : Nat) (c : Node), n.children[i]? = some c →
          ∃ c', n'.children[i]? = some c' ∧ c'.skip = false ∧
            (c.name ∈ processed entries → c'.done = true) ∧
            (c.name ∉ processed entries → c' = c) := by
  intro entries
  induction entries with
  | nil =>
    intro m n m' n' _ _ hskip h
    simp only [dir_children_loop, Option.some.injEq, Prod.mk.injEq] at h
    obtain ⟨_, rfl, rfl⟩ := h
    exact ⟨[], rfl, rfl, rfl, fun i c hc =>
      ⟨c, hc, hskip c (List.getElem?_mem hc), fun hm => by simp [processed] at hm,
        fun _ => rfl⟩⟩
  | cons de rest ih =>
    intro m n m' n' hnd hnames hskip h
    obtain ⟨hde, hrest⟩ := List.nodup_cons.mp hnd
    unfold dir_children_loop at h
    by_cases hd : de = "." ∨ de = ".."
    · rw [if_pos hd] at h
      rw [processed_dot rest hd]
      exact ih m n m' n' hrest hnames hskip h
    · rw [if_neg hd] at h
      rw [processed_cons rest hd]
      have hde' : de ∉ processed rest := fun hm => hde (mem_processed.mp hm).1
      cases hf : node_child_find n de with
      | some ic =>
        obtain ⟨i, c⟩ := ic
        rw [hf] at h
        simp only at h
        obtain ⟨hi, hname⟩ := node_child_find_some hf
        have hsk : c.skip = false := hskip c (List.getElem?_mem hi)
        rw [hsk] at h
        simp only [Bool.false_eq_true, if_false] at h
        cases ha : ap path wpath (c.set_done true) true m with
        | none => rw [ha] at h; cases h
        | some res =>
          obtain ⟨r, m1, c1⟩ := res
          rw [ha] at h
          simp only at h
          by_cases hr : r ≠ 0
          · rw [if_pos hr] at h
            simp at h
          · rw [if_neg hr] at h
            have hr0 : r = 0 := Decidable.of_not_not hr
            subst hr0
            obtain ⟨_, hsame, _⟩ := hok _ _ _ _ _ _ _ _ ha
            have hc1n : c1.name = c.name := by rw [hsame.1.1, Node.name_set_done]
            have hc1s : c1.skip = false := by rw [hsame.2.1, Node.skip_set_done, hsk]
            have hc1d : c1.done = true := by rw [hsame.2.2, Node.done_set_done]
            have hch : (n.set_child i c1).children = n.children.set i c1 := by
              simp [Node.set_child]
            have hnames1 : ((n.set_child i c1).children.map Node.name).Nodup := by
              rw [hch, names_set hi hc1n]
              exact hnames
            have hskip1 : ∀ x ∈ (n.set_child i c1).children, x.skip = false := by
              intro x hx
              rw [hch] at hx
              rcases List.mem_or_eq_of_mem_set hx with hx | rfl
              · exact hskip x hx
              · exact hc1s
            obtain ⟨steps, h1, h2, h3, h4⟩ := ih m1 (n.set_child i c1) m' n' hrest hnames1
              hskip1 h
            refine ⟨(EntryCall.child (c.set_done true), m, m1) :: steps,
              ⟨rfl, by simp [EntryCall.run, ha], h1⟩, ?_, ?_, ?_⟩
            · rw [List.map_cons, List.map_cons, h2]
              congr 1
              · unfold listed_call
                have hf' : find_child de n.children = some (i, c) := hf
                rw [hf']
              · apply List.map_congr_left
                intro e he
                have hne : c.name ≠ e := by
                  rw [hname]
                  rintro rfl
                  exact hde' he
                unfold listed_call
                rw [hch, find_child_set_ne n.children i c c1 hi hc1n hne]
            · rw [h3, hch, List.length_set]
            · intro j c0 hc0
              by_cases hij : i = j
              · subst hij
                rw [hi] at hc0
                cases hc0
                obtain ⟨c', a1, a2, a3, a4⟩ := h4 i c1 (Node.getElem?_set_child_self c1 hi)
                have e : c' = c1 := a4 (by rw [hc1n, hname]; exact hde')
                subst e
                refine ⟨c', a1, a2, fun _ => hc1d, fun hn => ?_⟩
                exact absurd (by rw [hname]; exact List.mem_cons_self _ _) hn
              · have hc0' : (n.set_child i c1).children[j]? = some c0 := by
                  rw [Node.getElem?_set_child_ne n c1 hij]
                  exact hc0
                obtain ⟨c', a1, a2, a3, a4⟩ := h4 j c0 hc0'
                have hne : c0.name ≠ de := by
                  intro e
                  exact hij (nodup_names_index hnames hi hc0 (by rw [hname, e]))
                refine ⟨c', a1, a2, fun hm => a3 ?_, fun hn => a4 (fun hm => hn ?_)⟩
                · rcases List.mem_cons.mp hm with e | hm
                  · exact absurd e hne
                  · exact hm
                · exact List.mem_cons_of_mem _ hm
      | none =>
        rw [hf] at h
        simp only [if_true] at h
        cases hm : mi path wpath de m with
        | none => rw [hm] at h; cases h
        | some res =>
          obtain ⟨r, m1⟩ := res
          rw [hm] at h
          simp only at h
          by_cases hr : r ≠ 0
          · rw [if_pos hr] at h
            simp at h
          · rw [if_neg hr] at h
            have hr0 : r = 0 := Decidable.of_not_not hr
            subst hr0
            obtain ⟨steps, h1, h2, h3, h4⟩ := ih m1 n m' n' hrest hnames hskip h
            have hf' : find_child de n.children = none := hf
            refine ⟨(EntryCall.mirror de, m, m1) :: steps,
              ⟨rfl, by simp [EntryCall.run, hm], h1⟩, ?_, h3, ?_⟩
            · rw [List.map_cons, List.map_cons, h2]
              congr 1
              unfold listed_call
              rw [hf']
            · intro j c0 hc0
              obtain ⟨c', a1, a2, a3, a4⟩ := h4 j c0 hc0
              have hne : c0.name ≠ de := find_child_none_iff hf' c0 (List.getElem?_mem hc0)
              refine ⟨c', a1, a2, fun hm => a3 ?_, fun hn => a4 (fun hm => hn ?_)⟩
              · rcases List.mem_cons.mp hm with e | hm
                · exact absurd e hne
                · exact hm
              · exact List.mem_cons_of_mem _ hm

theorem remaining_children_loop_steps {ap : ApplyFn} (mi : MirrorFn) (hok : ApplyOk ap)
    (path wpath : String) (cnt : Nat) :
    ∀ (k : Nat) (m : Machine) (n : Node) (m' : Machine) (n' : Node),
      k + cnt = n.children.length →
      remaining_children_loop ap path wpath true (List.range' k cnt) m n = some (0, m', n') →
      ∃ steps, Steps ap mi path wpath steps m m' ∧
        steps.map Prod.fst =
          ((n.children.drop k).filter (fun c => !(c.skip || c.done))).map EntryCall.child := by
  induction cnt with
  | zero =>
    intro k m n m' n' hk h
    simp only [List.range'_zero, remaining_children_loop, Option.some.injEq,
      Prod.mk.injEq] at h
    obtain ⟨_, rfl, rfl⟩ := h
    refine ⟨[], rfl, ?_⟩
    rw [List.drop_eq_nil_of_le (by omega)]
    rfl
  | succ cnt ih =>
    intro k m n m' n' hk h
    have hlt : k < n.children.length := by omega
    have hck : n.children[k]? = some (n.children[k]) := List.getElem?_eq_getElem hlt
    have hdrop : n.children.drop k = n.children[k] :: n.children.drop (k + 1) :=
      List.drop_eq_getElem_cons hlt
    rw [List.range'_succ] at h
    unfold remaining_children_loop at h
    rw [hck] at h
    simp only at h
    rw [hdrop]
    by_cases hs : (n.children[k].skip || n.children[k].done) = true
    · rw [if_pos hs] at h
      obtain ⟨steps, h1, h2⟩ := ih (k + 1) m n m' n' (by omega) h
      refine ⟨steps, h1, ?_⟩
      rw [h2, List.filter_cons_of_neg (by simp [hs])]
    · rw [if_neg hs] at h
      cases ha : ap path wpath n.children[k] true m with
      | none => rw [ha] at h; cases h
      | some res =>
        obtain ⟨r, m1, c1⟩ := res
        rw [ha] at h
        simp only at h
        by_cases hr : r ≠ 0
        · rw [if_pos hr] at h
          simp at h
        · rw [if_neg hr] at h
          have hr0 : r = 0 := Decidable.of_not_not hr
          subst hr0
          have hch : (n.set_child k c1).children = n.children.set k c1 := by
            simp [Node.set_child]
          obtain ⟨steps, h1, h2⟩ := ih (k + 1) m1 (n.set_child k c1) m' n'
            (by rw [hch, List.length_set]; omega) h
          refine ⟨(EntryCall.child n.children[k], m, m1) :: steps,
            ⟨rfl, by simp [EntryCall.run, ha], h1⟩, ?_⟩
          rw [List.map_cons, h2, hch, List.drop_set_of_lt _ _ (Nat.lt_succ_self k),
            List.filter_cons_of_pos (by simpa using hs), List.map_cons]

theorem filter_live_eq (P : String → Prop) [DecidablePred P] :
    ∀ (l l' : List Node), l'.length = l.length → (∀ c ∈ l, c.done = false) →
      (∀ (i : Nat) (c : Node), l[i]? = some c →
        ∃ c', l'[i]? = some c' ∧ c'.skip = false ∧ (P c.name → c'.done = true) ∧
          (¬P c.name → c' = c)) →
      l'.filter (fun c => !(c.skip || c.done)) = l.filter (fun c => decide (¬P c.name)) := by
  intro l
  induction l with
  | nil =>
    intro l' hlen _ _
    rw [List.length_eq_zero.mp hlen]
    rfl
  | cons c cs ih =>
    intro l' hlen hdone hrel
    cases l' with
    | nil => simp at hlen
    | cons c' cs' =>
      have htl := ih cs' (by simpa using hlen)
        (fun x hx => hdone x (List.mem_cons_of_mem _ hx))
        (fun i x hx => by simpa using hrel (i + 1) x (by simpa using hx))
      obtain ⟨c'', e, a2, a3, a4⟩ := hrel 0 c (List.getElem?_cons_zero)
      simp only [List.getElem?_cons_zero, Option.some.injEq] at e
      subst e
      by_cases hP : P c.name
      · rw [List.filter_cons_of_neg (by simp [a3 hP]), List.filter_cons_of_neg (by simp [hP]),
          htl]
      · have e := a4 hP
        subst e
        rw [List.filter_cons_of_pos (by simp [a2, hdone c' (List.mem_cons_self _ _)]),
          List.filter_cons_of_pos (by simp [hP]), htl]

theorem check_children_true (w : World) (tr : List Op) (hmp : Bool) (path : String)
    (cs : List Node) (h : (check_children w tr hmp path cs).1 = true) :
    hmp = true ∧ (check_children w tr hmp path cs).2 = cs := by
  induction cs with
  | nil => simp [check_children] at h
  | cons c cs ih =>
    unfold check_children at h ⊢
    cases hj : w.path_join path c.name with
    | none =>
      rw [hj] at h
      obtain ⟨a, b⟩ := ih h
      simp only
      exact ⟨a, by rw [b]⟩
    | some rp =>
      rw [hj] at h
      simp only at h ⊢
      by_cases hn : child_need w tr c rp = true
      · rw [if_pos hn] at h ⊢
        cases hmp with
        | true => exact ⟨rfl, rfl⟩
        | false =>
          simp only [Bool.not_false, if_true] at h
          exact absurd (ih h).1 (by decide)
      · rw [if_neg hn] at h ⊢
        obtain ⟨a, b⟩ := ih h
        exact ⟨a, by rw [b]⟩

theorem decide_create_tmp_now (w : World) (tr : List Op) (node : Node) (path : String)
    (has_tmpfs : Bool)
    (h : (has_tmpfs || (decide_create_tmp w tr node path has_tmpfs).1) = true) :
    (decide_create_tmp w tr node path has_tmpfs).2 = node := by
  cases has_tmpfs with
  | true => rw [decide_create_tmp_true]
  | false =>
    simp only [Bool.false_or] at h
    unfold decide_create_tmp at h ⊢
    by_cases hr : (!false && node.replace && node.module_path.isSome) = true
    · rw [if_pos hr]
    · rw [if_neg hr] at h ⊢
      simp only [Bool.not_false, if_true] at h ⊢
      unfold mm_check_need_tmpfs at h ⊢
      simp only at h ⊢
      rw [(check_children_true w tr _ path node.children h).2]
      cases node
      rfl

theorem mm_setup_dir_tmpfs_creates (w : World) (path wpath : String) (node : Node)
    (m : Machine) :
    m.Ext (fun op => ∀ p, op.creates = some p → p = wpath)
      (mm_setup_dir_tmpfs w path wpath node m).2 := by
  unfold mm_setup_dir_tmpfs
  repeat' (first
    | exact Machine.Ext.rfl_ext _ _
    | (intro p hp; simp only [Op.creates, Option.some.injEq, reduceCtorEq] at hp; exact hp.symm)
    | (intro p hp; simp only [Op.creates, reduceCtorEq] at hp)
    | split
    | apply Machine.Ext.ext_emit
    | dsimp only)

theorem dir_enter_creates (w : World) (path wpath : String) (node : Node)
    (create_tmp now_tmp : Bool) (m : Machine) :
    m.Ext (fun op => ∀ p, op.creates = some p → p = wpath)
      (dir_enter w path wpath node create_tmp now_tmp m).2 := by
  have hs := mm_setup_dir_tmpfs_creates w path wpath node m
  unfold dir_enter
  repeat' (first
    | exact hs
    | exact Machine.Ext.rfl_ext _ _
    | (intro p hp; simp only [Op.creates, reduceCtorEq] at hp)
    | split
    | apply Machine.Ext.ext_emit
    | dsimp only)

theorem dir_finish_made (w : World) (path wpath : String) (node : Node)
    (create_tmp : Bool) (m : Machine) (q : String)
    (h : (dir_finish w path wpath node create_tmp m).1 = 0) :
    m.made (dir_finish w path wpath node create_tmp m).2 q = 0 := by
  cases create_tmp with
  | false =>
    have e : (dir_finish w path wpath node false m).2 = m.inc_mounted := by
      simp [dir_finish]
    rw [e]
    exact (Machine.made_congr (rfl : m.inc_mounted.trace = m.trace) q).trans
      (Machine.made_self _ _)
  | true =>
    have e := dir_finish_create w path wpath node m h
    rw [List.append_assoc] at e
    rw [Machine.made_of_trace e]
    cases m.ctx.enable_unmountable <;> simp [creations, Op.creates]

theorem listed_nodup (w : World) (tr : List Op) (node : Node) (path : String)
    (hlist : ∀ t l, w.opendir t path = some l → l.Nodup) : (listed w tr node path).Nodup := by
  unfold listed
  split
  · cases ho : w.opendir tr path with
    | none => exact List.nodup_nil
    | some l => exact hlist tr l ho
  · exact List.nodup_nil

theorem steps_effect (w : World) (fuel : Nat) (path wpath : String)
    {steps : List (EntryCall × Machine × Machine)} {m m' : Machine}
    (h : Steps (fun b wb c h m1 => mm_apply_node_recursive w fuel b wb c h m1)
      (fun p wk n m1 => mm_mirror_entry w fuel p wk n m1) path wpath steps m m') :
    ∀ s ∈ steps, ∃ q, w.path_join wpath s.1.name = some q ∧ step_effect w path q s := by
  intro s hs
  have hr := Steps.mem_run h s hs
  obtain ⟨call, ma, mb⟩ := s
  cases call with
  | child x =>
    simp only [EntryCall.run] at hr
    cases ha : mm_apply_node_recursive w fuel path wpath x true ma with
    | none => rw [ha] at hr; cases hr
    | some res =>
      obtain ⟨r, m1, c1⟩ := res
      rw [ha] at hr
      simp only [Option.map_some', Option.some.injEq, Prod.mk.injEq] at hr
      obtain ⟨hr0, hm1⟩ := hr
      subst hr0
      subst hm1
      obtain ⟨q, hq⟩ := mm_apply_node_recursive_join ha
      exact ⟨q, hq, mm_apply_node_recursive_staged_at w fuel path wpath x ma 0 m1 c1 q hq ha,
        fun hty => mm_apply_node_recursive_whiteout_trace hty ha,
        fun hty => mm_apply_node_recursive_made_pos hq hty ha⟩
  | mirror e =>
    have hm : mm_mirror_entry w fuel path wpath e ma = some (0, mb) := hr
    obtain ⟨q, hq⟩ := mm_mirror_entry_join hm
    exact ⟨q, hq, mm_mirror_entry_within w fuel path wpath e ma 0 mb q hq hm,
      fun hme => mm_mirror_entry_made_pos hq hm hme,
      fun hme => mm_mirror_entry_nothing hm hme⟩

theorem overlay_passes_steps {w : World} {ap : ApplyFn} {mi : MirrorFn} (hok : ApplyOk ap)
    {path wpath : String} {node : Node} {m0 m1 m2 : Machine} {n1 n2 : Node}
    (hnames : (node.children.map Node.name).Nodup)
    (hflags : ∀ c ∈ node.children, c.skip = false ∧ c.done = false)
    (hlist : ∀ t l, w.opendir t path = some l → l.Nodup)
    (h1 : mm_process_dir_children w ap mi path wpath node true m0 = some (0, m1, n1))
    (h2 : mm_process_remaining_children ap path wpath n1 true m1 = some (0, m2, n2)) :
    ∃ steps, Steps ap mi path wpath steps m0 m2 ∧
      steps.map Prod.fst =
        (processed (listed w m0.trace node path)).map (listed_call node.children) ++
        (node.children.filter
          (fun c => decide (c.name ∉ processed (listed w m0.trace node path)))).map
            EntryCall.child := by
  have hp1 : ∃ steps, Steps ap mi path wpath steps m0 m1 ∧
      steps.map Prod.fst =
        (processed (listed w m0.trace node path)).map (listed_call node.children) ∧
      n1.children.length = node.children.length ∧
      ∀ (i : Nat) (c : Node), node.children[i]? = some c →
        ∃ c', n1.children[i]? = some c' ∧ c'.skip = false ∧
          (c.name ∈ processed (listed w m0.trace node path) → c'.done = true) ∧
          (c.name ∉ processed (listed w m0.trace node path) → c' = c) := by
    rcases mm_process_dir_children_cases h1 with ⟨hex, _, e1, e2⟩ | ⟨hex, hrep, hc1⟩
    · have e : listed w m0.trace node path = [] := by
        unfold listed
        rcases hex with hex | hex
        · simp [hex]
        · simp [hex]
      rw [e, e1, e2]
      exact ⟨[], rfl, rfl, rfl, fun i c hc =>
        ⟨c, hc, (hflags c (List.getElem?_mem hc)).1, fun hm => by simp [processed] at hm,
          fun _ => rfl⟩⟩
    rcases hc1 with ⟨_, h0, _⟩ | ⟨entries, ho, hloop⟩
    · simp at h0
    · have e : listed w m0.trace node path = entries := by
        unfold listed
        simp [hex, hrep, ho]
      rw [e]
      exact dir_children_loop_steps hok path wpath entries m0 node m1 n1 (hlist _ _ ho)
        hnames (fun c hc => (hflags c hc).1) hloop
  obtain ⟨steps1, s1, c1, hlen, hrel⟩ := hp1
  unfold mm_process_remaining_children Node.child_count at h2
  rw [List.range_eq_range'] at h2
  obtain ⟨steps2, s2, c2⟩ := remaining_children_loop_steps mi hok path wpath
    n1.children.length 0 m1 n1 m2 n2 (Nat.zero_add _) h2
  refine ⟨steps1 ++ steps2, s1.append s2, ?_⟩
  rw [List.map_append, c1, c2, List.drop_zero,
    filter_live_eq (fun name => name ∈ processed (listed w m0.trace node path))
      node.children n1.children hlen (fun c hc => (hflags c hc).2) hrel]

/-- C7 (as amended): a DIRECTORY applied with an overlay active (`now_tmp`),
with unique child names, no child marked `skip` or `done` and listings of the
real directory without repeated name, whose apply returns 0.  The apply is:
the set-up of the working directory (which creates at most `wpath` itself), a
sequence of steps that all return 0, and the finish (which creates nothing).
There is exactly one step per name, for the names of the children and the
names listed in the real directory (when it exists and `replace` is false)
other than `.` and `..`: a child is applied (marked `done` when its name was
listed), a listed name that no child has is mirrored.  Each step operates at
its own entry `wpath/name`: the step of a child that is not a WHITEOUT creates
the entry, the step of a WHITEOUT issues no operation, a mirror step creates
the entry when `lstat` reads the real entry as a regular file, a directory or a
symlink, and does nothing otherwise. -/
theorem overlay_directory_entries (w : World) (fuel : Nat)
    (base wbase path wpath : String) (node : Node)
    (has_tmpfs : Bool) (m m' : Machine) (node' : Node)
    (hty : node.type = NFT_DIRECTORY)
    (hp : w.path_join base node.name = some path)
    (hwp : w.path_join wbase node.name = some wpath)
    (hnow : (has_tmpfs || (decide_create_tmp w m.trace node path has_tmpfs).1) = true)
    (hnames : (node.children.map Node.name).Nodup)
    (hflags : ∀ c ∈ node.children, c.skip = false ∧ c.done = false)
    (hlist : ∀ t l, w.opendir t path = some l → l.Nodup)
    (h : mm_apply_node_recursive w (fuel + 1) base wbase node has_tmpfs m =
      some (0, m', node')) :
    ∃ (m0 m2 : Machine) (steps : List (EntryCall × Machine × Machine)),
      dir_enter w path wpath node (decide_create_tmp w m.trace node path has_tmpfs).1 true m =
        (0, m0) ∧
      Steps (fun b wb c h m1 => mm_apply_node_recursive w fuel b wb c h m1)
        (fun p wk n m1 => mm_mirror_entry w fuel p wk n m1) path wpath steps m0 m2 ∧
      dir_finish w path wpath node' (decide_create_tmp w m.trace node path has_tmpfs).1 m2 =
        (0, m') ∧
      m.Ext (fun op => ∀ p, op.creates = some p → p = wpath) m0 ∧
      (∀ q, m2.made m' q = 0) ∧
      (steps.map (fun s => s.1.name)).Nodup ∧
      (∀ call, call ∈ steps.map Prod.fst ↔
        (∃ c ∈ node.children,
          (c.name ∈ processed (listed w m0.trace node path) ∧
            call = EntryCall.child (c.set_done true)) ∨
          (c.name ∉ processed (listed w m0.trace node path) ∧ call = EntryCall.child c)) ∨
        (∃ e ∈ processed (listed w m0.trace node path),
          (∀ c ∈ node.children, c.name ≠ e) ∧ call = EntryCall.mirror e)) ∧
      ∀ s ∈ steps, ∃ q, w.path_join wpath s.1.name = some q ∧ step_effect w path q s := by
  have hok := mm_apply_node_recursive_ok w fuel
  rcases mm_apply_node_recursive_cases h with ⟨_, h0, _⟩ | ⟨path', wpath', hp', hwp', hc⟩
  · cases h0
  rw [hp] at hp'
  rw [hwp] at hwp'
  cases hp'
  cases hwp'
  rcases hc with ⟨h0, _⟩ | ⟨h0, _⟩ | ⟨h0, _⟩ | ⟨_, hd⟩
  · rw [hty] at h0; cases h0
  · rw [hty] at h0; cases h0
  · rw [hty] at h0; cases h0
  rw [decide_create_tmp_now w m.trace node path has_tmpfs hnow, hnow] at hd
  rcases dir_body_cases hd with ⟨_, h0, _⟩ | ⟨he, hps⟩
  · cases h0
  obtain ⟨r1, m1, n1, h1, hc⟩ := dir_passes_cases hps
  rcases hc with ⟨_, h0, _⟩ | ⟨hr1, r2, m2, n2, h2, hc⟩
  · cases h0
  rcases hc with ⟨_, h0, _⟩ | ⟨hr2, hr, hm, hn⟩
  · cases h0
  subst hr1 hr2 hn
  obtain ⟨steps, hs, hcalls⟩ := overlay_passes_steps hok hnames hflags hlist h1 h2
  have hL : (processed (listed w
      (dir_enter w path wpath node (decide_create_tmp w m.trace node path has_tmpfs).1 true
        m).2.trace node path)).Nodup :=
    (listed_nodup w _ node path hlist).filter _
  refine ⟨_, m2, steps, Prod.ext he rfl, hs, Prod.ext hr.symm hm.symm,
    dir_enter_creates w path wpath node _ true m, ?_, ?_, ?_, steps_effect w fuel path wpath hs⟩
  · intro q
    rw [hm]
    exact dir_finish_made w path wpath node' _ m2 q hr.symm
  · have e : steps.map (fun s => s.1.name) = (steps.map Prod.fst).map EntryCall.name := by
      rw [List.map_map]
      rfl
    rw [e, hcalls, List.map_append, List.map_map, List.map_map]
    have e1 : List.map (EntryCall.name ∘ listed_call node.children)
        (processed (listed w (dir_enter w path wpath node
          (decide_create_tmp w m.trace node path has_tmpfs).1 true m).2.trace node path)) =
        processed (listed w (dir_enter w path wpath node
          (decide_create_tmp w m.trace node path has_tmpfs).1 true m).2.trace node path) := by
      conv_rhs => rw [← List.map_id (processed _)]
      apply List.map_congr_left
      intro e _
      exact listed_call_name node.children e
    rw [e1]
    refine List.nodup_append.mpr ⟨hL, ?_, ?_⟩
    · exact hnames.sublist ((List.filter_sublist _).map Node.name)
    · intro x hx hx'
      obtain ⟨c, hc, rfl⟩ := List.mem_map.mp hx'
      have := (List.mem_filter.mp hc).2
      simp only [decide_eq_true_eq] at this
      exact this hx
  · intro call
    rw [hcalls, List.mem_append, List.mem_map, List.mem_map]
    constructor
    · rintro (⟨e, he, rfl⟩ | ⟨c, hc, rfl⟩)
      · cases hf : find_child e node.children with
        | none =>
          refine Or.inr ⟨e, he, find_child_none_iff hf, ?_⟩
          unfold listed_call
          rw [hf]
        | some ic =>
          obtain ⟨i, c⟩ := ic
          obtain ⟨hi, hname⟩ := find_child_some hf
          refine Or.inl ⟨c, List.getElem?_mem hi, Or.inl ⟨by rw [hname]; exact he, ?_⟩⟩
          unfold listed_call
          rw [hf]
      · obtain ⟨hc1, hc2⟩ := List.mem_filter.mp hc
        simp only [decide_eq_true_eq] at hc2
        exact Or.inl ⟨c, hc1, Or.inr ⟨hc2, rfl⟩⟩
    · rintro (⟨c, hc, ⟨hin, rfl⟩ | ⟨hout, rfl⟩⟩ | ⟨e, he, hno, rfl⟩)
      · refine Or.inl ⟨c.name, hin, ?_⟩
        cases hf : find_child c.name node.children with
        | none => exact absurd rfl (find_child_none_iff hf c hc)
        | some ic =>
          obtain ⟨i, c'⟩ := ic
          obtain ⟨hi, hname⟩ := find_child_some hf
          have e := nodup_names_unique hnames hi hc hname.symm
          unfold listed_call
          rw [hf, e]
      · exact Or.inr ⟨c, List.mem_filter.mpr ⟨hc, by simpa using hout⟩, rfl⟩
      · refine Or.inl ⟨e, he, ?_⟩
        unfold listed_call
        rw [find_child_eq_none hno]

/-! ## Examples -/

theorem demo_join_room {a e c : String} (he : e ≠ "") (h : demo_join a e = some c) :
    demo_room c < demo_room a := by
  have hpos : 0 < e.length := by
    rcases Nat.eq_zero_or_pos e.length with h0 | h0
    · exact absurd (String.ext (List.length_eq_zero.mp h0)) he
    · exact h0
  have h1 : ("/" : String).length = 1 := rfl
  unfold demo_join at h
  by_cases hl : (a ++ "/" ++ e).length < 64
  · rw [if_pos hl, if_neg he] at h
    simp only [Option.some.injEq] at h
    simp only [String.length_append] at hl
    by_cases ha : a = "/"
    · rw [if_pos ha] at h
      subst h
      subst ha
      simp only [demo_room, String.length_append]
      omega
    · rw [if_neg ha] at h
      subst h
      simp only [demo_room, String.length_append]
      omega
  · rw [if_neg hl] at h
    cases h

theorem lookup_mem {α β : Type} [BEq α] [LawfulBEq α] {k : α} {v : β} :
    ∀ {l : List (α × β)}, l.lookup k = some v → (k, v) ∈ l := by
  intro l
  induction l with
  | nil => intro h; cases h
  | cons x xs ih =>
    intro h
    obtain ⟨a, b⟩ := x
    by_cases hk : k == a
    · rw [List.lookup_cons, hk] at h
      cases h
      rw [eq_of_beq hk]
      exact List.mem_cons_self _ _
    · have hk' : (k == a) = false := by simpa using hk
      rw [List.lookup_cons, hk'] at h
      exact List.mem_cons_of_mem _ (ih h)

theorem demo_world_depth (fs : List (String × Stat × List String)) (bad : List Op)
    (root : Option Node) (hfs : ∀ x ∈ fs, "" ∉ x.2.2) :
    bounded_depth (demo_world demo_join fs bad root) 64 := by
  refine ⟨demo_room, fun p => Nat.sub_le _ _, ?_⟩
  intro t src l e c hl he hdot hj
  apply demo_join_room _ hj
  rintro rfl
  simp only [demo_world] at hl
  cases hlk : fs.lookup src with
  | none => rw [hlk] at hl; cases hl
  | some v =>
    obtain ⟨st, names⟩ := v
    rw [hlk] at hl
    simp only at hl
    split at hl
    · simp only [Option.some.injEq] at hl
      subst hl
      have hmem := hfs _ (lookup_mem hlk)
      simp only [List.mem_cons] at he
      rcases he with he | he | he
      · exact absurd he (by decide)
      · exact absurd he (by decide)
      · exact hmem he
    · cases hl

theorem demo_fs_names : ∀ x ∈ demo_fs, "" ∉ x.2.2 := by
  decide

theorem empty_world_nodup (root : Option Node) (t : List Op) (p : String) (l : List String)
    (h : (demo_world demo_join [] [] root).opendir t p = some l) : l.Nodup := by
  simp [demo_world] at h

/-- C1, at an example: with a `module_path`, the REGULAR child `lib`, whose live
counterpart `/lib` is a directory, makes the oracle return true. -/
theorem mm_check_need_tmpfs_iff_divergence_witness :
    (mm_check_need_tmpfs (demo_world demo_join demo_fs [] none) [] demo_regular_over_dir
      "").1 = true :=
  (mm_check_need_tmpfs_iff_divergence (demo_world demo_join demo_fs [] none) []
    demo_regular_over_dir "").2.1 _ (List.mem_singleton.mpr rfl) "/lib" demo_dir_stat rfl
    (by decide) (by decide) (by decide) (by decide)

/-- C2 as stated fails: the directory `etc` has no `module_path` and its SYMLINK
child, which requires type divergence by its type, has a name for which the
path join fails.  The oracle leaves its `skip` flag clear, and the apply of the
directory attempts the child and counts it in `nodes_fail`. -/
theorem oracle_passes_over_unjoinable_child :
    (mm_check_need_tmpfs (demo_world demo_join demo_fs [] none) [] demo_long_name_dir
      "/etc").2 = demo_long_name_dir ∧
    demo_long_name_dir.children.map Node.type = [NFT_SYMLINK] ∧
    demo_long_name_dir.children.map Node.skip = [false] ∧
    mm_apply_node_recursive (demo_world demo_join demo_fs [] none) 3 "" "/w"
        demo_long_name_dir false ⟨demo_ctx, []⟩ =
      some (0, ⟨{ demo_ctx with stats := ⟨1, 1, 0⟩ }, [Op.module_mark_failed "a"]⟩,
        demo_long_name_dir) :=
  ⟨rfl, rfl, rfl, rfl⟩

/-- C2 as amended, at an example: the directory `etc` without `module_path`
with a matching REGULAR child `hosts` and a SYMLINK child `passwd`, which the
oracle skips.  The apply binds `hosts` and issues nothing for `passwd`. -/
theorem skipped_children_not_applied_witness :
    (mm_check_need_tmpfs demo_live demo_start.trace demo_plain_dir "/etc").2.children.map
        Node.skip = [false, true] ∧
    (∃ node', mm_apply_node_recursive demo_live (69 + 1) "" "/w" demo_plain_dir false
        demo_start =
      some (0, ⟨{ demo_ctx with stats := ⟨2, 0, 0⟩ },
        [Op.mount_bind "/data/adb/modules/a/etc/hosts" "/etc/hosts",
         Op.ksu_send_unmountable "/etc/hosts", Op.mount_remount_ro "/etc/hosts"]⟩, node')) ∧
    ((mm_check_need_tmpfs demo_live demo_start.trace demo_plain_dir "/etc").1 = false ∧
      List.Forall₂ (fun c c1 => ∃ rp, demo_live.path_join "/etc" c.name = some rp ∧
          (requires_divergence demo_live demo_start.trace c rp → c1 = c.set_skip true) ∧
          (¬requires_divergence demo_live demo_start.trace c rp → c1 = c))
        demo_plain_dir.children
        (mm_check_need_tmpfs demo_live demo_start.trace demo_plain_dir "/etc").2.children) ∧
    (∀ bound, bounded_depth demo_live bound → demo_plain_dir.height + bound + 1 < 69 + 1 →
      ∃ res, mm_apply_node_recursive demo_live (69 + 1) "" "/w" demo_plain_dir false
        demo_start = some res) ∧
    (∀ r m' node', mm_apply_node_recursive demo_live (69 + 1) "" "/w" demo_plain_dir false
        demo_start = some (r, m', node') →
      r = 0 ∧ ∃ sched m1,
        attempt_all (fun b wb c h m1 => mm_apply_node_recursive demo_live 69 b wb c h m1)
          "/etc" "/w/etc" demo_plain_dir sched demo_start = some m1 ∧
        m' = m1.inc_mounted ∧
        ∀ x ∈ sched,
          ∃ c ∈ (mm_check_need_tmpfs demo_live demo_start.trace demo_plain_dir
            "/etc").2.children, c.skip = false ∧ c.Sim x) ∧
    SameRun (mm_apply_node_recursive demo_live (69 + 1) "" "/w" demo_plain_dir false demo_start)
      (mm_apply_node_recursive demo_live (69 + 1) "" "/w"
        (mm_check_need_tmpfs demo_live demo_start.trace demo_plain_dir
          "/etc").2.without_skipped false demo_start) :=
  ⟨rfl, ⟨_, rfl⟩,
    skipped_children_not_applied demo_live 69 "" "/w" "/etc" "/w/etc" demo_plain_dir
      demo_start rfl rfl rfl rfl (by decide) (by decide)⟩

/-- C3 as stated fails: in the tree `demo_tree` of three nodes the creation of
the staging directory of `etc` fails.  The driver returns 0 with
`nodes_mounted = 1` (the root), `nodes_fail = 1` (the directory `etc`) and
`nodes_whiteout = 0`; no node is skipped; the file below `etc` is counted
nowhere, so the sum is 2 and not 3. -/
theorem failed_subtree_is_counted_once :
    magic_mount (demo_world demo_join demo_fs [Op.mkdir_p "/tmp/workdir/etc"]
        (some demo_tree)) 5 (some demo_ctx) "/tmp" [] =
      some (0, some { demo_ctx with stats := ⟨1, 1, 0⟩ },
        [Op.mkdir_p "/tmp/workdir", Op.mount_tmpfs "KSU" "/tmp/workdir",
         Op.mount_private "/tmp/workdir", Op.mkdir_p "/tmp/workdir/etc",
         Op.module_mark_failed "a", Op.umount2_detach "/tmp/workdir",
         Op.rmdir "/tmp/workdir"]) ∧
    mm_apply_node_recursive (demo_world demo_join demo_fs [Op.mkdir_p "/tmp/workdir/etc"]
        (some demo_tree)) 5 "/" "/tmp/workdir" demo_tree false
        ⟨demo_ctx, [Op.mkdir_p "/tmp/workdir", Op.mount_tmpfs "KSU" "/tmp/workdir",
          Op.mount_private "/tmp/workdir"]⟩ =
      some (0, ⟨{ demo_ctx with stats := ⟨1, 1, 0⟩ },
        [Op.mkdir_p "/tmp/workdir", Op.mount_tmpfs "KSU" "/tmp/workdir",
         Op.mount_private "/tmp/workdir", Op.mkdir_p "/tmp/workdir/etc",
         Op.module_mark_failed "a"]⟩, demo_tree_after) ∧
    demo_tree_after.skipped_count = 0 ∧ demo_tree.count = 3 :=
  ⟨rfl, rfl, rfl, rfl⟩

/-- C3 as amended, at an example: the driver run on the tree `demo_mixed_dir`,
whose REGULAR child the oracle skips and whose WHITEOUT child is applied. -/
theorem magic_mount_accounts_for_every_node_witness :
    ∃ tmp_dir m1 root', mm_apply_node_recursive
        (demo_world demo_join [] [] (some demo_mixed_dir)) 5 "/" tmp_dir demo_mixed_dir false
        ⟨demo_ctx, [] ++ [Op.mkdir_p tmp_dir] ++ [Op.mount_tmpfs demo_ctx.mount_source tmp_dir]
          ++ [Op.mount_private tmp_dir]⟩ = some (0, m1, root') ∧
      ({ demo_ctx with stats := ⟨1, 0, 1⟩ } : MagicMount) = m1.ctx ∧
      1 + 1 + 0 + root'.skipped_count = demo_mixed_dir.count :=
  magic_mount_accounts_for_every_node (demo_world demo_join [] [] (some demo_mixed_dir))
    (empty_world_nodup _) 5 demo_ctx { demo_ctx with stats := ⟨1, 0, 1⟩ } "/tmp" []
    [Op.mkdir_p "/tmp/workdir", Op.mount_tmpfs "KSU" "/tmp/workdir",
     Op.mount_private "/tmp/workdir", Op.umount2_detach "/tmp/workdir",
     Op.rmdir "/tmp/workdir"]
    demo_mixed_dir rfl rfl rfl rfl rfl

/-- C4, at an example: the overlay directory `etc`, whose SYMLINK child forces
the overlay and whose live entry `passwd` is mirrored. -/
theorem overlay_mount_order_witness :
    ∃ pre mid,
      [Op.mkdir_p "/w/etc", Op.chmod "/w/etc" 0o755, Op.chown "/w/etc" 0 0,
        Op.copy_selcon "/etc" "/w/etc", Op.mount_bind "/w/etc" "/w/etc",
        Op.symlink "/data/hosts" "/w/etc/hosts",
        Op.copy_selcon "/data/adb/modules/a/etc/hosts" "/w/etc/hosts",
        Op.open_creat "/w/etc/passwd" 0o644, Op.mount_bind "/etc/passwd" "/w/etc/passwd",
        Op.mount_remount_ro "/w/etc", Op.mount_move "/w/etc" "/etc",
        Op.mount_private "/etc", Op.ksu_send_unmountable "/etc"] =
        [] ++ pre ++ [Op.mount_bind "/w/etc" "/w/etc"] ++ mid ++
          [Op.mount_remount_ro "/w/etc", Op.mount_move "/w/etc" "/etc",
            Op.mount_private "/etc"] ++
          (if demo_ctx.enable_unmountable then [Op.ksu_send_unmountable "/etc"] else []) ∧
      (∀ op ∈ pre, op.is_mount = false) ∧
      (∀ op ∈ mid, Op.staged (demo_world demo_join demo_fs [] none) "/w/etc" op) :=
  (overlay_mount_order (demo_world demo_join demo_fs [] none) 2 "" "/w" "/etc" "/w/etc"
    demo_overlay_dir false ⟨demo_ctx, []⟩
    ⟨{ demo_ctx with stats := ⟨2, 0, 0⟩ },
      [Op.mkdir_p "/w/etc", Op.chmod "/w/etc" 0o755, Op.chown "/w/etc" 0 0,
        Op.copy_selcon "/etc" "/w/etc", Op.mount_bind "/w/etc" "/w/etc",
        Op.symlink "/data/hosts" "/w/etc/hosts",
        Op.copy_selcon "/data/adb/modules/a/etc/hosts" "/w/etc/hosts",
        Op.open_creat "/w/etc/passwd" 0o644, Op.mount_bind "/etc/passwd" "/w/etc/passwd",
        Op.mount_remount_ro "/w/etc", Op.mount_move "/w/etc" "/etc",
        Op.mount_private "/etc", Op.ksu_send_unmountable "/etc"]⟩
    _ rfl rfl rfl rfl rfl).2

/-- C5 as stated fails: the overlay directory `etc` and its failing child have
no `module_name`; the apply returns -1 and `nodes_fail` is incremented, but
`module_mark_failed` is not called at all. -/
theorem overlay_failure_without_module_name :
    mm_apply_node_recursive (demo_world demo_join demo_fs [] none) 3 "" "/w"
      demo_anonymous_dir false ⟨demo_ctx, []⟩ =
    some (-1,
      ⟨{ demo_ctx with stats := ⟨0, 1, 0⟩ },
        [Op.mkdir_p "/w/etc", Op.chmod "/w/etc" 0o755, Op.chown "/w/etc" 0 0,
         Op.copy_selcon "/etc" "/w/etc", Op.mount_bind "/w/etc" "/w/etc",
         Op.mkdir_p "/w/etc", Op.open_creat "/w/etc/hosts" 0o644]⟩,
      demo_anonymous_dir) := by
  rfl

/-- C5 as amended, at an example: the only child of the overlay directory
`etc` of module `a` fails in the second pass. -/
theorem overlay_failure_aborts_directory_witness :
    mm_apply_node_recursive (demo_world demo_join demo_fs [] none) 3 "" "/w"
      demo_failing_dir false ⟨demo_ctx, []⟩ =
    some (-1,
      after_failure
        ⟨demo_ctx, [Op.mkdir_p "/w/etc", Op.chmod "/w/etc" 0o755, Op.chown "/w/etc" 0 0,
          Op.copy_selcon "/etc" "/w/etc", Op.mount_bind "/w/etc" "/w/etc",
          Op.mkdir_p "/w/etc", Op.open_creat "/w/etc/hosts" 0o644]⟩
        (attributed_module
          (some (.mk "hosts" NFT_REGULAR [] none none false false false)) demo_failing_dir),
      demo_failing_dir) :=
  (overlay_failure_aborts_directory (demo_world demo_join demo_fs [] none) 2 "" "/w" "/etc"
    "/w/etc" demo_failing_dir demo_failing_dir false true ⟨demo_ctx, []⟩
    ⟨demo_ctx, [Op.mkdir_p "/w/etc", Op.chmod "/w/etc" 0o755, Op.chown "/w/etc" 0 0,
      Op.copy_selcon "/etc" "/w/etc", Op.mount_bind "/w/etc" "/w/etc"]⟩
    rfl rfl rfl rfl rfl rfl).2
    _ _ [] 0 [] _ _ _ _ _ _ rfl rfl rfl rfl rfl rfl rfl (by decide)

/-- C6 as stated fails: when the listing of the live `/etc` returns `hosts`
twice, the first pass finds and applies the child `hosts` for each of the two
entries; the child, which is not skipped, is attempted twice, as the two binds
in the trace and the counter `nodes_mounted = 3` for two nodes show. -/
theorem child_not_attempted_exactly_once :
    mm_apply_node_recursive (demo_world demo_join demo_fs_repeating [] none) 3 "" "/w"
        demo_hosts_dir false ⟨demo_ctx, []⟩ =
      some (0, ⟨{ demo_ctx with stats := ⟨3, 0, 0⟩ },
        [Op.mount_bind "/data/adb/modules/a/etc/hosts" "/etc/hosts",
         Op.ksu_send_unmountable "/etc/hosts", Op.mount_remount_ro "/etc/hosts",
         Op.mount_bind "/data/adb/modules/a/etc/hosts" "/etc/hosts",
         Op.ksu_send_unmountable "/etc/hosts", Op.mount_remount_ro "/etc/hosts"]⟩,
        demo_hosts_dir.set_child 0
          ((demo_node "hosts" NFT_REGULAR [] (some "/data/adb/modules/a/etc/hosts")).set_done
            true)) ∧
    (decide_create_tmp (demo_world demo_join demo_fs_repeating [] none) [] demo_hosts_dir
        "/etc" false) = (false, demo_hosts_dir) ∧
    (demo_world demo_join demo_fs_repeating [] none).opendir [] "/etc" =
      some [".", "..", "hosts", "hosts"] ∧
    demo_hosts_dir.count = 2 :=
  ⟨rfl, rfl, rfl, rfl⟩

/-- C6 as amended, at an example: the directory `etc` without `module_path`
whose child `hosts` fails (it has no module file) and whose child `passwd` is
bound.  The apply returns 0 with `nodes_mounted = 2` and `nodes_fail = 1`, the
failure being attributed to module `a`. -/
theorem no_overlay_best_effort_witness :
    ∃ node', mm_apply_node_recursive demo_live (69 + 1) "" "/w" demo_partial_dir false
        demo_start =
      some (0, ⟨{ demo_ctx with stats := ⟨2, 1, 0⟩ }, demo_partial_trace⟩, node') ∧
    (∃ res, mm_apply_node_recursive demo_live (69 + 1) "" "/w" demo_partial_dir false
      demo_start = some res) ∧
    ∃ (sched : List (Nat × Node)) (m1 : Machine),
      (0 : Int) = 0 ∧
      (⟨{ demo_ctx with stats := ⟨2, 1, 0⟩ }, demo_partial_trace⟩ : Machine) =
        m1.inc_mounted ∧
      attempt_all (fun b wb c h m2 => mm_apply_node_recursive demo_live 69 b wb c h m2)
        "/etc" "/w/etc" demo_partial_dir (sched.map Prod.snd) demo_start = some m1 ∧
      (sched.map Prod.fst).Nodup ∧
      (∀ i c, (decide_create_tmp demo_live demo_start.trace demo_partial_dir "/etc"
          false).2.children[i]? = some c → c.skip = false → i ∈ sched.map Prod.fst) ∧
      (∀ ic ∈ sched, ∃ c,
        (decide_create_tmp demo_live demo_start.trace demo_partial_dir "/etc"
          false).2.children[ic.1]? = some c ∧
        c.skip = false ∧ (ic.2 = c ∨ ic.2 = c.set_done true)) :=
  ⟨_, rfl,
    (no_overlay_best_effort demo_live 69 "" "/w" "/etc" "/w/etc" demo_partial_dir demo_start
      rfl rfl rfl rfl (by decide)
      (fun l h => by
        obtain rfl : [".", "..", "hosts", "passwd"] = l := Option.some.inj h
        decide)).1 64 (demo_world_depth _ _ _ demo_fs_names) (by decide),
    (no_overlay_best_effort demo_live 69 "" "/w" "/etc" "/w/etc" demo_partial_dir demo_start
      rfl rfl rfl rfl (by decide)
      (fun l h => by
        obtain rfl : [".", "..", "hosts", "passwd"] = l := Option.some.inj h
        decide)).2 0 _ _ rfl⟩

/-- C7 as stated fails, each apply below returning 0 with every operation
succeeding.  (1) The live `/run` lists the FIFO `initctl`, which is not the
name of a child: nothing is created at `/w/run/initctl`, the mirror engine
ignores the type.  (2) When the listing of the live `/etc` returns `hosts`
twice, the entry is mirrored twice. -/
theorem overlay_entries_differ :
    mm_apply_node_recursive (demo_world demo_join demo_fs [] none) 3 "" "/w" demo_run_dir
        false ⟨demo_ctx, []⟩ =
      some (0, ⟨{ demo_ctx with stats := ⟨2, 0, 0⟩ }, demo_run_trace⟩, demo_run_dir) ∧
    (demo_world demo_join demo_fs [] none).opendir [] "/run" =
      some [".", "..", "initctl", "utmp"] ∧
    "/w/run/initctl" ∉ creations demo_run_trace ∧
    mm_apply_node_recursive (demo_world demo_join demo_fs_repeating [] none) 3 "" "/w"
        demo_lock_dir false ⟨demo_ctx, []⟩ =
      some (0, ⟨{ demo_ctx with stats := ⟨2, 0, 0⟩ }, demo_lock_trace⟩, demo_lock_dir) ∧
    (creations demo_lock_trace).count "/w/etc/hosts" = 2 :=
  ⟨rfl, rfl, by decide, rfl, by decide⟩

/-- C7 as amended, at an example: the overlay directory `run`, whose SYMLINK
child `lock` forces the overlay; the live `/run` holds the FIFO `initctl` and
the regular file `utmp`. -/
theorem overlay_directory_entries_witness :
    mm_apply_node_recursive demo_live (2 + 1) "" "/w" demo_run_dir false demo_start =
      some (0, ⟨{ demo_ctx with stats := ⟨2, 0, 0⟩ }, demo_run_trace⟩, demo_run_dir) ∧
    ∃ (m0 m2 : Machine) (steps : List (EntryCall × Machine × Machine)),
      dir_enter demo_live "/run" "/w/run" demo_run_dir
        (decide_create_tmp demo_live demo_start.trace demo_run_dir "/run" false).1 true
        demo_start = (0, m0) ∧
      Steps (fun b wb c h m1 => mm_apply_node_recursive demo_live 2 b wb c h m1)
        (fun p wk n m1 => mm_mirror_entry demo_live 2 p wk n m1) "/run" "/w/run" steps m0
        m2 ∧
      dir_finish demo_live "/run" "/w/run" demo_run_dir
        (decide_create_tmp demo_live demo_start.trace demo_run_dir "/run" false).1 m2 =
        (0, ⟨{ demo_ctx with stats := ⟨2, 0, 0⟩ }, demo_run_trace⟩) ∧
      demo_start.Ext (fun op => ∀ p, op.creates = some p → p = "/w/run") m0 ∧
      (∀ q, m2.made ⟨{ demo_ctx with stats := ⟨2, 0, 0⟩ }, demo_run_trace⟩ q = 0) ∧
      (steps.map (fun s => s.1.name)).Nodup ∧
      (∀ call, call ∈ steps.map Prod.fst ↔
        (∃ c ∈ demo_run_dir.children,
          (c.name ∈ processed (listed demo_live m0.trace demo_run_dir "/run") ∧
            call = EntryCall.child (c.set_done true)) ∨
          (c.name ∉ processed (listed demo_live m0.trace demo_run_dir "/run") ∧
            call = EntryCall.child c)) ∨
        (∃ e ∈ processed (listed demo_live m0.trace demo_run_dir "/run"),
          (∀ c ∈ demo_run_dir.children, c.name ≠ e) ∧ call = EntryCall.mirror e)) ∧
      ∀ s ∈ steps, ∃ q, demo_live.path_join "/w/run" s.1.name = some q ∧
        step_effect demo_live "/run" q s :=
  ⟨rfl,
    overlay_directory_entries demo_live 2 "" "/w" "/run" "/w/run" demo_run_dir false
      demo_start ⟨{ demo_ctx with stats := ⟨2, 0, 0⟩ }, demo_run_trace⟩ demo_run_dir
      rfl rfl rfl rfl (by decide) (by decide)
      (fun t l h => by
        obtain rfl : [".", "..", "initctl", "utmp"] = l := Option.some.inj h
        decide)
      rfl⟩

/-- C8, at an example: the driver run on the built tree `demo_tree` over the
live tree `demo_fs`, with `tmp_root = "/tmp"`.  The run returns 0: the workdir
is built, its `mkdir_p` and the tmpfs mount succeed and so does the apply, after
whose operations the detach unmount and the `rmdir` of the workdir are
issued. -/
theorem magic_mount_returns_witness :
    magic_mount demo_built 70 (some demo_ctx) "/tmp" [] =
      some (0, some { demo_ctx with stats := ⟨3, 0, 0⟩ }, demo_driver_trace) ∧
    (∃ rc ctx' tr', magic_mount demo_built 70 (some demo_ctx) "/tmp" [] =
      some (rc, some ctx', tr')) ∧
    ((0 : Int) = 0 ↔ ∃ tmp_dir, demo_built.path_join "/tmp" "workdir" = some tmp_dir ∧
      demo_built.sys_errno [] (Op.mkdir_p tmp_dir) = 0 ∧
      demo_built.sys_errno ([] ++ [Op.mkdir_p tmp_dir])
        (Op.mount_tmpfs demo_ctx.mount_source tmp_dir) = 0 ∧
      ∃ m1 root1, mm_apply_node_recursive demo_built 70 "/" tmp_dir demo_tree false
        ⟨demo_ctx, [] ++ [Op.mkdir_p tmp_dir] ++ [Op.mount_tmpfs demo_ctx.mount_source tmp_dir]
          ++ [Op.mount_private tmp_dir]⟩ = some (0, m1, root1)) ∧
    (∀ tmp_dir, demo_built.path_join "/tmp" "workdir" = some tmp_dir →
      demo_built.sys_errno [] (Op.mkdir_p tmp_dir) = 0 →
      demo_built.sys_errno ([] ++ [Op.mkdir_p tmp_dir])
        (Op.mount_tmpfs demo_ctx.mount_source tmp_dir) = 0 →
      ∃ r m1 root1, mm_apply_node_recursive demo_built 70 "/" tmp_dir demo_tree false
        ⟨demo_ctx, [] ++ [Op.mkdir_p tmp_dir] ++ [Op.mount_tmpfs demo_ctx.mount_source tmp_dir]
          ++ [Op.mount_private tmp_dir]⟩ = some (r, m1, root1) ∧
        (0 : Int) = r ∧
        demo_driver_trace = m1.trace ++ [Op.umount2_detach tmp_dir] ++ [Op.rmdir tmp_dir] ∧
        ({ demo_ctx with stats := ⟨3, 0, 0⟩ } : MagicMount) =
          (if r ≠ 0 then m1.inc_fail else m1).ctx) :=
  ⟨rfl,
    ((magic_mount_returns demo_built 70 demo_ctx "/tmp" []).2 demo_tree rfl).1 64
      (demo_world_depth _ _ _ demo_fs_names) (by decide),
    ((magic_mount_returns demo_built 70 demo_ctx "/tmp" []).2 demo_tree rfl).2 0
      { demo_ctx with stats := ⟨3, 0, 0⟩ } demo_driver_trace rfl⟩

/-- C9 fails on the code: the staging workdir is recognised by the fixed text
`.magic_mount/workdir/`, whatever `tmp_root` the caller has chosen.  With
`tmp_root = "/tmp"` the workdir is `/tmp/workdir`; the file `hosts` staged
below it (`has_tmpfs = true`, bind target `/tmp/workdir/etc/hosts`) triggers
the notification of `/etc/hosts`, both in a direct call of
`mm_apply_regular_file` and in the run of the driver on `demo_tree`. -/
theorem staged_file_notified_outside_default_workdir :
    demo_join "/tmp" "workdir" = some "/tmp/workdir" ∧
    mm_apply_regular_file (demo_world demo_join demo_fs [] none) "/etc/hosts"
        "/tmp/workdir/etc/hosts"
        (demo_node "hosts" NFT_REGULAR [] (some "/data/adb/modules/a/etc/hosts")) true
        ⟨demo_ctx, []⟩ =
      (0, ⟨{ demo_ctx with stats := ⟨1, 0, 0⟩ },
        [Op.mkdir_p "/tmp/workdir/etc", Op.open_creat "/tmp/workdir/etc/hosts" 0o644,
         Op.mount_bind "/data/adb/modules/a/etc/hosts" "/tmp/workdir/etc/hosts",
         Op.ksu_send_unmountable "/etc/hosts",
         Op.mount_remount_ro "/tmp/workdir/etc/hosts"]⟩) ∧
    magic_mount (demo_world demo_join demo_fs [] (some demo_tree)) 5 (some demo_ctx) "/tmp"
        [] =
      some (0, some { demo_ctx with stats := ⟨3, 0, 0⟩ },
        [Op.mkdir_p "/tmp/workdir", Op.mount_tmpfs "KSU" "/tmp/workdir",
         Op.mount_private "/tmp/workdir", Op.mkdir_p "/tmp/workdir/etc",
         Op.chmod "/tmp/workdir/etc" 0o755, Op.chown "/tmp/workdir/etc" 0 0,
         Op.copy_selcon "/etc" "/tmp/workdir/etc",
         Op.mount_bind "/tmp/workdir/etc" "/tmp/workdir/etc",
         Op.mkdir_p "/tmp/workdir/etc", Op.open_creat "/tmp/workdir/etc/hosts" 0o644,
         Op.mount_bind "/data/adb/modules/a/etc/hosts" "/tmp/workdir/etc/hosts",
         Op.ksu_send_unmountable "/etc/hosts",
         Op.mount_remount_ro "/tmp/workdir/etc/hosts",
         Op.mount_remount_ro "/tmp/workdir/etc", Op.mount_move "/tmp/workdir/etc" "/etc",
         Op.mount_private "/etc", Op.ksu_send_unmountable "/etc",
         Op.umount2_detach "/tmp/workdir", Op.rmdir "/tmp/workdir"]) :=
  ⟨rfl, rfl, rfl⟩

/-- C10, at an example: the directory `opt`, whose WHITEOUT child is applied
and whose REGULAR child the oracle skips. -/
theorem apply_counts_live_nodes_witness :
    1 + 1 = 0 + 0 + demo_mixed_dir_after.live_count ∧
    1 = 0 + demo_mixed_dir_after.live_whiteouts :=
  apply_counts_live_nodes (demo_world demo_join [] [] none) (empty_world_nodup _) 3 ""
    "/w" demo_mixed_dir false ⟨demo_ctx, []⟩ ⟨{ demo_ctx with stats := ⟨1, 0, 1⟩ }, []⟩
    demo_mixed_dir_after rfl rfl rfl

